import Mathlib

/-!
# User service: entity, in-memory repository and use cases

A shallow embedding of the Go packages `entities`, `infrastructure/database`,
`interfaces/repository` and `use_cases`, and the properties of the user
service proved over it.

Modelling conventions.

* A Go method with a pointer receiver that mutates its receiver becomes a
  function that takes the old value and returns the new one next to its
  result.  A `*entities.User` argument that a method writes to (`Create`
  assigns `user.ID`) is returned as well.
* A Go `error` result is an `Option Err` (`none` is `nil`).  A
  `(*entities.User, error)` result is an `Except Err User`: every repository
  of the code base returns either `(nil, err)` or `(user, nil)`.
* A Go `map` is a `Finmap`: a finite map without any order on its entries,
  two maps being equal when they hold the same entries.
* Go `int` is `Int`.  The only arithmetic on it is `nextID++`, which wraps
  around after `2 ^ 63 - 1` successful creates (`2 ^ 31 - 1` where `int` has 32
  bits); the value model describes the store up to there.  The namespace
  `Machine` has `Create` and the runs with the counter in an `int` of a given
  width, for the properties that are about the sequence of the ids;
  `Create_wrapped_eq` relates the two.
* `time.Time` is an integer number of clock ticks; each call of `time.Now()`
  is an explicit argument, so no relation between two clock readings is
  assumed.
* Records are stored by value.  The repository stores the pointer it is
  given and hands out copies on reads; the value model describes every run
  in which a caller does not write to a record after handing it over.  The
  namespace `Heap` has the repository with its records at addresses, for the
  properties that are about pointers and for the runs in which a caller does
  write to such a record; `Heap.Create_abstracts`, `Heap.Update_abstracts` and
  `Heap.Delete_abstracts` relate the two.
-/

namespace AgentOrchestration

/-! ## entities/errors.go -/

/-- The error values of `entities/errors.go`; `other` stands for any error
that is not one of the declared values, with its message. -/
inductive Err where
  | ErrUserNotFound
  | ErrUserNameRequired
  | ErrUserEmailRequired
  | ErrUserAlreadyExists
  | ErrInvalidID
  | ErrInternalServer
  | other (msg : String)
deriving DecidableEq, Repr

/-! ## entities/user.go -/

/-- A reading of the clock (`time.Time`). -/
abbrev Time := Int

/-- The `entities.User` record. -/
structure User where
  ID : Int
  Name : String
  Email : String
  Created : Time
  Updated : Time
deriving DecidableEq, Repr

/-- `User.Validate`: the name is checked before the email. -/
def User.Validate (u : User) : Option Err :=
  if u.Name = "" then some Err.ErrUserNameRequired
  else if u.Email = "" then some Err.ErrUserEmailRequired
  else none

/-- `User.IsValid`. -/
def User.IsValid (u : User) : Bool :=
  u.Validate == none

/-- `User.UpdateName`; `now` is the reading `time.Now()` returns when it is
called. -/
def User.UpdateName (u : User) (name : String) (now : Time) : Option Err × User :=
  if name = "" then (some Err.ErrUserNameRequired, u)
  else (none, { u with Name := name, Updated := now })

/-- `User.UpdateEmail`; `now` is the reading `time.Now()` returns when it is
called. -/
def User.UpdateEmail (u : User) (email : String) (now : Time) : Option Err × User :=
  if email = "" then (some Err.ErrUserEmailRequired, u)
  else (none, { u with Email := email, Updated := now })

/-! ## interfaces/repository/user_repository.go -/

/-- The `repository.UserRepository` interface over a state type `σ`: each
method takes the state before the call and returns the state after it. -/
structure UserRepository (σ : Type) where
  Create : σ → User → (Option Err × User) × σ
  GetByID : σ → Int → Except Err User × σ
  GetByEmail : σ → String → Except Err User × σ
  Update : σ → User → (Option Err × User) × σ
  Delete : σ → Int → Option Err × σ
  List : σ → Except Err (Multiset User) × σ

/-! ## infrastructure/database/user_repository.go -/

/-- The `InMemoryUserRepository` struct without its mutex. -/
structure InMemoryUserRepository where
  users : Finmap (fun _ : Int => User)
  emails : Finmap (fun _ : String => User)
  nextID : Int

/-- `NewInMemoryUserRepository`. -/
def NewInMemoryUserRepository : InMemoryUserRepository :=
  { users := ∅, emails := ∅, nextID := 1 }

namespace InMemoryUserRepository

/-- `InMemoryUserRepository.Create`, the counter taken without a bound;
`Machine.Create` is the method with the counter in an `int` of a given
width. -/
def Create (r : InMemoryUserRepository) (user : User) :
    (Option Err × User) × InMemoryUserRepository :=
  match r.emails.lookup user.Email with
  | some _ => ((some Err.ErrUserAlreadyExists, user), r)
  | none =>
    let user : User := { user with ID := r.nextID }
    ((none, user),
      { users := r.users.insert user.ID user
        emails := r.emails.insert user.Email user
        nextID := r.nextID + 1 })

/-- `InMemoryUserRepository.GetByID`. -/
def GetByID (r : InMemoryUserRepository) (id : Int) :
    Except Err User × InMemoryUserRepository :=
  match r.users.lookup id with
  | none => (Except.error Err.ErrUserNotFound, r)
  | some user => (Except.ok user, r)

/-- `InMemoryUserRepository.GetByEmail`. -/
def GetByEmail (r : InMemoryUserRepository) (email : String) :
    Except Err User × InMemoryUserRepository :=
  match r.emails.lookup email with
  | none => (Except.error Err.ErrUserNotFound, r)
  | some user => (Except.ok user, r)

/-- `InMemoryUserRepository.Update`: the old email entry is removed first and
put back when the new email belongs to another user. -/
def Update (r : InMemoryUserRepository) (user : User) :
    (Option Err × User) × InMemoryUserRepository :=
  match r.users.lookup user.ID with
  | none => ((some Err.ErrUserNotFound, user), r)
  | some existing =>
    let emails := r.emails.erase existing.Email
    let conflict : Bool :=
      match emails.lookup user.Email with
      | some emailUser => decide (emailUser.ID ≠ user.ID)
      | none => false
    if conflict then
      ((some Err.ErrUserAlreadyExists, user),
        { r with emails := emails.insert existing.Email existing })
    else
      ((none, user),
        { r with
          users := r.users.insert user.ID user
          emails := emails.insert user.Email user })

/-- `InMemoryUserRepository.Delete`. -/
def Delete (r : InMemoryUserRepository) (id : Int) :
    Option Err × InMemoryUserRepository :=
  match r.users.lookup id with
  | none => (some Err.ErrUserNotFound, r)
  | some user =>
    (none, { r with users := r.users.erase id, emails := r.emails.erase user.Email })

/-- `InMemoryUserRepository.List`: the stored records, in no particular
order. -/
def List (r : InMemoryUserRepository) :
    Except Err (Multiset User) × InMemoryUserRepository :=
  (Except.ok (r.users.entries.map Sigma.snd), r)

end InMemoryUserRepository

/-- The in-memory repository as an implementation of the interface. -/
def inMemory : UserRepository InMemoryUserRepository :=
  { Create := InMemoryUserRepository.Create
    GetByID := InMemoryUserRepository.GetByID
    GetByEmail := InMemoryUserRepository.GetByEmail
    Update := InMemoryUserRepository.Update
    Delete := InMemoryUserRepository.Delete
    List := InMemoryUserRepository.List }

/-! ## use_cases/user_use_case.go -/

namespace UserUseCase

/-- `UserUseCase.CreateUser`; `now1` and `now2` are the two readings of
`time.Now()` for `Created` and `Updated`. -/
def CreateUser {σ : Type} (userRepo : UserRepository σ) (s : σ)
    (name email : String) (now1 now2 : Time) : Except Err User × σ :=
  match userRepo.GetByEmail s email with
  | (Except.ok _, s) => (Except.error Err.ErrUserAlreadyExists, s)
  | (Except.error _, s) =>
    let user : User :=
      { ID := 0, Name := name, Email := email, Created := now1, Updated := now2 }
    match user.Validate with
    | some err => (Except.error err, s)
    | none =>
      match userRepo.Create s user with
      | ((some err, _), s) => (Except.error err, s)
      | ((none, user), s) => (Except.ok user, s)

/-- `UserUseCase.GetUserByID`. -/
def GetUserByID {σ : Type} (userRepo : UserRepository σ) (s : σ) (id : Int) :
    Except Err User × σ :=
  if id ≤ 0 then (Except.error Err.ErrInvalidID, s)
  else
    match userRepo.GetByID s id with
    | (Except.error err, s) => (Except.error err, s)
    | (Except.ok user, s) => (Except.ok user, s)

/-- `UserUseCase.UpdateUser`; `now1` is the clock reading of `UpdateName` and
`now2` that of `UpdateEmail`, each used only when the call is made. -/
def UpdateUser {σ : Type} (userRepo : UserRepository σ) (s : σ) (id : Int)
    (name email : String) (now1 now2 : Time) : Except Err User × σ :=
  if id ≤ 0 then (Except.error Err.ErrInvalidID, s)
  else
    match userRepo.GetByID s id with
    | (Except.error err, s) => (Except.error err, s)
    | (Except.ok user, s) =>
      match (if name ≠ "" then user.UpdateName name now1 else (none, user)) with
      | (some err, _) => (Except.error err, s)
      | (none, user) =>
        match (if email ≠ "" then user.UpdateEmail email now2 else (none, user)) with
        | (some err, _) => (Except.error err, s)
        | (none, user) =>
          match userRepo.Update s user with
          | ((some err, _), s) => (Except.error err, s)
          | ((none, user), s) => (Except.ok user, s)

/-- `UserUseCase.DeleteUser`. -/
def DeleteUser {σ : Type} (userRepo : UserRepository σ) (s : σ) (id : Int) :
    Option Err × σ :=
  if id ≤ 0 then (some Err.ErrInvalidID, s)
  else
    match userRepo.GetByID s id with
    | (Except.error err, s) => (some err, s)
    | (Except.ok _, s) => userRepo.Delete s id

/-- `UserUseCase.ListUsers`. -/
def ListUsers {σ : Type} (userRepo : UserRepository σ) (s : σ) :
    Except Err (Multiset User) × σ :=
  userRepo.List s

end UserUseCase

/-! ## internal/mocks/user_repository_mock.go -/

/-- One recorded call of a repository method, with its argument. -/
inductive Call where
  | Create (user : User)
  | GetByID (id : Int)
  | GetByEmail (email : String)
  | Update (user : User)
  | Delete (id : Int)
  | List
deriving DecidableEq, Repr

/-- `UserRepositoryMock`: every method appends the call to the list of
recorded calls and then runs the configured function, here the method of
`funcs`. -/
def UserRepositoryMock {σ : Type} (funcs : UserRepository σ) :
    UserRepository (σ × List Call) :=
  { Create := fun s user =>
      let res := funcs.Create s.1 user
      (res.1, (res.2, s.2 ++ [Call.Create user]))
    GetByID := fun s id =>
      let res := funcs.GetByID s.1 id
      (res.1, (res.2, s.2 ++ [Call.GetByID id]))
    GetByEmail := fun s email =>
      let res := funcs.GetByEmail s.1 email
      (res.1, (res.2, s.2 ++ [Call.GetByEmail email]))
    Update := fun s user =>
      let res := funcs.Update s.1 user
      (res.1, (res.2, s.2 ++ [Call.Update user]))
    Delete := fun s id =>
      let res := funcs.Delete s.1 id
      (res.1, (res.2, s.2 ++ [Call.Delete id]))
    List := fun s =>
      let res := funcs.List s.1
      (res.1, (res.2, s.2 ++ [Call.List])) }

/-! ## Runs of the store and of the service -/

/-- A call of one of the three mutating methods of the store. -/
inductive StoreOp where
  | create (user : User)
  | update (user : User)
  | delete (id : Int)
deriving DecidableEq, Repr

/-- The store after a call, whether the call succeeded or failed. -/
def StoreOp.apply (r : InMemoryUserRepository) : StoreOp → InMemoryUserRepository
  | StoreOp.create user => (r.Create user).2
  | StoreOp.update user => (r.Update user).2
  | StoreOp.delete id => (r.Delete id).2

/-- The store after a sequence of calls. -/
def runStore (r : InMemoryUserRepository) (ops : List StoreOp) : InMemoryUserRepository :=
  ops.foldl StoreOp.apply r

/-- A store state that a sequence of create, update and delete calls produces
from a new store, every call being handed its record by value: the caller does
not write to a record after handing it over.  The runs in which a caller does
are runs of `Heap.World`. -/
def Reachable (r : InMemoryUserRepository) : Prop :=
  ∃ ops : List StoreOp, runStore NewInMemoryUserRepository ops = r

/-- The ids that the successful `Create` calls of a run assign, in the order
of the calls. -/
def createdIDs (r : InMemoryUserRepository) : List StoreOp → List Int
  | [] => []
  | StoreOp.create user :: ops =>
    match r.Create user with
    | ((none, user), r) => user.ID :: createdIDs r ops
    | ((some _, _), r) => createdIDs r ops
  | op :: ops => createdIDs (StoreOp.apply r op) ops

/-- A call of one of the five operations of the service, with the clock
readings it takes. -/
inductive ServiceOp where
  | createUser (name email : String) (now1 now2 : Time)
  | getUserByID (id : Int)
  | updateUser (id : Int) (name email : String) (now1 now2 : Time)
  | deleteUser (id : Int)
  | listUsers
deriving DecidableEq, Repr

/-- The in-memory store after a call of the service, whether the call
succeeded or failed. -/
def ServiceOp.apply (r : InMemoryUserRepository) : ServiceOp → InMemoryUserRepository
  | ServiceOp.createUser name email now1 now2 =>
    (UserUseCase.CreateUser inMemory r name email now1 now2).2
  | ServiceOp.getUserByID id => (UserUseCase.GetUserByID inMemory r id).2
  | ServiceOp.updateUser id name email now1 now2 =>
    (UserUseCase.UpdateUser inMemory r id name email now1 now2).2
  | ServiceOp.deleteUser id => (UserUseCase.DeleteUser inMemory r id).2
  | ServiceOp.listUsers => (UserUseCase.ListUsers inMemory r).2

/-- The in-memory store after a sequence of calls of the service. -/
def runService (r : InMemoryUserRepository) (ops : List ServiceOp) : InMemoryUserRepository :=
  ops.foldl ServiceOp.apply r

/-- A store state that a sequence of service calls produces from a new
store. -/
def ServiceReachable (r : InMemoryUserRepository) : Prop :=
  ∃ ops : List ServiceOp, runService NewInMemoryUserRepository ops = r

/-- The ids of the users that the successful `CreateUser` calls of a run
return, in the order of the calls. -/
def serviceCreatedIDs (r : InMemoryUserRepository) : List ServiceOp → List Int
  | [] => []
  | ServiceOp.createUser name email now1 now2 :: ops =>
    match UserUseCase.CreateUser inMemory r name email now1 now2 with
    | (Except.ok user, r) => user.ID :: serviceCreatedIDs r ops
    | (Except.error _, r) => serviceCreatedIDs r ops
  | op :: ops => serviceCreatedIDs (ServiceOp.apply r op) ops

/-- A record of the id index: `user` is stored under the key `id`. -/
def Stored (r : InMemoryUserRepository) (id : Int) (user : User) : Prop :=
  r.users.lookup id = some user

instance decidableStored (r : InMemoryUserRepository) (id : Int) (user : User) :
    Decidable (Stored r id user) :=
  inferInstanceAs (Decidable (r.users.lookup id = some user))

/-- Some stored user holds `email`. -/
def EmailHeld (r : InMemoryUserRepository) (email : String) : Prop :=
  ∃ id user, Stored r id user ∧ user.Email = email

/-- The consistency of the two indices and the counter. -/
structure Consistent (r : InMemoryUserRepository) : Prop where
  id_key : ∀ id user, r.users.lookup id = some user → user.ID = id
  id_lt : ∀ id user, r.users.lookup id = some user → id < r.nextID
  next_pos : 0 < r.nextID
  email_iff : ∀ email user,
    r.emails.lookup email = some user ↔ r.users.lookup user.ID = some user ∧ user.Email = email

/-- Every stored user has a non-empty name and a non-empty email. -/
def NonEmptyFields (r : InMemoryUserRepository) : Prop :=
  ∀ id user, r.users.lookup id = some user → user.Name ≠ "" ∧ user.Email ≠ ""

/-- The record that `CreateUser` builds and the store completes with the
next id. -/
def createdUser (r : InMemoryUserRepository) (name email : String) (now1 now2 : Time) : User :=
  { ID := r.nextID, Name := name, Email := email, Created := now1, Updated := now2 }

/-- The record that `UpdateUser` hands to the store: `existing` with the name
replaced when `name` is not empty and then the email replaced when `email` is
not empty, `Updated` following the clock at each replacement. -/
def updatedUser (existing : User) (name email : String) (now1 now2 : Time) : User :=
  let user : User :=
    if name ≠ "" then { existing with Name := name, Updated := now1 } else existing
  if email ≠ "" then { user with Email := email, Updated := now2 } else user

/-- A stored record with an id other than `user.ID` holds `user.Email`. -/
def EmailConflict (r : InMemoryUserRepository) (user : User) : Prop :=
  ∃ id other, id ≠ user.ID ∧ Stored r id other ∧ other.Email = user.Email

/-- A repository whose every method fails with an internal error and raises
the flag that is its state: the flag is down after a run exactly when no
method was called in it. -/
def failingRepository : UserRepository Bool :=
  { Create := fun _ user => ((some Err.ErrInternalServer, user), true)
    GetByID := fun _ _ => (Except.error Err.ErrInternalServer, true)
    GetByEmail := fun _ _ => (Except.error Err.ErrInternalServer, true)
    Update := fun _ user => ((some Err.ErrInternalServer, user), true)
    Delete := fun _ _ => (some Err.ErrInternalServer, true)
    List := fun _ => (Except.error Err.ErrInternalServer, true) }

/-- The clock readings that a call of the service takes in the store state
`r`, in the order of its `time.Now()` calls.  `CreateUser` reads the clock
twice, for `Created` and then for `Updated`, once the email lookup has found
nothing.  `UpdateUser` reads it in `UpdateName` and then in `UpdateEmail`,
each of them called for a non-empty argument, once the record is found.  The
other calls do not read the clock. -/
def ServiceOp.readings (r : InMemoryUserRepository) : ServiceOp → List Time
  | ServiceOp.createUser _ email now1 now2 =>
    match (r.GetByEmail email).1 with
    | Except.ok _ => []
    | Except.error _ => [now1, now2]
  | ServiceOp.updateUser id name email now1 now2 =>
    if id ≤ 0 then []
    else
      match (r.GetByID id).1 with
      | Except.error _ => []
      | Except.ok _ =>
        (if name ≠ "" then [now1] else []) ++ (if email ≠ "" then [now2] else [])
  | _ => []

/-- The clock readings taken over a run of the service, in order. -/
def clockReadings (r : InMemoryUserRepository) : List ServiceOp → List Time
  | [] => []
  | op :: ops => ServiceOp.readings r op ++ clockReadings (ServiceOp.apply r op) ops

/-! ## interfaces/http/user_handler.go

A handler takes what the libraries made of the request: the result of
`strconv.Atoi` on the `id` segment of the path (`none` when it returns an
error) and the result of decoding the JSON body (`none` when the decoder
returns an error).  It returns the response it writes. -/

/-- `err.Error()`: the message of an error value. -/
def Err.Error : Err → String
  | Err.ErrUserNotFound => "user not found"
  | Err.ErrUserNameRequired => "user name is required"
  | Err.ErrUserEmailRequired => "user email is required"
  | Err.ErrUserAlreadyExists => "user already exists"
  | Err.ErrInvalidID => "invalid ID"
  | Err.ErrInternalServer => "internal server error"
  | Err.other msg => msg

/-- `http.StatusOK`. -/
def StatusOK : Nat := 200

/-- `http.StatusCreated`. -/
def StatusCreated : Nat := 201

/-- `http.StatusNoContent`. -/
def StatusNoContent : Nat := 204

/-- `http.StatusBadRequest`. -/
def StatusBadRequest : Nat := 400

/-- `http.StatusNotFound`. -/
def StatusNotFound : Nat := 404

/-- `http.StatusConflict`. -/
def StatusConflict : Nat := 409

/-- `http.StatusInternalServerError`. -/
def StatusInternalServerError : Nat := 500

/-- What a handler encodes as the body of a response: the map with the one
key `error`, a user, the list of users, or nothing. -/
inductive Body where
  | error (message : String)
  | user (user : User)
  | users (users : Multiset User)
  | empty

/-- The response that a handler writes: status code, `Content-Type` header
and body. -/
structure Response where
  status : Nat
  contentType : Option String
  body : Body

/-- `CreateUserRequest`. -/
structure CreateUserRequest where
  Name : String
  Email : String

/-- `UpdateUserRequest`. -/
structure UpdateUserRequest where
  Name : String
  Email : String

namespace UserHandler

/-- `UserHandler.writeJSON`. -/
def writeJSON (status : Nat) (data : Body) : Response :=
  { status := status, contentType := some "application/json", body := data }

/-- `UserHandler.writeError`. -/
def writeError (status : Nat) (message : String) : Response :=
  { status := status, contentType := some "application/json", body := Body.error message }

/-- `UserHandler.CreateUser`, the handler of `POST /users`. -/
def CreateUser {σ : Type} (userRepo : UserRepository σ) (s : σ)
    (decoded : Option CreateUserRequest) (now1 now2 : Time) : Response × σ :=
  match decoded with
  | none => (writeError StatusBadRequest "invalid request body", s)
  | some req =>
    match UserUseCase.CreateUser userRepo s req.Name req.Email now1 now2 with
    | (Except.error err, s) =>
      (match err with
        | Err.ErrUserAlreadyExists => writeError StatusConflict err.Error
        | Err.ErrUserNameRequired => writeError StatusBadRequest err.Error
        | Err.ErrUserEmailRequired => writeError StatusBadRequest err.Error
        | _ => writeError StatusInternalServerError "failed to create user", s)
    | (Except.ok user, s) => (writeJSON StatusCreated (Body.user user), s)

/-- `UserHandler.GetUser`, the handler of `GET /users/{id}`. -/
def GetUser {σ : Type} (userRepo : UserRepository σ) (s : σ) (atoi : Option Int) :
    Response × σ :=
  match atoi with
  | none => (writeError StatusBadRequest "invalid user ID", s)
  | some id =>
    match UserUseCase.GetUserByID userRepo s id with
    | (Except.error err, s) =>
      (match err with
        | Err.ErrUserNotFound => writeError StatusNotFound err.Error
        | Err.ErrInvalidID => writeError StatusBadRequest err.Error
        | _ => writeError StatusInternalServerError "failed to get user", s)
    | (Except.ok user, s) => (writeJSON StatusOK (Body.user user), s)

/-- `UserHandler.UpdateUser`, the handler of `PUT /users/{id}`. -/
def UpdateUser {σ : Type} (userRepo : UserRepository σ) (s : σ) (atoi : Option Int)
    (decoded : Option UpdateUserRequest) (now1 now2 : Time) : Response × σ :=
  match atoi with
  | none => (writeError StatusBadRequest "invalid user ID", s)
  | some id =>
    match decoded with
    | none => (writeError StatusBadRequest "invalid request body", s)
    | some req =>
      match UserUseCase.UpdateUser userRepo s id req.Name req.Email now1 now2 with
      | (Except.error err, s) =>
        (match err with
          | Err.ErrUserNotFound => writeError StatusNotFound err.Error
          | Err.ErrInvalidID => writeError StatusBadRequest err.Error
          | Err.ErrUserNameRequired => writeError StatusBadRequest err.Error
          | Err.ErrUserEmailRequired => writeError StatusBadRequest err.Error
          | _ => writeError StatusInternalServerError "failed to update user", s)
      | (Except.ok user, s) => (writeJSON StatusOK (Body.user user), s)

/-- `UserHandler.DeleteUser`, the handler of `DELETE /users/{id}`: on success
only the status is written. -/
def DeleteUser {σ : Type} (userRepo : UserRepository σ) (s : σ) (atoi : Option Int) :
    Response × σ :=
  match atoi with
  | none => (writeError StatusBadRequest "invalid user ID", s)
  | some id =>
    match UserUseCase.DeleteUser userRepo s id with
    | (some err, s) =>
      (match err with
        | Err.ErrUserNotFound => writeError StatusNotFound err.Error
        | Err.ErrInvalidID => writeError StatusBadRequest err.Error
        | _ => writeError StatusInternalServerError "failed to delete user", s)
    | (none, s) => ({ status := StatusNoContent, contentType := none, body := Body.empty }, s)

/-- `UserHandler.ListUsers`, the handler of `GET /users`. -/
def ListUsers {σ : Type} (userRepo : UserRepository σ) (s : σ) : Response × σ :=
  match UserUseCase.ListUsers userRepo s with
  | (Except.error _, s) =>
    (writeError StatusInternalServerError "failed to list users", s)
  | (Except.ok users, s) => (writeJSON StatusOK (Body.users users), s)

end UserHandler

/-- A repository that finds John under every id and whose `Update` rejects
every record with `ErrUserNameRequired`, as a store that validates the
records it is given may do. -/
def validatingRepository : UserRepository Unit :=
  { Create := fun s user => ((some Err.ErrUserNameRequired, user), s)
    GetByID := fun s id =>
      (Except.ok { ID := id, Name := "John Doe", Email := "john@example.com",
                   Created := 1, Updated := 2 }, s)
    GetByEmail := fun s _ => (Except.error Err.ErrUserNotFound, s)
    Update := fun s user => ((some Err.ErrUserNameRequired, user), s)
    Delete := fun s _ => (some Err.ErrUserNotFound, s)
    List := fun s => (Except.ok 0, s) }

/-! ## Concrete stores for the examples -/

/-- The first user of the example scenario, as stored. -/
def john : User :=
  { ID := 1, Name := "John Doe", Email := "john@example.com", Created := 1, Updated := 2 }

/-- The second user of the example scenario, as stored. -/
def jane : User :=
  { ID := 2, Name := "Jane Doe", Email := "jane@example.com", Created := 3, Updated := 4 }

/-- The store after the service created John. -/
def johnStore : InMemoryUserRepository :=
  runService NewInMemoryUserRepository
    [ServiceOp.createUser "John Doe" "john@example.com" 1 2]

/-- The store after the service created John and then Jane. -/
def twoUserStore : InMemoryUserRepository :=
  runService NewInMemoryUserRepository
    [ServiceOp.createUser "John Doe" "john@example.com" 1 2,
     ServiceOp.createUser "Jane Doe" "jane@example.com" 3 4]

/-- The calls of the store that produce `twoUserStore`. -/
def twoUserOps : List StoreOp :=
  [StoreOp.create { ID := 0, Name := "John Doe", Email := "john@example.com", Created := 1, Updated := 2 },
   StoreOp.create { ID := 0, Name := "Jane Doe", Email := "jane@example.com", Created := 3, Updated := 4 }]

/-- A repository as the tests configure the mock, but with an email lookup
that fails with a storage error: `GetByEmail` returns
`(nil, errors.New("database error"))`, and `Create` assigns the id 1 and
succeeds. -/
def faultyLookupRepository : UserRepository Unit :=
  { Create := fun s user => ((none, { user with ID := 1 }), s)
    GetByID := fun s _ => (Except.error Err.ErrUserNotFound, s)
    GetByEmail := fun s _ => (Except.error (Err.other "database error"), s)
    Update := fun s user => ((none, user), s)
    Delete := fun s _ => (none, s)
    List := fun s => (Except.ok 0, s) }

/-! ## The repository with its records in a heap

The maps of `InMemoryUserRepository` hold `*entities.User`.  Here a pointer is
an address and the records live in a heap, so that a record which the caller
and the store both point to is one record.  A pointer that a caller passes is
not nil. -/

namespace Heap

/-- The address of a record: a `*entities.User` that is not nil. -/
abbrev Ptr := Nat

/-- The heap of `User` records and the fields of the repository: `mem p` is
the record at the address `p`, the addresses below `next` are the allocated
ones, and the two maps hold addresses. -/
structure World where
  mem : Ptr → User
  next : Ptr
  users : Finmap (fun _ : Int => Ptr)
  emails : Finmap (fun _ : String => Ptr)
  nextID : Int

/-- An empty heap and the repository that `NewInMemoryUserRepository`
returns. -/
def World.new : World :=
  { mem := fun _ => { ID := 0, Name := "", Email := "", Created := 0, Updated := 0 }
    next := 0
    users := ∅
    emails := ∅
    nextID := 1 }

/-- The allocation of a record, `&entities.User{...}` or
`userCopy := *user; &userCopy`: the address of the new record and the heap
with it. -/
def World.alloc (w : World) (u : User) : Ptr × World :=
  (w.next, { w with mem := Function.update w.mem w.next u, next := w.next + 1 })

/-- An assignment to the record at an address, by the store or by a caller
that holds the pointer. -/
def World.store (w : World) (p : Ptr) (u : User) : World :=
  { w with mem := Function.update w.mem p u }

/-- `InMemoryUserRepository.Create`: the pointer itself is put in the two
maps. -/
def World.Create (w : World) (user : Ptr) : Option Err × World :=
  match w.emails.lookup (w.mem user).Email with
  | some _ => (some Err.ErrUserAlreadyExists, w)
  | none =>
    let w := w.store user { w.mem user with ID := w.nextID }
    let w := { w with nextID := w.nextID + 1 }
    (none,
      { w with
        users := w.users.insert (w.mem user).ID user
        emails := w.emails.insert (w.mem user).Email user })

/-- `InMemoryUserRepository.GetByID`: the address of a copy. -/
def World.GetByID (w : World) (id : Int) : Except Err Ptr × World :=
  match w.users.lookup id with
  | none => (Except.error Err.ErrUserNotFound, w)
  | some user =>
    let userCopy := w.alloc (w.mem user)
    (Except.ok userCopy.1, userCopy.2)

/-- `InMemoryUserRepository.GetByEmail`: the address of a copy. -/
def World.GetByEmail (w : World) (email : String) : Except Err Ptr × World :=
  match w.emails.lookup email with
  | none => (Except.error Err.ErrUserNotFound, w)
  | some user =>
    let userCopy := w.alloc (w.mem user)
    (Except.ok userCopy.1, userCopy.2)

/-- `InMemoryUserRepository.Update`: the pointer itself is put in the two
maps; the old email is read from the record that the id index points to. -/
def World.Update (w : World) (user : Ptr) : Option Err × World :=
  match w.users.lookup (w.mem user).ID with
  | none => (some Err.ErrUserNotFound, w)
  | some existing =>
    let emails := w.emails.erase (w.mem existing).Email
    let conflict : Bool :=
      match emails.lookup (w.mem user).Email with
      | some emailUser => decide ((w.mem emailUser).ID ≠ (w.mem user).ID)
      | none => false
    if conflict then
      (some Err.ErrUserAlreadyExists,
        { w with emails := emails.insert (w.mem existing).Email existing })
    else
      (none,
        { w with
          users := w.users.insert (w.mem user).ID user
          emails := emails.insert (w.mem user).Email user })

/-- `InMemoryUserRepository.Delete`. -/
def World.Delete (w : World) (id : Int) : Option Err × World :=
  match w.users.lookup id with
  | none => (some Err.ErrUserNotFound, w)
  | some user =>
    (none, { w with users := w.users.erase id, emails := w.emails.erase (w.mem user).Email })

/-- `UserUseCase.CreateUser` over the heap: the pointer that it returns is
the pointer that it gave to `Create`. -/
def World.CreateUser (w : World) (name email : String) (now1 now2 : Time) :
    Except Err Ptr × World :=
  match w.GetByEmail email with
  | (Except.ok _, w) => (Except.error Err.ErrUserAlreadyExists, w)
  | (Except.error _, w) =>
    let user := w.alloc
      { ID := 0, Name := name, Email := email, Created := now1, Updated := now2 }
    match (user.2.mem user.1).Validate with
    | some err => (Except.error err, user.2)
    | none =>
      match user.2.Create user.1 with
      | (some err, w) => (Except.error err, w)
      | (none, w) => (Except.ok user.1, w)

/-- The body of the loop of `List`: every record is copied to a new address,
one after the other. -/
def copyAll (w : World) : List Ptr → List Ptr × World
  | [] => ([], w)
  | user :: rest =>
    let userCopy := w.alloc (w.mem user)
    let res := copyAll userCopy.2 rest
    (userCopy.1 :: res.1, res.2)

/-- The addresses that the id index holds, by ascending id. -/
def World.stored (w : World) : List Ptr :=
  (w.users.keys.sort (fun a b => a ≤ b)).filterMap (fun id => w.users.lookup id)

/-- `InMemoryUserRepository.List`: the addresses of copies of the stored
records.  Go leaves the order of the iteration over a map open; here the
records come by ascending id. -/
def World.List (w : World) : Except Err (List Ptr) × World :=
  let res := copyAll w w.stored
  (Except.ok res.1, res.2)

/-- The record that a `GetByID` returns: the record at the address it hands
out. -/
def readByID (w : World) (id : Int) : Except Err User :=
  match w.GetByID id with
  | (Except.ok p, w) => Except.ok (w.mem p)
  | (Except.error err, _) => Except.error err

/-- The record that a `GetByEmail` returns. -/
def readByEmail (w : World) (email : String) : Except Err User :=
  match w.GetByEmail email with
  | (Except.ok p, w) => Except.ok (w.mem p)
  | (Except.error err, _) => Except.error err

/-- The records that a `List` returns. -/
def readList (w : World) : Except Err (List User) :=
  match w.List with
  | (Except.ok ps, w) => Except.ok (ps.map w.mem)
  | (Except.error err, _) => Except.error err

/-- Every address that one of the two maps holds is allocated. -/
def World.WellFormed (w : World) : Prop :=
  (∀ id p, w.users.lookup id = some p → p < w.next) ∧
    (∀ email p, w.emails.lookup email = some p → p < w.next)

/-- Two worlds with the same store: the same maps and counter, the same
record at every address that the id index holds, and the same records
returned by the three reads. -/
def SameStore (a b : World) : Prop :=
  a.users = b.users ∧ a.emails = b.emails ∧ a.nextID = b.nextID ∧
    (∀ id p, b.users.lookup id = some p → a.mem p = b.mem p) ∧
    (∀ id, readByID a id = readByID b id) ∧
    (∀ email, readByEmail a email = readByEmail b email) ∧
    readList a = readList b

/-- The store of a world, record by record, is the store `r` of the value
model: each map of the world, followed through the heap, is the map of `r`,
and the counters agree. -/
def Abstracts (w : World) (r : InMemoryUserRepository) : Prop :=
  (∀ id, (w.users.lookup id).map w.mem = r.users.lookup id) ∧
    (∀ email, (w.emails.lookup email).map w.mem = r.emails.lookup email) ∧
    w.nextID = r.nextID

/-- The heap and the pointer after `CreateUser` for John on a new
repository. -/
def johnCreated : Except Err Ptr × World :=
  World.new.CreateUser "John Doe" "john@example.com" 1 2

/-- The heap and the pointer after `CreateUser` for Jane, after John. -/
def janeCreated : Except Err Ptr × World :=
  johnCreated.2.CreateUser "Jane Doe" "jane@example.com" 3 4

/-- The heap after the caller allocated a new record for John, at address 2,
and `Update` stored it. -/
def johnUpdated : Option Err × World :=
  (janeCreated.2.alloc { john with Name := "John Updated" }).2.Update 2

/-- The heap after the caller assigned Jane's email to the record that
`CreateUser` returned for John, at address 0: `user.Email = ...` on the pointer
that the store holds as well. -/
def johnRewritten : World :=
  janeCreated.2.store 0 { john with Email := "jane@example.com" }

/-- The result of `Update` with that record: `repo.Update(user)` after the
assignment, as in the repository test. -/
def johnAliased : Option Err × World :=
  johnRewritten.Update 0

/-- The same with an email that nobody holds: the assignment, then
`Update`. -/
def johnMoved : Option Err × World :=
  (janeCreated.2.store 0 { john with Email := "johnny@example.com" }).Update 0

/-- After `johnAliased`, an `Update` with a new record, at address 2, for
the id 2 and with John's first email. -/
def janeRejected : Option Err × World :=
  (johnAliased.2.alloc
    { ID := 2, Name := "Jane Doe", Email := "john@example.com", Created := 3,
      Updated := 9 }).2.Update 2

end Heap

/-! ## The counter as a machine integer

Go's `int` has 32 or 64 bits, and `r.nextID++` wraps around at its largest
value.  The definitions above take `int` without a bound, which describes the
store as long as the counter has not reached that value.  The definitions
here are `Create` and the runs with the counter in an `int` of `bits` bits;
the claims on the sequence of the ids are settled on them. -/

namespace Machine

/-- The value that an `int` of `bits` bits holds after an operation with the
exact result `x`: the two's complement representative of `x` modulo
`2 ^ bits`. -/
def wrap (bits : Nat) (x : Int) : Int :=
  (x + 2 ^ (bits - 1)) % 2 ^ bits - 2 ^ (bits - 1)

/-- `InMemoryUserRepository.Create` with `r.nextID++` on an `int` of `bits`
bits. -/
def Create (bits : Nat) (r : InMemoryUserRepository) (user : User) :
    (Option Err × User) × InMemoryUserRepository :=
  match r.emails.lookup user.Email with
  | some _ => ((some Err.ErrUserAlreadyExists, user), r)
  | none =>
    let user : User := { user with ID := r.nextID }
    ((none, user),
      { users := r.users.insert user.ID user
        emails := r.emails.insert user.Email user
        nextID := wrap bits (r.nextID + 1) })

/-- The in-memory repository with the counter in an `int` of `bits` bits. -/
def inMemory (bits : Nat) : UserRepository InMemoryUserRepository :=
  { Create := Create bits
    GetByID := InMemoryUserRepository.GetByID
    GetByEmail := InMemoryUserRepository.GetByEmail
    Update := InMemoryUserRepository.Update
    Delete := InMemoryUserRepository.Delete
    List := InMemoryUserRepository.List }

/-- The store after a call, whether the call succeeded or failed. -/
def apply (bits : Nat) (r : InMemoryUserRepository) : StoreOp → InMemoryUserRepository
  | StoreOp.create user => (Create bits r user).2
  | StoreOp.update user => (r.Update user).2
  | StoreOp.delete id => (r.Delete id).2

/-- The store after a sequence of calls. -/
def runStore (bits : Nat) (r : InMemoryUserRepository) (ops : List StoreOp) :
    InMemoryUserRepository :=
  ops.foldl (apply bits) r

/-- The ids that the successful `Create` calls of a run assign, in the order
of the calls. -/
def createdIDs (bits : Nat) (r : InMemoryUserRepository) : List StoreOp → List Int
  | [] => []
  | StoreOp.create user :: ops =>
    match Create bits r user with
    | ((none, user), r) => user.ID :: createdIDs bits r ops
    | ((some _, _), r) => createdIDs bits r ops
  | op :: ops => createdIDs bits (apply bits r op) ops

/-- The store after a call of the service, whether the call succeeded or
failed. -/
def serviceApply (bits : Nat) (r : InMemoryUserRepository) :
    ServiceOp → InMemoryUserRepository
  | ServiceOp.createUser name email now1 now2 =>
    (UserUseCase.CreateUser (inMemory bits) r name email now1 now2).2
  | ServiceOp.getUserByID id => (UserUseCase.GetUserByID (inMemory bits) r id).2
  | ServiceOp.updateUser id name email now1 now2 =>
    (UserUseCase.UpdateUser (inMemory bits) r id name email now1 now2).2
  | ServiceOp.deleteUser id => (UserUseCase.DeleteUser (inMemory bits) r id).2
  | ServiceOp.listUsers => (UserUseCase.ListUsers (inMemory bits) r).2

/-- The store after a sequence of calls of the service. -/
def runService (bits : Nat) (r : InMemoryUserRepository) (ops : List ServiceOp) :
    InMemoryUserRepository :=
  ops.foldl (serviceApply bits) r

/-- The ids of the users that the successful `CreateUser` calls of a run
return, in the order of the calls. -/
def serviceCreatedIDs (bits : Nat) (r : InMemoryUserRepository) : List ServiceOp → List Int
  | [] => []
  | ServiceOp.createUser name email now1 now2 :: ops =>
    match UserUseCase.CreateUser (inMemory bits) r name email now1 now2 with
    | (Except.ok user, r) => user.ID :: serviceCreatedIDs bits r ops
    | (Except.error _, r) => serviceCreatedIDs bits r ops
  | op :: ops => serviceCreatedIDs bits (serviceApply bits r op) ops

/-- An email for every number: `u`, `uu`, `uuu`, ... -/
def emailOf (i : Nat) : String :=
  String.mk (List.replicate (i + 1) 'u')

/-- The run of `n` calls of `Create` with the emails `emailOf i`,
`emailOf (i + 1)`, ... -/
def distinctCreates : Nat → Nat → List StoreOp
  | _, 0 => []
  | i, n + 1 =>
    StoreOp.create ⟨0, "User", emailOf i, 0, 0⟩ :: distinctCreates (i + 1) n

/-- The run of `n` calls of `CreateUser` with the emails `emailOf i`,
`emailOf (i + 1)`, ... -/
def distinctCreateUsers : Nat → Nat → List ServiceOp
  | _, 0 => []
  | i, n + 1 =>
    ServiceOp.createUser "User" (emailOf i) 0 0 :: distinctCreateUsers (i + 1) n

end Machine

/-! ## Concurrent calls of `CreateUser`

Goroutines that run `UserUseCase.CreateUser` on one in-memory repository.
Every method of the repository holds the mutex of the repository from its
first statement to its return, so a goroutine meets the others at two points
only: its call of `GetByEmail` and its call of `Create`.  What it does between
the two, building the record, reading the clock and validating, touches
nothing that is shared. -/

/-- The arguments of one call of `CreateUser` and the two readings of
`time.Now()` that the call takes. -/
structure CreateArgs where
  name : String
  email : String
  now1 : Time
  now2 : Time

/-- Where a goroutine that runs `CreateUser` stands: before its call of
`GetByEmail`, before its call of `Create` with the validated record, or after
its return. -/
inductive Goroutine where
  | called (args : CreateArgs)
  | creating (user : User)
  | returned (result : Except Err User)

/-- One turn of a goroutine on the store `r`: from `called`, the body of
`CreateUser` up to the call of `Create`; from `creating`, the call of `Create`
and the return. -/
def Goroutine.step (r : InMemoryUserRepository) :
    Goroutine → Goroutine × InMemoryUserRepository
  | Goroutine.called args =>
    match r.GetByEmail args.email with
    | (Except.ok _, r) => (Goroutine.returned (Except.error Err.ErrUserAlreadyExists), r)
    | (Except.error _, r) =>
      let user : User :=
        { ID := 0, Name := args.name, Email := args.email, Created := args.now1,
          Updated := args.now2 }
      match user.Validate with
      | some err => (Goroutine.returned (Except.error err), r)
      | none => (Goroutine.creating user, r)
  | Goroutine.creating user =>
    match r.Create user with
    | ((some err, _), r) => (Goroutine.returned (Except.error err), r)
    | ((none, user), r) => (Goroutine.returned (Except.ok user), r)
  | Goroutine.returned result => (Goroutine.returned result, r)

/-- Whether the goroutine has returned from `CreateUser`. -/
def Goroutine.hasReturned : Goroutine → Bool
  | Goroutine.returned _ => true
  | _ => false

/-- The number of turns that a goroutine can still take. -/
def Goroutine.stepsLeft : Goroutine → Nat
  | Goroutine.called _ => 2
  | Goroutine.creating _ => 1
  | Goroutine.returned _ => 0

/-- The repository and the goroutines that share it. -/
structure Pool where
  store : InMemoryUserRepository
  goroutines : List Goroutine

/-- The goroutines of `calls`, all about to start, on a new repository. -/
def Pool.start (calls : List CreateArgs) : Pool :=
  { store := NewInMemoryUserRepository, goroutines := calls.map Goroutine.called }

/-- The scheduler gives the goroutine number `i` its next turn. -/
def Pool.step (p : Pool) (i : Nat) : Pool :=
  match p.goroutines[i]? with
  | none => p
  | some g =>
    { store := (g.step p.store).2, goroutines := p.goroutines.set i (g.step p.store).1 }

/-- The turns are taken in the order of `schedule`. -/
def Pool.run (p : Pool) (schedule : List Nat) : Pool :=
  schedule.foldl Pool.step p

/-- Every goroutine has returned. -/
def Pool.finished (p : Pool) : Bool :=
  p.goroutines.all Goroutine.hasReturned

/-- What the state of a goroutine that was started with `args` says about
the store `r`. -/
def Goroutine.Agrees (r : InMemoryUserRepository) (args : CreateArgs) : Goroutine → Prop
  | Goroutine.called b => b = args
  | Goroutine.creating user =>
    user = { ID := 0, Name := args.name, Email := args.email, Created := args.now1,
             Updated := args.now2 }
  | Goroutine.returned (Except.ok user) =>
    user.Name = args.name ∧ user.Email = args.email ∧ Stored r user.ID user
  | Goroutine.returned (Except.error err) =>
    err = Err.ErrUserAlreadyExists ∧ ∃ v, r.emails.lookup args.email = some v

/-- The invariant of a pool that was started with `calls`. -/
structure PoolInv (calls : List CreateArgs) (p : Pool) : Prop where
  consistent : Consistent p.store
  length : p.goroutines.length = calls.length
  agrees : ∀ (i : Nat) (a : CreateArgs) (g : Goroutine), calls[i]? = some a →
    p.goroutines[i]? = some g → Goroutine.Agrees p.store a g
  owner : ∀ (id : Int) (u : User), Stored p.store id u →
    ∃ i : Nat, p.goroutines[i]? = some (Goroutine.returned (Except.ok u))
  inj : ∀ (i j : Nat) (u v : User),
    p.goroutines[i]? = some (Goroutine.returned (Except.ok u)) →
    p.goroutines[j]? = some (Goroutine.returned (Except.ok v)) → u.ID = v.ID → i = j

/-- Two calls of `CreateUser` with different emails. -/
def distinctCalls : List CreateArgs :=
  [⟨"User 0", "user0@example.com", 1, 2⟩, ⟨"User 1", "user1@example.com", 3, 4⟩]

/-- Two calls of `CreateUser` with the same email. -/
def sameEmailCalls : List CreateArgs :=
  [⟨"John Doe", "duplicate@example.com", 1, 2⟩, ⟨"Jane Doe", "duplicate@example.com", 3, 4⟩]

/-- Two calls of `CreateUser` with different emails, the first without a
name. -/
def namelessCalls : List CreateArgs :=
  [⟨"", "user0@example.com", 1, 2⟩, ⟨"User 1", "user1@example.com", 3, 4⟩]

/-- Two calls of `CreateUser` with the same email and without a name. -/
def namelessSameEmailCalls : List CreateArgs :=
  [⟨"", "duplicate@example.com", 1, 2⟩, ⟨"", "duplicate@example.com", 3, 4⟩]

/-! # Theorems -/

/-! ## The store methods, case by case -/

theorem Create_held (r : InMemoryUserRepository) (user v : User)
    (h : r.emails.lookup user.Email = some v) :
    r.Create user = ((some Err.ErrUserAlreadyExists, user), r) := by
  simp [InMemoryUserRepository.Create, h]

theorem Create_free (r : InMemoryUserRepository) (user : User)
    (h : r.emails.lookup user.Email = none) :
    r.Create user =
      ((none, { user with ID := r.nextID }),
        { users := r.users.insert r.nextID { user with ID := r.nextID }
          emails := r.emails.insert user.Email { user with ID := r.nextID }
          nextID := r.nextID + 1 }) := by
  simp [InMemoryUserRepository.Create, h]

theorem Update_absent (r : InMemoryUserRepository) (user : User)
    (h : r.users.lookup user.ID = none) :
    r.Update user = ((some Err.ErrUserNotFound, user), r) := by
  simp [InMemoryUserRepository.Update, h]

theorem Delete_absent (r : InMemoryUserRepository) (id : Int)
    (h : r.users.lookup id = none) :
    r.Delete id = (some Err.ErrUserNotFound, r) := by
  simp [InMemoryUserRepository.Delete, h]

theorem Delete_present (r : InMemoryUserRepository) (id : Int) (user : User)
    (h : r.users.lookup id = some user) :
    r.Delete id =
      (none, { r with users := r.users.erase id, emails := r.emails.erase user.Email }) := by
  simp [InMemoryUserRepository.Delete, h]

/-- In a consistent store the email index holds the email of every stored
record. -/
theorem Consistent.email_of_stored {r : InMemoryUserRepository} (hc : Consistent r)
    {id : Int} {user : User} (h : r.users.lookup id = some user) :
    r.emails.lookup user.Email = some user := by
  have hid := hc.id_key id user h
  exact (hc.email_iff user.Email user).2 ⟨by rw [hid]; exact h, rfl⟩

/-- In a consistent store, once the entry of the record stored under
`user.ID` is taken out of the email index, `user.Email` is found there
exactly when another stored record holds it. -/
theorem Consistent.lookup_erase_email {r : InMemoryUserRepository} (hc : Consistent r)
    {user existing : User} (h : r.users.lookup user.ID = some existing) :
    ∀ v, (r.emails.erase existing.Email).lookup user.Email = some v →
      v.ID ≠ user.ID ∧ r.users.lookup v.ID = some v ∧ v.Email = user.Email := by
  intro v hv
  by_cases he : user.Email = existing.Email
  · rw [he, Finmap.lookup_erase] at hv
    exact absurd hv (by simp)
  · rw [Finmap.lookup_erase_ne he] at hv
    obtain ⟨hs, hm⟩ := (hc.email_iff _ _).1 hv
    refine ⟨?_, hs, hm⟩
    intro hid
    rw [hid, h] at hs
    have : existing = v := Option.some.inj hs
    exact he (by rw [this, hm])

theorem Update_conflict {r : InMemoryUserRepository} (hc : Consistent r)
    {user existing v : User} (h : r.users.lookup user.ID = some existing)
    (hv : (r.emails.erase existing.Email).lookup user.Email = some v) :
    r.Update user = ((some Err.ErrUserAlreadyExists, user), r) := by
  have hne := (hc.lookup_erase_email h v hv).1
  have hrestore : (r.emails.erase existing.Email).insert existing.Email existing = r.emails := by
    apply Finmap.ext_lookup
    intro e
    by_cases he : e = existing.Email
    · rw [he, Finmap.lookup_insert, hc.email_of_stored h]
    · rw [Finmap.lookup_insert_of_ne _ he, Finmap.lookup_erase_ne he]
  simp [InMemoryUserRepository.Update, h, hv, hne, hrestore]

theorem Update_ok (r : InMemoryUserRepository)
    {user existing : User} (h : r.users.lookup user.ID = some existing)
    (hv : (r.emails.erase existing.Email).lookup user.Email = none) :
    r.Update user =
      ((none, user),
        { r with
          users := r.users.insert user.ID user
          emails := (r.emails.erase existing.Email).insert user.Email user }) := by
  simp [InMemoryUserRepository.Update, h, hv]

/-! ## Consistency is preserved by every store method -/

theorem Consistent_new : Consistent NewInMemoryUserRepository := by
  refine ⟨?_, ?_, ?_, ?_⟩
  · intro id user h
    simp [NewInMemoryUserRepository] at h
  · intro id user h
    simp [NewInMemoryUserRepository] at h
  · simp [NewInMemoryUserRepository]
  · intro email user
    simp [NewInMemoryUserRepository]

theorem Consistent_Create {r : InMemoryUserRepository} (hc : Consistent r) (user : User) :
    Consistent (r.Create user).2 := by
  cases hl : r.emails.lookup user.Email with
  | some v => rw [Create_held r user v hl]; exact hc
  | none =>
    rw [Create_free r user hl]
    have hfresh : r.users.lookup r.nextID = none := by
      cases hn : r.users.lookup r.nextID with
      | none => rfl
      | some w => exact absurd (hc.id_lt _ _ hn) (lt_irrefl _)
    refine ⟨?_, ?_, ?_, ?_⟩
    · intro id w hw
      by_cases hid : id = r.nextID
      · subst hid
        simp only [Finmap.lookup_insert] at hw
        rw [← Option.some.inj hw]
      · simp only [Finmap.lookup_insert_of_ne _ hid] at hw
        exact hc.id_key id w hw
    · intro id w hw
      by_cases hid : id = r.nextID
      · subst hid; simp
      · simp only [Finmap.lookup_insert_of_ne _ hid] at hw
        have := hc.id_lt id w hw
        simp only
        omega
    · have := hc.next_pos
      simp only
      omega
    · intro email w
      simp only
      by_cases he : email = user.Email
      · subst he
        rw [Finmap.lookup_insert]
        constructor
        · intro hw
          rw [← Option.some.inj hw]
          simp
        · rintro ⟨hs, hm⟩
          by_cases hid : w.ID = r.nextID
          · rw [hid, Finmap.lookup_insert] at hs
            exact hs
          · rw [Finmap.lookup_insert_of_ne _ hid] at hs
            have := (hc.email_iff _ _).2 ⟨hs, hm⟩
            rw [hl] at this
            exact absurd this (by simp)
      · rw [Finmap.lookup_insert_of_ne _ he]
        constructor
        · intro hw
          obtain ⟨hs, hm⟩ := (hc.email_iff _ _).1 hw
          have hlt := hc.id_lt _ _ hs
          have hid : w.ID ≠ r.nextID := ne_of_lt hlt
          rw [Finmap.lookup_insert_of_ne _ hid]
          exact ⟨hs, hm⟩
        · rintro ⟨hs, hm⟩
          by_cases hid : w.ID = r.nextID
          · rw [hid, Finmap.lookup_insert] at hs
            have hw := Option.some.inj hs
            rw [← hw] at hm
            exact absurd hm.symm he
          · rw [Finmap.lookup_insert_of_ne _ hid] at hs
            exact (hc.email_iff _ _).2 ⟨hs, hm⟩

theorem Consistent_Delete {r : InMemoryUserRepository} (hc : Consistent r) (id : Int) :
    Consistent (r.Delete id).2 := by
  cases hl : r.users.lookup id with
  | none => rw [Delete_absent r id hl]; exact hc
  | some user =>
    rw [Delete_present r id user hl]
    have hlookup : ∀ k w, (r.users.erase id).lookup k = some w → k ≠ id ∧ r.users.lookup k = some w := by
      intro k w hw
      by_cases hk : k = id
      · rw [hk, Finmap.lookup_erase] at hw
        exact absurd hw (by simp)
      · rw [Finmap.lookup_erase_ne hk] at hw
        exact ⟨hk, hw⟩
    refine ⟨?_, ?_, hc.next_pos, ?_⟩
    · intro k w hw
      exact hc.id_key k w (hlookup k w hw).2
    · intro k w hw
      exact hc.id_lt k w (hlookup k w hw).2
    · intro email w
      simp only
      constructor
      · intro hw
        by_cases he : email = user.Email
        · rw [he, Finmap.lookup_erase] at hw
          exact absurd hw (by simp)
        · rw [Finmap.lookup_erase_ne he] at hw
          obtain ⟨hs, hm⟩ := (hc.email_iff _ _).1 hw
          have hid : w.ID ≠ id := by
            intro hid
            rw [hid, hl] at hs
            rw [← Option.some.inj hs] at hm
            exact he hm.symm
          rw [Finmap.lookup_erase_ne hid]
          exact ⟨hs, hm⟩
      · rintro ⟨hs, hm⟩
        obtain ⟨hid, hs⟩ := hlookup _ _ hs
        have hw := (hc.email_iff _ _).2 ⟨hs, hm⟩
        have he : email ≠ user.Email := by
          intro he
          rw [he, hc.email_of_stored hl] at hw
          have hid2 := hc.id_key id user hl
          rw [Option.some.inj hw] at hid2
          exact hid hid2
        rw [Finmap.lookup_erase_ne he]
        exact hw

theorem Consistent_Update {r : InMemoryUserRepository} (hc : Consistent r) (user : User) :
    Consistent (r.Update user).2 := by
  cases hl : r.users.lookup user.ID with
  | none => rw [Update_absent r user hl]; exact hc
  | some existing =>
    cases hv : (r.emails.erase existing.Email).lookup user.Email with
    | some v => rw [Update_conflict hc hl hv]; exact hc
    | none =>
      rw [Update_ok r hl hv]
      have hlookup : ∀ k w, (r.users.insert user.ID user).lookup k = some w →
          (k = user.ID ∧ w = user) ∨ (k ≠ user.ID ∧ r.users.lookup k = some w) := by
        intro k w hw
        by_cases hk : k = user.ID
        · rw [hk, Finmap.lookup_insert] at hw
          exact Or.inl ⟨hk, (Option.some.inj hw).symm⟩
        · rw [Finmap.lookup_insert_of_ne _ hk] at hw
          exact Or.inr ⟨hk, hw⟩
      refine ⟨?_, ?_, hc.next_pos, ?_⟩
      · intro k w hw
        rcases hlookup k w hw with ⟨hk, hw⟩ | ⟨_, hw⟩
        · rw [hk, hw]
        · exact hc.id_key k w hw
      · intro k w hw
        rcases hlookup k w hw with ⟨hk, _⟩ | ⟨_, hw⟩
        · rw [hk]; exact hc.id_lt _ _ hl
        · exact hc.id_lt k w hw
      · intro email w
        simp only
        constructor
        · intro hw
          by_cases he : email = user.Email
          · rw [he, Finmap.lookup_insert] at hw
            rw [← Option.some.inj hw, Finmap.lookup_insert]
            exact ⟨rfl, he.symm⟩
          · rw [Finmap.lookup_insert_of_ne _ he] at hw
            by_cases he2 : email = existing.Email
            · rw [he2, Finmap.lookup_erase] at hw
              exact absurd hw (by simp)
            · rw [Finmap.lookup_erase_ne he2] at hw
              obtain ⟨hs, hm⟩ := (hc.email_iff _ _).1 hw
              have hid : w.ID ≠ user.ID := by
                intro hid
                rw [hid, hl] at hs
                rw [← Option.some.inj hs] at hm
                exact he2 hm.symm
              rw [Finmap.lookup_insert_of_ne _ hid]
              exact ⟨hs, hm⟩
        · rintro ⟨hs, hm⟩
          rcases hlookup _ _ hs with ⟨_, hw⟩ | ⟨hid, hs⟩
          · rw [hw] at hm ⊢
            rw [← hm, Finmap.lookup_insert]
          · have hw := (hc.email_iff _ _).2 ⟨hs, hm⟩
            have he2 : email ≠ existing.Email := by
              intro he2
              rw [he2, hc.email_of_stored hl] at hw
              have hid2 := hc.id_key _ _ hl
              rw [Option.some.inj hw] at hid2
              exact hid hid2
            have he : email ≠ user.Email := by
              intro he
              rw [← he, Finmap.lookup_erase_ne he2, hw] at hv
              exact absurd hv (by simp)
            rw [Finmap.lookup_insert_of_ne _ he, Finmap.lookup_erase_ne he2]
            exact hw

theorem Consistent_apply {r : InMemoryUserRepository} (hc : Consistent r) (op : StoreOp) :
    Consistent (StoreOp.apply r op) := by
  cases op with
  | create user => exact Consistent_Create hc user
  | update user => exact Consistent_Update hc user
  | delete id => exact Consistent_Delete hc id

theorem Consistent_runStore (ops : List StoreOp) :
    ∀ r : InMemoryUserRepository, Consistent r → Consistent (runStore r ops) := by
  induction ops with
  | nil => intro r hc; exact hc
  | cons op ops ih =>
    intro r hc
    exact ih _ (Consistent_apply hc op)

theorem Reachable.consistent {r : InMemoryUserRepository} (h : Reachable r) : Consistent r := by
  obtain ⟨ops, rfl⟩ := h
  exact Consistent_runStore ops _ Consistent_new

/-! ## The use cases over the in-memory store, case by case -/

theorem CreateUser_held (r : InMemoryUserRepository) (name email : String) (now1 now2 : Time)
    (v : User) (h : r.emails.lookup email = some v) :
    UserUseCase.CreateUser inMemory r name email now1 now2 =
      (Except.error Err.ErrUserAlreadyExists, r) := by
  simp [UserUseCase.CreateUser, inMemory, InMemoryUserRepository.GetByEmail, h]

theorem CreateUser_no_name (r : InMemoryUserRepository) (email : String) (now1 now2 : Time)
    (h : r.emails.lookup email = none) :
    UserUseCase.CreateUser inMemory r "" email now1 now2 =
      (Except.error Err.ErrUserNameRequired, r) := by
  simp [UserUseCase.CreateUser, inMemory, InMemoryUserRepository.GetByEmail, h, User.Validate]

theorem CreateUser_no_email (r : InMemoryUserRepository) (name : String) (now1 now2 : Time)
    (hn : name ≠ "") (h : r.emails.lookup "" = none) :
    UserUseCase.CreateUser inMemory r name "" now1 now2 =
      (Except.error Err.ErrUserEmailRequired, r) := by
  simp [UserUseCase.CreateUser, inMemory, InMemoryUserRepository.GetByEmail, h, User.Validate, hn]

theorem CreateUser_ok (r : InMemoryUserRepository) (name email : String) (now1 now2 : Time)
    (hn : name ≠ "") (he : email ≠ "") (h : r.emails.lookup email = none) :
    UserUseCase.CreateUser inMemory r name email now1 now2 =
      (Except.ok (createdUser r name email now1 now2),
        { users := r.users.insert r.nextID (createdUser r name email now1 now2)
          emails := r.emails.insert email (createdUser r name email now1 now2)
          nextID := r.nextID + 1 }) := by
  simp [UserUseCase.CreateUser, inMemory, InMemoryUserRepository.GetByEmail, h, User.Validate,
    hn, he, InMemoryUserRepository.Create, createdUser]

/-! ## The counter and the ids of a run of the store -/

theorem Update_nextID (r : InMemoryUserRepository) (user : User) :
    (r.Update user).2.nextID = r.nextID := by
  unfold InMemoryUserRepository.Update
  split
  · rfl
  · simp only
    split <;> rfl

theorem Delete_nextID (r : InMemoryUserRepository) (id : Int) :
    (r.Delete id).2.nextID = r.nextID := by
  unfold InMemoryUserRepository.Delete
  split <;> rfl

/-- A list of consecutive integers starting at `a`, seen from its head. -/
theorem range_shift (a : Int) (n : Nat) :
    a :: (List.range n).map (fun k : Nat => a + 1 + (k : Int)) =
      (List.range (n + 1)).map (fun k : Nat => a + (k : Int)) := by
  rw [List.range_succ_eq_map]
  simp only [List.map_cons, List.map_map]
  congr 1
  · simp
  · apply List.map_congr_left
    intro k _
    simp only [Function.comp, Nat.succ_eq_add_one]
    push_cast
    ring

theorem createdIDs_eq (ops : List StoreOp) :
    ∀ r : InMemoryUserRepository,
      createdIDs r ops =
        (List.range (createdIDs r ops).length).map (fun k : Nat => r.nextID + (k : Int)) := by
  induction ops with
  | nil => intro r; simp [createdIDs]
  | cons op ops ih =>
    intro r
    cases op with
    | create user =>
      cases hl : r.emails.lookup user.Email with
      | some v =>
        have h := ih r
        simp only [createdIDs, Create_held r user v hl]
        exact h
      | none =>
        have h := ih (r.Create user).2
        rw [Create_free r user hl] at h
        simp only [createdIDs, Create_free r user hl, List.length_cons]
        rw [← range_shift]
        simp only at h
        rw [← h]
    | update user =>
      have h := ih (r.Update user).2
      rw [Update_nextID] at h
      simp only [createdIDs, StoreOp.apply]
      exact h
    | delete id =>
      have h := ih (r.Delete id).2
      rw [Delete_nextID] at h
      simp only [createdIDs, StoreOp.apply]
      exact h

/-! ## The other use cases over the in-memory store -/

theorem Update_user (r : InMemoryUserRepository) (user : User) :
    (r.Update user).1.2 = user := by
  unfold InMemoryUserRepository.Update
  split
  · rfl
  · simp only
    split <;> rfl

theorem GetUserByID_invalid (r : InMemoryUserRepository) (id : Int) (hid : id ≤ 0) :
    UserUseCase.GetUserByID inMemory r id = (Except.error Err.ErrInvalidID, r) := by
  simp [UserUseCase.GetUserByID, hid]

theorem GetUserByID_absent (r : InMemoryUserRepository) (id : Int) (hid : 0 < id)
    (h : r.users.lookup id = none) :
    UserUseCase.GetUserByID inMemory r id = (Except.error Err.ErrUserNotFound, r) := by
  simp [UserUseCase.GetUserByID, not_le.2 hid, inMemory, InMemoryUserRepository.GetByID, h]

theorem GetUserByID_present (r : InMemoryUserRepository) (id : Int) (user : User) (hid : 0 < id)
    (h : r.users.lookup id = some user) :
    UserUseCase.GetUserByID inMemory r id = (Except.ok user, r) := by
  simp [UserUseCase.GetUserByID, not_le.2 hid, inMemory, InMemoryUserRepository.GetByID, h]

theorem GetUserByID_state (r : InMemoryUserRepository) (id : Int) :
    (UserUseCase.GetUserByID inMemory r id).2 = r := by
  by_cases hid : id ≤ 0
  · rw [GetUserByID_invalid r id hid]
  · cases h : r.users.lookup id with
    | none => rw [GetUserByID_absent r id (not_le.1 hid) h]
    | some user => rw [GetUserByID_present r id user (not_le.1 hid) h]

theorem UpdateUser_invalid (r : InMemoryUserRepository) (id : Int) (name email : String)
    (now1 now2 : Time) (hid : id ≤ 0) :
    UserUseCase.UpdateUser inMemory r id name email now1 now2 =
      (Except.error Err.ErrInvalidID, r) := by
  simp [UserUseCase.UpdateUser, hid]

theorem UpdateUser_absent (r : InMemoryUserRepository) (id : Int) (name email : String)
    (now1 now2 : Time) (hid : 0 < id) (h : r.users.lookup id = none) :
    UserUseCase.UpdateUser inMemory r id name email now1 now2 =
      (Except.error Err.ErrUserNotFound, r) := by
  simp [UserUseCase.UpdateUser, not_le.2 hid, inMemory, InMemoryUserRepository.GetByID, h]

theorem UpdateUser_present (r : InMemoryUserRepository) (id : Int) (name email : String)
    (now1 now2 : Time) (existing : User) (hid : 0 < id) (h : r.users.lookup id = some existing) :
    UserUseCase.UpdateUser inMemory r id name email now1 now2 =
      ((match (r.Update (updatedUser existing name email now1 now2)).1.1 with
        | some err => Except.error err
        | none => Except.ok (updatedUser existing name email now1 now2)),
        (r.Update (updatedUser existing name email now1 now2)).2) := by
  have hu := Update_user r (updatedUser existing name email now1 now2)
  by_cases hn : name = "" <;> by_cases he : email = "" <;>
    simp only [UserUseCase.UpdateUser, not_le.2 hid, inMemory, InMemoryUserRepository.GetByID, h,
      User.UpdateName, User.UpdateEmail, updatedUser, hn, he, if_true, if_false, ne_eq,
      not_true_eq_false, not_false_eq_true] at hu ⊢ <;>
    split <;> simp_all

theorem DeleteUser_invalid (r : InMemoryUserRepository) (id : Int) (hid : id ≤ 0) :
    UserUseCase.DeleteUser inMemory r id = (some Err.ErrInvalidID, r) := by
  simp [UserUseCase.DeleteUser, hid]

theorem DeleteUser_absent (r : InMemoryUserRepository) (id : Int) (hid : 0 < id)
    (h : r.users.lookup id = none) :
    UserUseCase.DeleteUser inMemory r id = (some Err.ErrUserNotFound, r) := by
  simp [UserUseCase.DeleteUser, not_le.2 hid, inMemory, InMemoryUserRepository.GetByID, h]

theorem DeleteUser_present (r : InMemoryUserRepository) (id : Int) (user : User) (hid : 0 < id)
    (h : r.users.lookup id = some user) :
    UserUseCase.DeleteUser inMemory r id =
      (none, { r with users := r.users.erase id, emails := r.emails.erase user.Email }) := by
  simp [UserUseCase.DeleteUser, not_le.2 hid, inMemory, InMemoryUserRepository.GetByID, h,
    InMemoryUserRepository.Delete]

/-! ## Every service call is at most one call of the store -/

theorem CreateUser_cases (r : InMemoryUserRepository) (name email : String) (now1 now2 : Time) :
    (∃ err, UserUseCase.CreateUser inMemory r name email now1 now2 = (Except.error err, r)) ∨
    (name ≠ "" ∧ email ≠ "" ∧ r.emails.lookup email = none ∧
      UserUseCase.CreateUser inMemory r name email now1 now2 =
        (Except.ok (createdUser r name email now1 now2),
          (r.Create { ID := 0, Name := name, Email := email, Created := now1, Updated := now2 }).2)) := by
  cases h : r.emails.lookup email with
  | some v => exact Or.inl ⟨_, CreateUser_held r name email now1 now2 v h⟩
  | none =>
    by_cases hn : name = ""
    · subst hn
      exact Or.inl ⟨_, CreateUser_no_name r email now1 now2 h⟩
    · by_cases he : email = ""
      · subst he
        exact Or.inl ⟨_, CreateUser_no_email r name now1 now2 hn h⟩
      · refine Or.inr ⟨hn, he, rfl, ?_⟩
        rw [CreateUser_ok r name email now1 now2 hn he h, Create_free r _ h]
        rfl

theorem ServiceOp.apply_cases (r : InMemoryUserRepository) (op : ServiceOp) :
    ServiceOp.apply r op = r ∨ ∃ sop : StoreOp, ServiceOp.apply r op = StoreOp.apply r sop := by
  cases op with
  | createUser name email now1 now2 =>
    rcases CreateUser_cases r name email now1 now2 with ⟨err, h⟩ | ⟨_, _, _, h⟩
    · left; simp only [ServiceOp.apply, h]
    · right
      exact ⟨StoreOp.create
        { ID := 0, Name := name, Email := email, Created := now1, Updated := now2 },
        by simp only [ServiceOp.apply, h, StoreOp.apply]⟩
  | getUserByID id => left; exact GetUserByID_state r id
  | updateUser id name email now1 now2 =>
    by_cases hid : id ≤ 0
    · left; simp only [ServiceOp.apply, UpdateUser_invalid r id name email now1 now2 hid]
    · cases h : r.users.lookup id with
      | none =>
        left
        simp only [ServiceOp.apply, UpdateUser_absent r id name email now1 now2 (not_le.1 hid) h]
      | some existing =>
        right
        exact ⟨StoreOp.update (updatedUser existing name email now1 now2), by
          simp only [ServiceOp.apply,
            UpdateUser_present r id name email now1 now2 existing (not_le.1 hid) h,
            StoreOp.apply]⟩
  | deleteUser id =>
    by_cases hid : id ≤ 0
    · left; simp only [ServiceOp.apply, DeleteUser_invalid r id hid]
    · cases h : r.users.lookup id with
      | none => left; simp only [ServiceOp.apply, DeleteUser_absent r id (not_le.1 hid) h]
      | some user =>
        right
        exact ⟨StoreOp.delete id, by
          simp only [ServiceOp.apply, DeleteUser_present r id user (not_le.1 hid) h,
            StoreOp.apply, Delete_present r id user h]⟩
  | listUsers => left; rfl

theorem Reachable.apply {r : InMemoryUserRepository} (h : Reachable r) (sop : StoreOp) :
    Reachable (StoreOp.apply r sop) := by
  obtain ⟨ops, rfl⟩ := h
  exact ⟨ops ++ [sop], by simp [runStore, List.foldl_append]⟩

theorem Reachable.runService (ops : List ServiceOp) :
    ∀ r : InMemoryUserRepository, Reachable r → Reachable (runService r ops) := by
  induction ops with
  | nil => intro r h; exact h
  | cons op ops ih =>
    intro r h
    apply ih
    rcases ServiceOp.apply_cases r op with he | ⟨sop, he⟩
    · rw [he]; exact h
    · rw [he]; exact h.apply sop

theorem Reachable_new : Reachable NewInMemoryUserRepository :=
  ⟨[], rfl⟩

theorem ServiceReachable.reachable {r : InMemoryUserRepository} (h : ServiceReachable r) :
    Reachable r := by
  obtain ⟨ops, rfl⟩ := h
  exact Reachable.runService ops _ Reachable_new

/-! ## The service stores no empty name and no empty email -/

theorem NonEmptyFields_insert {r : InMemoryUserRepository} (hne : NonEmptyFields r)
    (id : Int) (user : User) (hn : user.Name ≠ "") (he : user.Email ≠ "")
    (emails : Finmap (fun _ : String => User)) (next : Int) :
    NonEmptyFields { users := r.users.insert id user, emails := emails, nextID := next } := by
  intro k w hw
  by_cases hk : k = id
  · rw [hk] at hw
    simp only [Finmap.lookup_insert] at hw
    rw [← Option.some.inj hw]
    exact ⟨hn, he⟩
  · simp only [Finmap.lookup_insert_of_ne _ hk] at hw
    exact hne k w hw

theorem updatedUser_nonEmpty (existing : User) (name email : String) (now1 now2 : Time)
    (hn : existing.Name ≠ "") (he : existing.Email ≠ "") :
    (updatedUser existing name email now1 now2).Name ≠ "" ∧
      (updatedUser existing name email now1 now2).Email ≠ "" := by
  by_cases h1 : name = "" <;> by_cases h2 : email = "" <;>
    simp [updatedUser, h1, h2, hn, he]

theorem NonEmptyFields_Update {r : InMemoryUserRepository} (hne : NonEmptyFields r)
    (user : User) (hn : user.Name ≠ "") (he : user.Email ≠ "") :
    NonEmptyFields (r.Update user).2 := by
  unfold InMemoryUserRepository.Update
  split
  · exact hne
  · simp only
    split
    · exact hne
    · exact NonEmptyFields_insert hne _ _ hn he _ _

theorem NonEmptyFields_apply {r : InMemoryUserRepository} (hne : NonEmptyFields r)
    (op : ServiceOp) : NonEmptyFields (ServiceOp.apply r op) := by
  cases op with
  | createUser name email now1 now2 =>
    rcases CreateUser_cases r name email now1 now2 with ⟨err, h⟩ | ⟨hn, he, hl, _⟩
    · simp only [ServiceOp.apply, h]; exact hne
    · simp only [ServiceOp.apply, CreateUser_ok r name email now1 now2 hn he hl]
      exact NonEmptyFields_insert hne _ _ hn he _ _
  | getUserByID id => simp only [ServiceOp.apply, GetUserByID_state]; exact hne
  | updateUser id name email now1 now2 =>
    by_cases hid : id ≤ 0
    · simp only [ServiceOp.apply, UpdateUser_invalid r id name email now1 now2 hid]; exact hne
    · cases h : r.users.lookup id with
      | none =>
        simp only [ServiceOp.apply, UpdateUser_absent r id name email now1 now2 (not_le.1 hid) h]
        exact hne
      | some existing =>
        simp only [ServiceOp.apply,
          UpdateUser_present r id name email now1 now2 existing (not_le.1 hid) h]
        obtain ⟨hn, he⟩ := hne id existing h
        obtain ⟨hn2, he2⟩ := updatedUser_nonEmpty existing name email now1 now2 hn he
        exact NonEmptyFields_Update hne _ hn2 he2
  | deleteUser id =>
    by_cases hid : id ≤ 0
    · simp only [ServiceOp.apply, DeleteUser_invalid r id hid]; exact hne
    · cases h : r.users.lookup id with
      | none => simp only [ServiceOp.apply, DeleteUser_absent r id (not_le.1 hid) h]; exact hne
      | some user =>
        simp only [ServiceOp.apply, DeleteUser_present r id user (not_le.1 hid) h]
        intro k w hw
        by_cases hk : k = id
        · rw [hk] at hw
          simp only [Finmap.lookup_erase] at hw
          exact absurd hw (by simp)
        · simp only [Finmap.lookup_erase_ne hk] at hw
          exact hne k w hw
  | listUsers => exact hne

theorem ServiceReachable.nonEmpty {r : InMemoryUserRepository} (h : ServiceReachable r) :
    NonEmptyFields r := by
  obtain ⟨ops, rfl⟩ := h
  have key : ∀ (ops : List ServiceOp) (r : InMemoryUserRepository),
      NonEmptyFields r → NonEmptyFields (runService r ops) := by
    intro ops
    induction ops with
    | nil => intro r h; exact h
    | cons op ops ih => intro r h; exact ih _ (NonEmptyFields_apply h op)
  apply key
  intro id user hu
  simp [NewInMemoryUserRepository] at hu

/-- In a consistent store an email is a key of the email index exactly when a
stored user holds it. -/
theorem Consistent.emailHeld_iff {r : InMemoryUserRepository} (hc : Consistent r)
    (email : String) : EmailHeld r email ↔ ∃ v, r.emails.lookup email = some v := by
  constructor
  · rintro ⟨id, user, hs, he⟩
    exact ⟨user, by rw [← he]; exact hc.email_of_stored hs⟩
  · rintro ⟨v, hv⟩
    obtain ⟨hs, he⟩ := (hc.email_iff _ _).1 hv
    exact ⟨v.ID, v, hs, he⟩

theorem UserRepositoryMock_CreateUser {σ : Type} (repo : UserRepository σ) (s : σ)
    (calls : List Call) (name email : String) (now1 now2 : Time) :
    (UserUseCase.CreateUser (UserRepositoryMock repo) (s, calls) name email now1 now2).1 =
        (UserUseCase.CreateUser repo s name email now1 now2).1 ∧
      (UserUseCase.CreateUser (UserRepositoryMock repo) (s, calls) name email now1 now2).2.1 =
        (UserUseCase.CreateUser repo s name email now1 now2).2 := by
  unfold UserUseCase.CreateUser
  simp only [UserRepositoryMock]
  rcases h1 : repo.GetByEmail s email with ⟨res1, s1⟩
  cases res1 with
  | ok v => exact ⟨rfl, rfl⟩
  | error e =>
    simp only
    split
    · exact ⟨rfl, rfl⟩
    · rcases h2 : repo.Create s1
          { ID := 0, Name := name, Email := email, Created := now1, Updated := now2 } with
        ⟨⟨err, user⟩, s2⟩
      cases err with
      | none => exact ⟨rfl, rfl⟩
      | some e2 => exact ⟨rfl, rfl⟩

/-! ## The counter and the ids of a run of the service -/

theorem ServiceOp.apply_nextID_le (r : InMemoryUserRepository) (op : ServiceOp) :
    r.nextID ≤ (ServiceOp.apply r op).nextID := by
  rcases ServiceOp.apply_cases r op with he | ⟨sop, he⟩
  · rw [he]
  · rw [he]
    cases sop with
    | create user =>
      cases hl : r.emails.lookup user.Email with
      | some v => simp only [StoreOp.apply, Create_held r user v hl, le_refl]
      | none =>
        simp only [StoreOp.apply, Create_free r user hl]
        omega
    | update user => simp only [StoreOp.apply, Update_nextID, le_refl]
    | delete id => simp only [StoreOp.apply, Delete_nextID, le_refl]

theorem runService_nextID_le (ops : List ServiceOp) :
    ∀ r : InMemoryUserRepository, r.nextID ≤ (runService r ops).nextID := by
  induction ops with
  | nil => intro r; exact le_refl _
  | cons op ops ih =>
    intro r
    exact le_trans (ServiceOp.apply_nextID_le r op) (ih _)

theorem serviceCreatedIDs_bounds (ops : List ServiceOp) :
    ∀ r : InMemoryUserRepository,
      (serviceCreatedIDs r ops).Pairwise (fun a b => a < b) ∧
        ∀ id ∈ serviceCreatedIDs r ops, r.nextID ≤ id ∧ id < (runService r ops).nextID := by
  induction ops with
  | nil => intro r; simp [serviceCreatedIDs]
  | cons op ops ih =>
    intro r
    have hother : ∀ r2 : InMemoryUserRepository, r.nextID ≤ r2.nextID →
        serviceCreatedIDs r (op :: ops) = serviceCreatedIDs r2 ops →
        runService r (op :: ops) = runService r2 ops →
        (serviceCreatedIDs r (op :: ops)).Pairwise (fun a b => a < b) ∧
          ∀ id ∈ serviceCreatedIDs r (op :: ops),
            r.nextID ≤ id ∧ id < (runService r (op :: ops)).nextID := by
      intro r2 hle h1 h2
      rw [h1, h2]
      refine ⟨(ih r2).1, ?_⟩
      intro id hid
      have := (ih r2).2 id hid
      exact ⟨le_trans hle this.1, this.2⟩
    cases op with
    | createUser name email now1 now2 =>
      rcases CreateUser_cases r name email now1 now2 with ⟨err, hf⟩ | ⟨hn, he, hl, _⟩
      · exact hother r (le_refl _) (by simp only [serviceCreatedIDs, hf])
          (by simp only [runService, List.foldl_cons, ServiceOp.apply, hf])
      · have hok := CreateUser_ok r name email now1 now2 hn he hl
        have h1 : serviceCreatedIDs r (ServiceOp.createUser name email now1 now2 :: ops) =
            r.nextID :: serviceCreatedIDs (UserUseCase.CreateUser inMemory r name email now1 now2).2 ops := by
          simp only [serviceCreatedIDs, hok, createdUser]
        have h2 : runService r (ServiceOp.createUser name email now1 now2 :: ops) =
            runService (UserUseCase.CreateUser inMemory r name email now1 now2).2 ops := by
          simp only [runService, List.foldl_cons, ServiceOp.apply]
        have hnext : (UserUseCase.CreateUser inMemory r name email now1 now2).2.nextID =
            r.nextID + 1 := by rw [hok]
        have hi := ih (UserUseCase.CreateUser inMemory r name email now1 now2).2
        rw [hnext] at hi
        have hmono := runService_nextID_le ops
          (UserUseCase.CreateUser inMemory r name email now1 now2).2
        rw [hnext] at hmono
        rw [h1, h2]
        refine ⟨List.pairwise_cons.2 ⟨?_, hi.1⟩, ?_⟩
        · intro id hid
          have := (hi.2 id hid).1
          omega
        · intro id hid
          rcases List.mem_cons.1 hid with hid | hid
          · rw [hid]
            constructor
            · exact le_refl _
            · omega
          · have := hi.2 id hid
            exact ⟨by omega, this.2⟩
    | getUserByID id =>
      exact hother (ServiceOp.apply r (ServiceOp.getUserByID id))
        (ServiceOp.apply_nextID_le r _) (by simp only [serviceCreatedIDs])
        (by simp only [runService, List.foldl_cons])
    | updateUser id name email now1 now2 =>
      exact hother (ServiceOp.apply r (ServiceOp.updateUser id name email now1 now2))
        (ServiceOp.apply_nextID_le r _) (by simp only [serviceCreatedIDs])
        (by simp only [runService, List.foldl_cons])
    | deleteUser id =>
      exact hother (ServiceOp.apply r (ServiceOp.deleteUser id))
        (ServiceOp.apply_nextID_le r _) (by simp only [serviceCreatedIDs])
        (by simp only [runService, List.foldl_cons])
    | listUsers =>
      exact hother (ServiceOp.apply r ServiceOp.listUsers)
        (ServiceOp.apply_nextID_le r _) (by simp only [serviceCreatedIDs])
        (by simp only [runService, List.foldl_cons])

/-! ## The conflict test of `Update` -/

/-- In a consistent store the test that `Update` makes on the email index,
after it took out the old entry, finds a record exactly when another stored
record holds the new email. -/
theorem Consistent.conflict_iff {r : InMemoryUserRepository} (hc : Consistent r)
    {user existing : User} (h : r.users.lookup user.ID = some existing) :
    (∃ v, (r.emails.erase existing.Email).lookup user.Email = some v) ↔
      EmailConflict r user := by
  constructor
  · rintro ⟨v, hv⟩
    obtain ⟨hid, hs, he⟩ := hc.lookup_erase_email h v hv
    exact ⟨v.ID, v, hid, hs, he⟩
  · rintro ⟨id, other, hid, hs, he⟩
    have hl := hc.email_of_stored hs
    have hne : user.Email ≠ existing.Email := by
      intro heq
      rw [he, heq, hc.email_of_stored h] at hl
      have h1 := hc.id_key _ _ h
      have h2 := hc.id_key _ _ hs
      rw [Option.some.inj hl, h2] at h1
      exact hid h1
    exact ⟨other, by rw [Finmap.lookup_erase_ne hne, ← he]; exact hl⟩

/-! ## The records that `List` returns and their number -/

theorem card_entries (m : Finmap (fun _ : Int => User)) :
    Multiset.card (m.entries.map Sigma.snd) = m.keys.card := by
  simp [Finmap.keys, Multiset.keys]

theorem mem_entries_snd (m : Finmap (fun _ : Int => User)) (u : User) :
    u ∈ m.entries.map Sigma.snd ↔ ∃ k, m.lookup k = some u := by
  simp only [Multiset.mem_map]
  constructor
  · rintro ⟨⟨k, v⟩, hm, rfl⟩
    exact ⟨k, Finmap.lookup_eq_some_iff.2 hm⟩
  · rintro ⟨k, hk⟩
    exact ⟨⟨k, u⟩, Finmap.lookup_eq_some_iff.1 hk, rfl⟩

theorem positive_apply {r : InMemoryUserRepository} (hc : Consistent r)
    (hp : ∀ id user, r.users.lookup id = some user → 0 < id) (op : StoreOp) :
    ∀ id user, (StoreOp.apply r op).users.lookup id = some user → 0 < id := by
  intro id user hu
  cases op with
  | create v =>
    cases hl : r.emails.lookup v.Email with
    | some w =>
      simp only [StoreOp.apply, Create_held r v w hl] at hu
      exact hp id user hu
    | none =>
      simp only [StoreOp.apply, Create_free r v hl] at hu
      by_cases hid : id = r.nextID
      · rw [hid]; exact hc.next_pos
      · rw [Finmap.lookup_insert_of_ne _ hid] at hu
        exact hp id user hu
  | update v =>
    cases hl : r.users.lookup v.ID with
    | none =>
      simp only [StoreOp.apply, Update_absent r v hl] at hu
      exact hp id user hu
    | some existing =>
      cases hv : (r.emails.erase existing.Email).lookup v.Email with
      | some w =>
        simp only [StoreOp.apply, Update_conflict hc hl hv] at hu
        exact hp id user hu
      | none =>
        simp only [StoreOp.apply, Update_ok r hl hv] at hu
        by_cases hid : id = v.ID
        · rw [hid]; exact hp _ _ hl
        · rw [Finmap.lookup_insert_of_ne _ hid] at hu
          exact hp id user hu
  | delete k =>
    cases hl : r.users.lookup k with
    | none =>
      simp only [StoreOp.apply, Delete_absent r k hl] at hu
      exact hp id user hu
    | some w =>
      simp only [StoreOp.apply, Delete_present r k w hl] at hu
      by_cases hid : id = k
      · rw [hid, Finmap.lookup_erase] at hu
        exact absurd hu (by simp)
      · rw [Finmap.lookup_erase_ne hid] at hu
        exact hp id user hu

theorem positive_runStore (ops : List StoreOp) :
    ∀ r : InMemoryUserRepository, Consistent r →
      (∀ id user, r.users.lookup id = some user → 0 < id) →
      ∀ id user, (runStore r ops).users.lookup id = some user → 0 < id := by
  induction ops with
  | nil => intro r _ hp; exact hp
  | cons op ops ih =>
    intro r hc hp
    exact ih _ (Consistent_apply hc op) (positive_apply hc hp op)

theorem Reachable.id_pos {r : InMemoryUserRepository} (h : Reachable r)
    {id : Int} {user : User} (hs : r.users.lookup id = some user) : 0 < id := by
  obtain ⟨ops, rfl⟩ := h
  refine positive_runStore ops _ Consistent_new ?_ id user hs
  intro k w hw
  simp [NewInMemoryUserRepository] at hw

/-! ## The record that `UpdateUser` hands to the store -/

theorem updatedUser_ID (existing : User) (name email : String) (now1 now2 : Time) :
    (updatedUser existing name email now1 now2).ID = existing.ID := by
  by_cases h1 : name = "" <;> by_cases h2 : email = "" <;> simp [updatedUser, h1, h2]

theorem updatedUser_Created (existing : User) (name email : String) (now1 now2 : Time) :
    (updatedUser existing name email now1 now2).Created = existing.Created := by
  by_cases h1 : name = "" <;> by_cases h2 : email = "" <;> simp [updatedUser, h1, h2]

theorem updatedUser_Updated (existing : User) (name email : String) (now1 now2 : Time) :
    (name = "" ∧ email = "" ∧
        (updatedUser existing name email now1 now2).Updated = existing.Updated) ∨
      ((name ≠ "" ∨ email ≠ "") ∧
        (updatedUser existing name email now1 now2).Updated ∈
          (if name ≠ "" then [now1] else []) ++ (if email ≠ "" then [now2] else [])) := by
  by_cases h1 : name = "" <;> by_cases h2 : email = "" <;> simp [updatedUser, h1, h2]

/-- A record stored after a call of the service was stored before, or it is
the record just created, with the two readings of the call as its time stamps,
or it comes from a stored record by an update: same `Created`, and `Updated`
either kept or one of the readings of the call. -/
theorem stored_after_apply (r : InMemoryUserRepository) (op : ServiceOp) (k : Int) (w : User)
    (h : (ServiceOp.apply r op).users.lookup k = some w) :
    r.users.lookup k = some w ∨
      (∃ a b, ServiceOp.readings r op = [a, b] ∧ w.Created = a ∧ w.Updated = b) ∨
      (∃ id existing, r.users.lookup id = some existing ∧ w.Created = existing.Created ∧
        (w.Updated = existing.Updated ∨ w.Updated ∈ ServiceOp.readings r op)) := by
  cases op with
  | createUser name email now1 now2 =>
    rcases CreateUser_cases r name email now1 now2 with ⟨err, hf⟩ | ⟨hn, he, hl, _⟩
    · left
      simpa only [ServiceOp.apply, hf] using h
    · simp only [ServiceOp.apply, CreateUser_ok r name email now1 now2 hn he hl] at h
      by_cases hk : k = r.nextID
      · right; left
        rw [hk, Finmap.lookup_insert] at h
        refine ⟨now1, now2, ?_, ?_, ?_⟩
        · simp [ServiceOp.readings, InMemoryUserRepository.GetByEmail, hl]
        · rw [← Option.some.inj h]; rfl
        · rw [← Option.some.inj h]; rfl
      · left
        rw [Finmap.lookup_insert_of_ne _ hk] at h
        exact h
  | getUserByID id =>
    left
    simpa only [ServiceOp.apply, GetUserByID_state] using h
  | updateUser id name email now1 now2 =>
    by_cases hid : id ≤ 0
    · left
      simpa only [ServiceOp.apply, UpdateUser_invalid r id name email now1 now2 hid] using h
    · cases hl : r.users.lookup id with
      | none =>
        left
        simpa only [ServiceOp.apply,
          UpdateUser_absent r id name email now1 now2 (not_le.1 hid) hl] using h
      | some existing =>
        simp only [ServiceOp.apply,
          UpdateUser_present r id name email now1 now2 existing (not_le.1 hid) hl] at h
        have hcases : r.users.lookup k = some w ∨ w = updatedUser existing name email now1 now2 := by
          revert h
          unfold InMemoryUserRepository.Update
          split
          · intro h; exact Or.inl h
          · simp only
            split
            · intro h; exact Or.inl h
            · intro h
              by_cases hk : k = (updatedUser existing name email now1 now2).ID
              · rw [hk, Finmap.lookup_insert] at h
                exact Or.inr (Option.some.inj h).symm
              · rw [Finmap.lookup_insert_of_ne _ hk] at h
                exact Or.inl h
        rcases hcases with h1 | h1
        · exact Or.inl h1
        · right; right
          refine ⟨id, existing, hl, by rw [h1, updatedUser_Created], ?_⟩
          have hread : ServiceOp.readings r (ServiceOp.updateUser id name email now1 now2) =
              (if name ≠ "" then [now1] else []) ++ (if email ≠ "" then [now2] else []) := by
            simp [ServiceOp.readings, hid, InMemoryUserRepository.GetByID, hl]
          rw [hread, h1]
          rcases updatedUser_Updated existing name email now1 now2 with ⟨_, _, hu⟩ | ⟨_, hu⟩
          · exact Or.inl hu
          · exact Or.inr hu
  | deleteUser id =>
    left
    by_cases hid : id ≤ 0
    · simpa only [ServiceOp.apply, DeleteUser_invalid r id hid] using h
    · cases hl : r.users.lookup id with
      | none => simpa only [ServiceOp.apply, DeleteUser_absent r id (not_le.1 hid) hl] using h
      | some v =>
        simp only [ServiceOp.apply, DeleteUser_present r id v (not_le.1 hid) hl] at h
        by_cases hk : k = id
        · rw [hk, Finmap.lookup_erase] at h
          exact absurd h (by simp)
        · rw [Finmap.lookup_erase_ne hk] at h
          exact h
  | listUsers => exact Or.inl h

theorem clockReadings_append (ops more : List ServiceOp) :
    ∀ r : InMemoryUserRepository,
      clockReadings r (ops ++ more) =
        clockReadings r ops ++ clockReadings (runService r ops) more := by
  induction ops with
  | nil => intro r; simp [clockReadings, runService]
  | cons op ops ih =>
    intro r
    have h := ih (ServiceOp.apply r op)
    show ServiceOp.readings r op ++ clockReadings (ServiceOp.apply r op) (ops ++ more) =
      (ServiceOp.readings r op ++ clockReadings (ServiceOp.apply r op) ops) ++
        clockReadings (runService (ServiceOp.apply r op) ops) more
    rw [h, List.append_assoc]

/-- With readings that never decrease, every stored record keeps
`Created ≤ Updated`, and `Updated` is at most every reading still to come. -/
theorem stamps_le (ops : List ServiceOp) :
    ∀ (r : InMemoryUserRepository) (later : List Time),
      (clockReadings r ops ++ later).Pairwise (fun a b => a ≤ b) →
      (∀ k w, r.users.lookup k = some w →
        w.Created ≤ w.Updated ∧ ∀ t ∈ clockReadings r ops ++ later, w.Updated ≤ t) →
      ∀ k w, (runService r ops).users.lookup k = some w →
        w.Created ≤ w.Updated ∧ ∀ t ∈ later, w.Updated ≤ t := by
  induction ops with
  | nil =>
    intro r later _ hinv k w hw
    simpa [clockReadings] using hinv k w hw
  | cons op ops ih =>
    intro r later hpw hinv k w hw
    simp only [clockReadings, List.append_assoc] at hpw hinv
    have hpw2 := List.pairwise_append.1 hpw
    apply ih (ServiceOp.apply r op) later hpw2.2.1 _ k w hw
    intro k2 w2 hw2
    rcases stored_after_apply r op k2 w2 hw2 with h1 | ⟨a, b, hr, hc1, hc2⟩ | ⟨id, ex, hex, hc1, hc2⟩
    · obtain ⟨h2, h3⟩ := hinv k2 w2 h1
      exact ⟨h2, fun t ht => h3 t (List.mem_append_right _ ht)⟩
    · rw [hr] at hpw2
      have hab : a ≤ b := by
        have := hpw2.1
        simp only [List.pairwise_cons, List.mem_singleton, forall_eq] at this
        exact this.1
      refine ⟨by rw [hc1, hc2]; exact hab, ?_⟩
      intro t ht
      rw [hc2]
      exact hpw2.2.2 b (by simp) t ht
    · obtain ⟨h2, h3⟩ := hinv id ex hex
      rcases hc2 with hc2 | hc2
      · refine ⟨by rw [hc1, hc2]; exact h2, ?_⟩
        intro t ht
        rw [hc2]
        exact h3 t (List.mem_append_right _ ht)
      · refine ⟨?_, ?_⟩
        · rw [hc1]
          exact le_trans h2 (h3 _ (List.mem_append_left _ hc2))
        · intro t ht
          exact hpw2.2.2 _ hc2 t ht

/-- With strictly increasing readings, the `Updated` of every stored record
is before every reading still to come. -/
theorem stamps_lt (ops : List ServiceOp) :
    ∀ (r : InMemoryUserRepository) (later : List Time),
      (clockReadings r ops ++ later).Pairwise (fun a b => a < b) →
      (∀ k w, r.users.lookup k = some w →
        ∀ t ∈ clockReadings r ops ++ later, w.Updated < t) →
      ∀ k w, (runService r ops).users.lookup k = some w → ∀ t ∈ later, w.Updated < t := by
  induction ops with
  | nil =>
    intro r later _ hinv k w hw
    simpa [clockReadings] using hinv k w hw
  | cons op ops ih =>
    intro r later hpw hinv k w hw
    simp only [clockReadings, List.append_assoc] at hpw hinv
    have hpw2 := List.pairwise_append.1 hpw
    apply ih (ServiceOp.apply r op) later hpw2.2.1 _ k w hw
    intro k2 w2 hw2 t ht
    rcases stored_after_apply r op k2 w2 hw2 with h1 | ⟨a, b, hr, _, hc2⟩ | ⟨id, ex, hex, _, hc2⟩
    · exact hinv k2 w2 h1 t (List.mem_append_right _ ht)
    · rw [hc2]
      exact hpw2.2.2 b (by rw [hr]; simp) t ht
    · rcases hc2 with hc2 | hc2
      · rw [hc2]
        exact hinv id ex hex t (List.mem_append_right _ ht)
      · exact hpw2.2.2 _ hc2 t ht

/-! ## Reads over the heap return copies -/

namespace Heap

theorem readByID_eq (w : World) (id : Int) :
    readByID w id =
      match w.users.lookup id with
      | none => Except.error Err.ErrUserNotFound
      | some p => Except.ok (w.mem p) := by
  unfold readByID World.GetByID
  cases w.users.lookup id with
  | none => rfl
  | some p => simp [World.alloc]

theorem readByEmail_eq (w : World) (email : String) :
    readByEmail w email =
      match w.emails.lookup email with
      | none => Except.error Err.ErrUserNotFound
      | some p => Except.ok (w.mem p) := by
  unfold readByEmail World.GetByEmail
  cases w.emails.lookup email with
  | none => rfl
  | some p => simp [World.alloc]

/-- The copies made by the loop of `List` lie at new addresses, hold the
records that were at the given addresses, and nothing allocated before is
changed. -/
theorem copyAll_spec (ptrs : List Ptr) :
    ∀ w : World, (∀ q ∈ ptrs, q < w.next) →
      (copyAll w ptrs).2.users = w.users ∧ (copyAll w ptrs).2.emails = w.emails ∧
        (copyAll w ptrs).2.nextID = w.nextID ∧ w.next ≤ (copyAll w ptrs).2.next ∧
        (∀ q, q < w.next → (copyAll w ptrs).2.mem q = w.mem q) ∧
        (∀ p ∈ (copyAll w ptrs).1, w.next ≤ p) ∧
        (copyAll w ptrs).1.map (copyAll w ptrs).2.mem = ptrs.map w.mem := by
  induction ptrs with
  | nil =>
    intro w _
    simp [copyAll]
  | cons user rest ih =>
    intro w hlt
    have hrest : ∀ q ∈ rest, q < (w.alloc (w.mem user)).2.next := by
      intro q hq
      exact Nat.lt_succ_of_lt (hlt q (List.mem_cons_of_mem _ hq))
    obtain ⟨h1, h2, h3, h4, h5, h6, h7⟩ := ih (w.alloc (w.mem user)).2 hrest
    have hmem : ∀ q, q < w.next → (w.alloc (w.mem user)).2.mem q = w.mem q := by
      intro q hq
      simp only [World.alloc]
      exact Function.update_noteq (Nat.ne_of_lt hq) _ _
    have hnew : (w.alloc (w.mem user)).2.mem w.next = w.mem user := by
      simp [World.alloc]
    have hlt1 : w.next < (w.alloc (w.mem user)).2.next := Nat.lt_succ_self _
    simp only [copyAll]
    refine ⟨h1, h2, h3, Nat.le_trans (Nat.le_of_lt hlt1) h4, ?_, ?_, ?_⟩
    · intro q hq
      rw [h5 q (Nat.lt_trans hq hlt1), hmem q hq]
    · intro p hp
      rcases List.mem_cons.1 hp with hp | hp
      · rw [hp]; exact Nat.le_refl _
      · exact Nat.le_trans (Nat.le_of_lt hlt1) (h6 p hp)
    · simp only [List.map_cons]
      congr 1
      · show (copyAll (w.alloc (w.mem user)).2 rest).2.mem w.next = w.mem user
        rw [h5 w.next hlt1, hnew]
      · rw [h7]
        apply List.map_congr_left
        intro q hq
        exact hmem q (hlt q (List.mem_cons_of_mem _ hq))

theorem stored_lt {w : World} (hw : w.WellFormed) : ∀ q ∈ w.stored, q < w.next := by
  intro q hq
  simp only [World.stored, List.mem_filterMap] at hq
  obtain ⟨id, _, hid⟩ := hq
  exact hw.1 id q hid

theorem mem_stored {w : World} {q : Ptr} (hq : q ∈ w.stored) :
    ∃ id, w.users.lookup id = some q := by
  simp only [World.stored, List.mem_filterMap] at hq
  obtain ⟨id, _, hid⟩ := hq
  exact ⟨id, hid⟩

theorem readList_eq {w : World} (hw : w.WellFormed) :
    readList w = Except.ok (w.stored.map w.mem) := by
  have h := (copyAll_spec w.stored w (stored_lt hw)).2.2.2.2.2.2
  simp only [readList, World.List]
  rw [h]

/-- An assignment to a record that neither map holds leaves the store what
it is. -/
theorem sameStore_of_store {w : World} (hw : w.WellFormed) (p : Ptr) (changed : User)
    (hu : ∀ id q, w.users.lookup id = some q → q ≠ p)
    (he : ∀ email q, w.emails.lookup email = some q → q ≠ p) :
    SameStore (w.store p changed) w := by
  have hmem : ∀ q, q ≠ p → (w.store p changed).mem q = w.mem q := by
    intro q hq
    simp only [World.store]
    exact Function.update_noteq hq _ _
  have hw2 : (w.store p changed).WellFormed := hw
  refine ⟨rfl, rfl, rfl, ?_, ?_, ?_, ?_⟩
  · intro id q hq
    exact hmem q (hu id q hq)
  · intro id
    rw [readByID_eq, readByID_eq]
    show (match w.users.lookup id with
      | none => Except.error Err.ErrUserNotFound
      | some q => Except.ok ((w.store p changed).mem q)) = _
    cases hl : w.users.lookup id with
    | none => rfl
    | some q => simp only [hmem q (hu id q hl)]
  · intro email
    rw [readByEmail_eq, readByEmail_eq]
    show (match w.emails.lookup email with
      | none => Except.error Err.ErrUserNotFound
      | some q => Except.ok ((w.store p changed).mem q)) = _
    cases hl : w.emails.lookup email with
    | none => rfl
    | some q => simp only [hmem q (he email q hl)]
  · rw [readList_eq hw2, readList_eq hw]
    show Except.ok (w.stored.map (w.store p changed).mem) = _
    congr 1
    apply List.map_congr_left
    intro q hq
    obtain ⟨id, hid⟩ := mem_stored hq
    exact hmem q (hu id q hid)

/-- After an allocation the maps hold allocated addresses only, none of them
the new one. -/
theorem wellFormed_alloc {w : World} (hw : w.WellFormed) (u : User) :
    (w.alloc u).2.WellFormed ∧
      (∀ id q, (w.alloc u).2.users.lookup id = some q → q ≠ (w.alloc u).1) ∧
      (∀ email q, (w.alloc u).2.emails.lookup email = some q → q ≠ (w.alloc u).1) := by
  refine ⟨⟨?_, ?_⟩, ?_, ?_⟩
  · intro id q hq
    exact Nat.lt_succ_of_lt (hw.1 id q hq)
  · intro email q hq
    exact Nat.lt_succ_of_lt (hw.2 email q hq)
  · intro id q hq
    exact Nat.ne_of_lt (hw.1 id q hq)
  · intro email q hq
    exact Nat.ne_of_lt (hw.2 email q hq)

/-! ## The maps hold allocated addresses -/

theorem wellFormed_new : World.new.WellFormed := by
  constructor
  · intro id p hp
    simp [World.new] at hp
  · intro email p hp
    simp [World.new] at hp

theorem wellFormed_Create {w : World} (hw : w.WellFormed) (user : Ptr) (hu : user < w.next) :
    (w.Create user).2.WellFormed := by
  unfold World.Create
  split
  · exact hw
  · simp only [World.store]
    constructor
    · intro id p hp
      by_cases hid : id = (Function.update w.mem user
          { w.mem user with ID := w.nextID } user).ID
      · rw [hid, Finmap.lookup_insert] at hp
        rw [← Option.some.inj hp]; exact hu
      · rw [Finmap.lookup_insert_of_ne _ hid] at hp
        exact hw.1 id p hp
    · intro email p hp
      by_cases hid : email = (Function.update w.mem user
          { w.mem user with ID := w.nextID } user).Email
      · rw [hid, Finmap.lookup_insert] at hp
        rw [← Option.some.inj hp]; exact hu
      · rw [Finmap.lookup_insert_of_ne _ hid] at hp
        exact hw.2 email p hp

theorem wellFormed_GetByEmail {w : World} (hw : w.WellFormed) (email : String) :
    (w.GetByEmail email).2.WellFormed := by
  unfold World.GetByEmail
  split
  · exact hw
  · exact (wellFormed_alloc hw _).1

theorem wellFormed_CreateUser {w : World} (hw : w.WellFormed) (name email : String)
    (now1 now2 : Time) : (w.CreateUser name email now1 now2).2.WellFormed := by
  have h0 := wellFormed_GetByEmail hw email
  unfold World.CreateUser
  rcases hg : w.GetByEmail email with ⟨res, w1⟩
  rw [hg] at h0
  have h1 : w1.WellFormed := h0
  cases res with
  | ok p => exact h1
  | error e =>
    have h2 : (w1.alloc ⟨0, name, email, now1, now2⟩).2.WellFormed :=
      (wellFormed_alloc h1 ⟨0, name, email, now1, now2⟩).1
    have h3 : ((w1.alloc ⟨0, name, email, now1, now2⟩).2.Create w1.next).2.WellFormed :=
      wellFormed_Create h2 w1.next (Nat.lt_succ_self _)
    simp only
    split
    · exact h2
    · rcases hc : (w1.alloc ⟨0, name, email, now1, now2⟩).2.Create w1.next with ⟨err, w2⟩
      rw [hc] at h3
      have hc2 : (w1.alloc ⟨0, name, email, now1, now2⟩).2.Create
          (w1.alloc ⟨0, name, email, now1, now2⟩).1 = (err, w2) := hc
      rw [hc2]
      cases err with
      | none => exact h3
      | some e2 => exact h3

/-! ## The value model describes the heap when callers hand over records they
do not write to

`Create`, `Update` and `Delete` over the heap, given a record that neither map
holds, do to the store what the methods of the value model do. -/

theorem Abstracts_new : Abstracts World.new NewInMemoryUserRepository := by
  refine ⟨?_, ?_, rfl⟩
  · intro id; simp [World.new, NewInMemoryUserRepository]
  · intro email; simp [World.new, NewInMemoryUserRepository]

theorem Create_abstracts {w : World} {r : InMemoryUserRepository} (ha : Abstracts w r)
    (user : Ptr) (hu : ∀ id q, w.users.lookup id = some q → q ≠ user)
    (he : ∀ email q, w.emails.lookup email = some q → q ≠ user) :
    (w.Create user).1 = (r.Create (w.mem user)).1.1 ∧
      (w.Create user).2.mem user = (r.Create (w.mem user)).1.2 ∧
      Abstracts (w.Create user).2 (r.Create (w.mem user)).2 := by
  obtain ⟨h1, h2, h3⟩ := ha
  have hlook := h2 (w.mem user).Email
  cases hl : w.emails.lookup (w.mem user).Email with
  | some q =>
    rw [hl] at hlook
    have hr : r.emails.lookup (w.mem user).Email = some (w.mem q) := hlook.symm
    rw [Create_held r _ _ hr]
    simp only [World.Create, hl]
    exact ⟨by first | rfl | trivial, by first | rfl | trivial, h1, h2, h3⟩
  | none =>
    rw [hl] at hlook
    have hr : r.emails.lookup (w.mem user).Email = none := hlook.symm
    rw [Create_free r _ hr]
    simp only [World.Create, hl, World.store, Function.update_same]
    refine ⟨by first | rfl | trivial, by rw [h3], ?_, ?_, by rw [h3]⟩
    · intro id
      by_cases hid : id = w.nextID
      · rw [hid, Finmap.lookup_insert, ← h3, Finmap.lookup_insert]
        simp [h3]
      · rw [Finmap.lookup_insert_of_ne _ hid, ← h3, Finmap.lookup_insert_of_ne _ hid, ← h1 id]
        cases hq : w.users.lookup id with
        | none => rfl
        | some q => simp [Function.update_noteq (hu id q hq)]
    · intro email
      by_cases hem : email = (w.mem user).Email
      · rw [hem, Finmap.lookup_insert, Finmap.lookup_insert]
        simp [h3]
      · rw [Finmap.lookup_insert_of_ne _ hem, Finmap.lookup_insert_of_ne _ hem, ← h2 email]
        cases hq : w.emails.lookup email with
        | none => rfl
        | some q => simp [Function.update_noteq (he email q hq)]

theorem Delete_abstracts {w : World} {r : InMemoryUserRepository} (ha : Abstracts w r)
    (id : Int) :
    (w.Delete id).1 = (r.Delete id).1 ∧ Abstracts (w.Delete id).2 (r.Delete id).2 := by
  obtain ⟨h1, h2, h3⟩ := ha
  have hlook := h1 id
  cases hl : w.users.lookup id with
  | none =>
    rw [hl] at hlook
    rw [Delete_absent r id hlook.symm]
    simp only [World.Delete, hl]
    exact ⟨by first | rfl | trivial, h1, h2, h3⟩
  | some q =>
    rw [hl] at hlook
    rw [Delete_present r id (w.mem q) hlook.symm]
    simp only [World.Delete, hl]
    refine ⟨by first | rfl | trivial, ?_, ?_, h3⟩
    · intro k
      by_cases hk : k = id
      · rw [hk, Finmap.lookup_erase, Finmap.lookup_erase]; rfl
      · rw [Finmap.lookup_erase_ne hk, Finmap.lookup_erase_ne hk]; exact h1 k
    · intro e
      by_cases hk : e = (w.mem q).Email
      · rw [hk, Finmap.lookup_erase, Finmap.lookup_erase]; rfl
      · rw [Finmap.lookup_erase_ne hk, Finmap.lookup_erase_ne hk]; exact h2 e

theorem Update_abstracts {w : World} {r : InMemoryUserRepository} (ha : Abstracts w r)
    (user : Ptr) :
    (w.Update user).1 = (r.Update (w.mem user)).1.1 ∧
      Abstracts (w.Update user).2 (r.Update (w.mem user)).2 := by
  obtain ⟨h1, h2, h3⟩ := ha
  have hlook := h1 (w.mem user).ID
  cases hl : w.users.lookup (w.mem user).ID with
  | none =>
    rw [hl] at hlook
    rw [Update_absent r _ hlook.symm]
    simp only [World.Update, hl]
    exact ⟨by first | rfl | trivial, h1, h2, h3⟩
  | some existing =>
    rw [hl] at hlook
    have hr : r.users.lookup (w.mem user).ID = some (w.mem existing) := hlook.symm
    have herase : ∀ e, ((w.emails.erase (w.mem existing).Email).lookup e).map w.mem =
        (r.emails.erase (w.mem existing).Email).lookup e := by
      intro e
      by_cases hk : e = (w.mem existing).Email
      · rw [hk, Finmap.lookup_erase, Finmap.lookup_erase]; rfl
      · rw [Finmap.lookup_erase_ne hk, Finmap.lookup_erase_ne hk]; exact h2 e
    have hconf := herase (w.mem user).Email
    simp only [World.Update, hl, InMemoryUserRepository.Update, hr]
    cases hq : (w.emails.erase (w.mem existing).Email).lookup (w.mem user).Email with
    | none =>
      rw [hq] at hconf
      have hq2 : (r.emails.erase (w.mem existing).Email).lookup (w.mem user).Email = none :=
        hconf.symm
      simp only [hq2, Bool.false_eq_true, if_false]
      refine ⟨by first | rfl | trivial, ?_, ?_, h3⟩
      · intro k
        by_cases hk : k = (w.mem user).ID
        · rw [hk, Finmap.lookup_insert, Finmap.lookup_insert]; rfl
        · rw [Finmap.lookup_insert_of_ne _ hk, Finmap.lookup_insert_of_ne _ hk]; exact h1 k
      · intro e
        by_cases hk : e = (w.mem user).Email
        · rw [hk, Finmap.lookup_insert, Finmap.lookup_insert]; rfl
        · rw [Finmap.lookup_insert_of_ne _ hk, Finmap.lookup_insert_of_ne _ hk]
          exact herase e
    | some emailUser =>
      rw [hq] at hconf
      have hq2 : (r.emails.erase (w.mem existing).Email).lookup (w.mem user).Email =
          some (w.mem emailUser) := hconf.symm
      simp only [hq2]
      by_cases hid : (w.mem emailUser).ID = (w.mem user).ID
      · simp only [hid, ne_eq, not_true_eq_false, decide_False, Bool.false_eq_true, if_false]
        refine ⟨by first | rfl | trivial, ?_, ?_, h3⟩
        · intro k
          by_cases hk : k = (w.mem user).ID
          · rw [hk, Finmap.lookup_insert, Finmap.lookup_insert]; rfl
          · rw [Finmap.lookup_insert_of_ne _ hk, Finmap.lookup_insert_of_ne _ hk]; exact h1 k
        · intro e
          by_cases hk : e = (w.mem user).Email
          · rw [hk, Finmap.lookup_insert, Finmap.lookup_insert]; rfl
          · rw [Finmap.lookup_insert_of_ne _ hk, Finmap.lookup_insert_of_ne _ hk]
            exact herase e
      · simp only [hid, ne_eq, not_false_eq_true, decide_True, if_true]
        refine ⟨by first | rfl | trivial, h1, ?_, h3⟩
        intro e
        by_cases hk : e = (w.mem existing).Email
        · rw [hk, Finmap.lookup_insert, Finmap.lookup_insert]; rfl
        · rw [Finmap.lookup_insert_of_ne _ hk, Finmap.lookup_insert_of_ne _ hk]
          exact herase e

end Heap

/-! ## The failures of `Update` and of `UpdateUser` over the in-memory store -/

theorem Update_errors (r : InMemoryUserRepository) (user : User) (err : Err)
    (h : (r.Update user).1.1 = some err) :
    err = Err.ErrUserNotFound ∨ err = Err.ErrUserAlreadyExists := by
  revert h
  unfold InMemoryUserRepository.Update
  split
  · intro h
    exact Or.inl (Option.some.inj h).symm
  · simp only
    split
    · intro h
      exact Or.inr (Option.some.inj h).symm
    · intro h
      exact absurd h (by simp)

theorem two_pow_bits (bits : Nat) (h : 0 < bits) : (2 : Int) ^ bits = 2 * 2 ^ (bits - 1) := by
  obtain ⟨n, rfl⟩ : ∃ n, bits = n + 1 := ⟨bits - 1, by omega⟩
  simp [pow_succ, mul_comm]

theorem wrap_range (bits : Nat) (h : 0 < bits) (x : Int) :
    -2 ^ (bits - 1) ≤ Machine.wrap bits x ∧ Machine.wrap bits x < 2 ^ (bits - 1) := by
  have hM : (0 : Int) < 2 ^ (bits - 1) := by positivity
  have h2 := two_pow_bits bits h
  unfold Machine.wrap
  rw [h2]
  have h0 := Int.emod_nonneg (x + 2 ^ (bits - 1))
    (show (2 * 2 ^ (bits - 1) : Int) ≠ 0 by omega)
  have h1 := Int.emod_lt_of_pos (x + 2 ^ (bits - 1))
    (show (0 : Int) < 2 * 2 ^ (bits - 1) by omega)
  constructor <;> omega

/-- A value that an `int` of `bits` bits can hold is not changed. -/
theorem wrap_eq_self (bits : Nat) (h : 0 < bits) (x : Int) (hl : -2 ^ (bits - 1) ≤ x)
    (hu : x < 2 ^ (bits - 1)) : Machine.wrap bits x = x := by
  have h2 := two_pow_bits bits h
  unfold Machine.wrap
  rw [h2, Int.emod_eq_of_lt (by omega) (by omega)]
  omega

theorem wrap_add (bits : Nat) (x y : Int) :
    Machine.wrap bits (Machine.wrap bits x + y) = Machine.wrap bits (x + y) := by
  unfold Machine.wrap
  congr 1
  have : (x + 2 ^ (bits - 1)) % 2 ^ bits - 2 ^ (bits - 1) + y + 2 ^ (bits - 1) =
      (x + 2 ^ (bits - 1)) % 2 ^ bits + y := by ring
  rw [this, Int.emod_add_emod]
  congr 1
  ring

/-- Fewer than `2 ^ bits` increments apart, two values of the counter
differ. -/
theorem wrap_ne (bits : Nat) (j k : Nat) (hjk : j < k) (hk : (k : Int) < 2 ^ bits) :
    Machine.wrap bits ((j : Int) + 1) ≠ Machine.wrap bits ((k : Int) + 1) := by
  intro heq
  unfold Machine.wrap at heq
  have h1 : ((j : Int) + 1 + 2 ^ (bits - 1)) % 2 ^ bits =
      ((k : Int) + 1 + 2 ^ (bits - 1)) % 2 ^ bits := by
    omega
  have h3 : (2 : Int) ^ bits ∣ (k : Int) - j := by
    have h2 : (2 : Int) ^ bits ∣
        ((k : Int) + 1 + 2 ^ (bits - 1)) - ((j : Int) + 1 + 2 ^ (bits - 1)) :=
      Int.ModEq.dvd h1
    have : ((k : Int) + 1 + 2 ^ (bits - 1)) - ((j : Int) + 1 + 2 ^ (bits - 1)) =
        (k : Int) - j := by
      ring
    rw [← this]; exact h2
  have h4 := Int.le_of_dvd (by omega) h3
  omega

theorem wrapped_ids_cons (bits : Nat) (hbits : 0 < bits) (a : Int)
    (hl : -2 ^ (bits - 1) ≤ a) (hu : a < 2 ^ (bits - 1)) (n : Nat) :
    a :: (List.range n).map
        (fun k : Nat => Machine.wrap bits (Machine.wrap bits (a + 1) + (k : Int))) =
      (List.range (n + 1)).map (fun k : Nat => Machine.wrap bits (a + (k : Int))) := by
  rw [List.range_succ_eq_map]
  simp only [List.map_cons, List.map_map]
  congr 1
  · simp [wrap_eq_self bits hbits a hl hu]
  · apply List.map_congr_left
    intro k _
    simp only [Function.comp, Nat.succ_eq_add_one]
    rw [wrap_add]
    congr 1
    push_cast
    ring

theorem Create_wrapped_held (bits : Nat) (r : InMemoryUserRepository) (user v : User)
    (h : r.emails.lookup user.Email = some v) :
    Machine.Create bits r user = ((some Err.ErrUserAlreadyExists, user), r) := by
  simp [Machine.Create, h]

theorem Create_wrapped_free (bits : Nat) (r : InMemoryUserRepository) (user : User)
    (h : r.emails.lookup user.Email = none) :
    Machine.Create bits r user =
      ((none, { user with ID := r.nextID }),
        { users := r.users.insert r.nextID { user with ID := r.nextID }
          emails := r.emails.insert user.Email { user with ID := r.nextID }
          nextID := Machine.wrap bits (r.nextID + 1) }) := by
  simp [Machine.Create, h]

/-- Below the largest value of the counter `Create` is the `Create` of the
model without a bound. -/
theorem Create_wrapped_eq (bits : Nat) (hbits : 0 < bits) (r : InMemoryUserRepository)
    (user : User) (hl : -2 ^ (bits - 1) ≤ r.nextID + 1) (hu : r.nextID + 1 < 2 ^ (bits - 1)) :
    Machine.Create bits r user = r.Create user := by
  simp only [Machine.Create, InMemoryUserRepository.Create,
    wrap_eq_self bits hbits (r.nextID + 1) hl hu]

theorem createdIDs_wrapped_step (bits : Nat) (r : InMemoryUserRepository) (op : StoreOp) :
    ((∀ ops, Machine.createdIDs bits r (op :: ops) =
          Machine.createdIDs bits (Machine.apply bits r op) ops) ∧
        (Machine.apply bits r op).nextID = r.nextID) ∨
      ((∀ ops, Machine.createdIDs bits r (op :: ops) =
          r.nextID :: Machine.createdIDs bits (Machine.apply bits r op) ops) ∧
        (Machine.apply bits r op).nextID = Machine.wrap bits (r.nextID + 1)) := by
  cases op with
  | create user =>
    cases hl : r.emails.lookup user.Email with
    | some v =>
      left
      simp only [Machine.createdIDs, Machine.apply, Create_wrapped_held bits r user v hl,
        implies_true, and_self]
    | none =>
      right
      simp only [Machine.createdIDs, Machine.apply, Create_wrapped_free bits r user hl,
        implies_true, and_self]
  | update user =>
    left
    simp only [Machine.createdIDs, Machine.apply, Update_nextID, implies_true, and_self]
  | delete id =>
    left
    simp only [Machine.createdIDs, Machine.apply, Delete_nextID, implies_true, and_self]

/-- The ids of a run are the successive values of the counter. -/
theorem createdIDs_wrapped_eq (bits : Nat) (hbits : 0 < bits) (ops : List StoreOp) :
    ∀ r : InMemoryUserRepository, -2 ^ (bits - 1) ≤ r.nextID → r.nextID < 2 ^ (bits - 1) →
      Machine.createdIDs bits r ops =
        (List.range (Machine.createdIDs bits r ops).length).map
          (fun k : Nat => Machine.wrap bits (r.nextID + (k : Int))) := by
  induction ops with
  | nil => intro r _ _; simp [Machine.createdIDs]
  | cons op ops ih =>
    intro r hl hu
    rcases createdIDs_wrapped_step bits r op with ⟨h1, h2⟩ | ⟨h1, h2⟩
    · have h := ih (Machine.apply bits r op) (by rw [h2]; exact hl) (by rw [h2]; exact hu)
      rw [h2] at h
      rw [h1 ops]
      exact h
    · have hr := wrap_range bits hbits (r.nextID + 1)
      have h := ih (Machine.apply bits r op) (by rw [h2]; exact hr.1) (by rw [h2]; exact hr.2)
      rw [h2] at h
      rw [h1 ops, List.length_cons, ← wrapped_ids_cons bits hbits r.nextID hl hu]
      congr 1

theorem emailOf_ne (i j : Nat) (h : i ≠ j) : Machine.emailOf i ≠ Machine.emailOf j := by
  intro heq
  have h1 : (List.replicate (i + 1) 'u').length = (List.replicate (j + 1) 'u').length :=
    congrArg (fun s : String => s.data.length) heq
  simp only [List.length_replicate] at h1
  omega

theorem emailOf_ne_empty (i : Nat) : Machine.emailOf i ≠ "" := by
  intro heq
  have h1 : (List.replicate (i + 1) 'u').length = 0 :=
    congrArg (fun s : String => s.data.length) heq
  simp only [List.length_replicate] at h1
  omega

/-- Every call of the run `distinctCreates` succeeds. -/
theorem distinctCreates_length (bits : Nat) (n : Nat) :
    ∀ (i : Nat) (r : InMemoryUserRepository),
      (∀ j, i ≤ j → r.emails.lookup (Machine.emailOf j) = none) →
      (Machine.createdIDs bits r (Machine.distinctCreates i n)).length = n := by
  induction n with
  | zero => intro i r _; simp [Machine.distinctCreates, Machine.createdIDs]
  | succ n ih =>
    intro i r h
    have hl : r.emails.lookup
        (⟨0, "User", Machine.emailOf i, 0, 0⟩ : User).Email = none := h i (le_refl _)
    simp only [Machine.distinctCreates, Machine.createdIDs,
      Create_wrapped_free bits r _ hl, List.length_cons]
    rw [ih]
    intro j hj
    show (r.emails.insert (Machine.emailOf i) _).lookup (Machine.emailOf j) = none
    rw [Finmap.lookup_insert_of_ne _ (emailOf_ne j i (by omega))]
    exact h j (by omega)

theorem getElem?_map_range (f : Nat → Int) (n k : Nat) (hk : k < n) :
    ((List.range n).map f)[k]? = some (f k) := by
  rw [List.getElem?_map, List.getElem?_range hk]
  rfl

theorem of_getElem?_map_range (f : Nat → Int) (n k : Nat) (x : Int)
    (h : ((List.range n).map f)[k]? = some x) : k < n ∧ x = f k := by
  by_cases hk : k < n
  · rw [getElem?_map_range f n k hk] at h
    exact ⟨hk, (Option.some.inj h).symm⟩
  · rw [List.getElem?_eq_none (by simpa using hk)] at h
    exact absurd h (by simp)

/-! ## The service over the machine counter -/

theorem CreateUser_wrapped_cases (bits : Nat) (r : InMemoryUserRepository)
    (name email : String) (now1 now2 : Time) :
    (∃ err, UserUseCase.CreateUser (Machine.inMemory bits) r name email now1 now2 =
        (Except.error err, r)) ∨
      (name ≠ "" ∧ email ≠ "" ∧ r.emails.lookup email = none ∧
        UserUseCase.CreateUser (Machine.inMemory bits) r name email now1 now2 =
          (Except.ok (createdUser r name email now1 now2),
            { users := r.users.insert r.nextID (createdUser r name email now1 now2)
              emails := r.emails.insert email (createdUser r name email now1 now2)
              nextID := Machine.wrap bits (r.nextID + 1) })) := by
  cases hl : r.emails.lookup email with
  | some v =>
    left
    exact ⟨Err.ErrUserAlreadyExists, by
      simp [UserUseCase.CreateUser, Machine.inMemory, InMemoryUserRepository.GetByEmail, hl]⟩
  | none =>
    by_cases hn : name = ""
    · left
      exact ⟨Err.ErrUserNameRequired, by
        simp [UserUseCase.CreateUser, Machine.inMemory, InMemoryUserRepository.GetByEmail, hl,
          User.Validate, hn]⟩
    · by_cases he : email = ""
      · left
        have hl2 := hl
        rw [he] at hl2
        exact ⟨Err.ErrUserEmailRequired, by
          simp [UserUseCase.CreateUser, Machine.inMemory, InMemoryUserRepository.GetByEmail,
            hl, hl2, User.Validate, hn, he]⟩
      · right
        refine ⟨hn, he, rfl, ?_⟩
        simp [UserUseCase.CreateUser, Machine.inMemory, InMemoryUserRepository.GetByEmail, hl,
          User.Validate, hn, he, Machine.Create, createdUser]

theorem UpdateUser_nextID (r : InMemoryUserRepository) (id : Int) (name email : String)
    (now1 now2 : Time) :
    (UserUseCase.UpdateUser inMemory r id name email now1 now2).2.nextID = r.nextID := by
  by_cases hid : id ≤ 0
  · rw [UpdateUser_invalid r id name email now1 now2 hid]
  · cases hl : r.users.lookup id with
    | none => rw [UpdateUser_absent r id name email now1 now2 (not_le.1 hid) hl]
    | some existing =>
      rw [UpdateUser_present r id name email now1 now2 existing (not_le.1 hid) hl]
      exact Update_nextID r _

theorem DeleteUser_nextID (r : InMemoryUserRepository) (id : Int) :
    (UserUseCase.DeleteUser inMemory r id).2.nextID = r.nextID := by
  by_cases hid : id ≤ 0
  · rw [DeleteUser_invalid r id hid]
  · cases hl : r.users.lookup id with
    | none => rw [DeleteUser_absent r id (not_le.1 hid) hl]
    | some user => rw [DeleteUser_present r id user (not_le.1 hid) hl]

theorem serviceCreatedIDs_wrapped_step (bits : Nat) (r : InMemoryUserRepository)
    (op : ServiceOp) :
    ((∀ ops, Machine.serviceCreatedIDs bits r (op :: ops) =
          Machine.serviceCreatedIDs bits (Machine.serviceApply bits r op) ops) ∧
        (Machine.serviceApply bits r op).nextID = r.nextID) ∨
      ((∀ ops, Machine.serviceCreatedIDs bits r (op :: ops) =
          r.nextID :: Machine.serviceCreatedIDs bits (Machine.serviceApply bits r op) ops) ∧
        (Machine.serviceApply bits r op).nextID = Machine.wrap bits (r.nextID + 1)) := by
  cases op with
  | createUser name email now1 now2 =>
    rcases CreateUser_wrapped_cases bits r name email now1 now2 with ⟨err, h⟩ | ⟨_, _, _, h⟩
    · left
      simp only [Machine.serviceCreatedIDs, Machine.serviceApply, h, implies_true, and_self]
    · right
      simp only [Machine.serviceCreatedIDs, Machine.serviceApply, h, createdUser,
        implies_true, and_self]
  | getUserByID id =>
    left
    refine ⟨fun _ => rfl, ?_⟩
    show (UserUseCase.GetUserByID inMemory r id).2.nextID = r.nextID
    rw [GetUserByID_state]
  | updateUser id name email now1 now2 =>
    left
    exact ⟨fun _ => rfl, UpdateUser_nextID r id name email now1 now2⟩
  | deleteUser id =>
    left
    exact ⟨fun _ => rfl, DeleteUser_nextID r id⟩
  | listUsers =>
    left
    exact ⟨fun _ => rfl, rfl⟩

/-- The ids that a run of the service returns are the successive values of
the counter, and the counter after the run is the next one. -/
theorem serviceCreatedIDs_wrapped_eq (bits : Nat) (hbits : 0 < bits) (ops : List ServiceOp) :
    ∀ r : InMemoryUserRepository, -2 ^ (bits - 1) ≤ r.nextID → r.nextID < 2 ^ (bits - 1) →
      Machine.serviceCreatedIDs bits r ops =
          (List.range (Machine.serviceCreatedIDs bits r ops).length).map
            (fun k : Nat => Machine.wrap bits (r.nextID + (k : Int))) ∧
        (Machine.runService bits r ops).nextID =
          Machine.wrap bits
            (r.nextID + ((Machine.serviceCreatedIDs bits r ops).length : Int)) := by
  induction ops with
  | nil =>
    intro r hl hu
    simp [Machine.serviceCreatedIDs, Machine.runService, wrap_eq_self bits hbits r.nextID hl hu]
  | cons op ops ih =>
    intro r hl hu
    have hrun : Machine.runService bits r (op :: ops) =
        Machine.runService bits (Machine.serviceApply bits r op) ops := rfl
    rcases serviceCreatedIDs_wrapped_step bits r op with ⟨h1, h2⟩ | ⟨h1, h2⟩
    · have h := ih (Machine.serviceApply bits r op) (by rw [h2]; exact hl)
        (by rw [h2]; exact hu)
      rw [h2] at h
      rw [h1 ops, hrun]
      exact h
    · have hr := wrap_range bits hbits (r.nextID + 1)
      have h := ih (Machine.serviceApply bits r op) (by rw [h2]; exact hr.1)
        (by rw [h2]; exact hr.2)
      rw [h2] at h
      rw [h1 ops, hrun, List.length_cons, ← wrapped_ids_cons bits hbits r.nextID hl hu]
      refine ⟨?_, ?_⟩
      · congr 1
        exact h.1
      · rw [h.2, wrap_add]
        congr 1
        push_cast
        ring

theorem serviceCreatedIDs_wrapped_append (bits : Nat) (pre post : List ServiceOp) :
    ∀ r : InMemoryUserRepository,
      Machine.serviceCreatedIDs bits r (pre ++ post) =
        Machine.serviceCreatedIDs bits r pre ++
          Machine.serviceCreatedIDs bits (Machine.runService bits r pre) post := by
  induction pre with
  | nil => intro r; rfl
  | cons op pre ih =>
    intro r
    have hrun : Machine.runService bits r (op :: pre) =
        Machine.runService bits (Machine.serviceApply bits r op) pre := rfl
    rcases serviceCreatedIDs_wrapped_step bits r op with ⟨h1, _⟩ | ⟨h1, _⟩
    · rw [List.cons_append, h1 (pre ++ post), h1 pre, hrun]
      exact ih _
    · rw [List.cons_append, h1 (pre ++ post), h1 pre, hrun, List.cons_append]
      congr 1
      exact ih _

/-- Every call of the run `distinctCreateUsers` succeeds. -/
theorem distinctCreateUsers_length (bits : Nat) (n : Nat) :
    ∀ (i : Nat) (r : InMemoryUserRepository),
      (∀ j, i ≤ j → r.emails.lookup (Machine.emailOf j) = none) →
      (Machine.serviceCreatedIDs bits r (Machine.distinctCreateUsers i n)).length = n := by
  induction n with
  | zero => intro i r _; simp [Machine.distinctCreateUsers, Machine.serviceCreatedIDs]
  | succ n ih =>
    intro i r h
    rcases CreateUser_wrapped_cases bits r "User" (Machine.emailOf i) 0 0 with
      ⟨err, hf⟩ | ⟨_, _, _, hok⟩
    · exfalso
      have hl := h i (le_refl _)
      have hne := emailOf_ne_empty i
      simp [UserUseCase.CreateUser, Machine.inMemory, InMemoryUserRepository.GetByEmail, hl,
        User.Validate, hne, Machine.Create] at hf
    · simp only [Machine.distinctCreateUsers, Machine.serviceCreatedIDs, hok,
        List.length_cons]
      rw [ih]
      intro j hj
      show (r.emails.insert (Machine.emailOf i) _).lookup (Machine.emailOf j) = none
      rw [Finmap.lookup_insert_of_ne _ (emailOf_ne j i (by omega))]
      exact h j (by omega)

/-! ## Concurrent calls of `CreateUser` -/

/-- The two turns of a goroutine, taken one after the other, are the call of
`CreateUser`. -/
theorem Goroutine_step_step (r : InMemoryUserRepository) (args : CreateArgs) :
    Goroutine.step (Goroutine.step r (Goroutine.called args)).2
        (Goroutine.step r (Goroutine.called args)).1 =
      (Goroutine.returned
          (UserUseCase.CreateUser inMemory r args.name args.email args.now1 args.now2).1,
        (UserUseCase.CreateUser inMemory r args.name args.email args.now1 args.now2).2) := by
  cases hl : r.emails.lookup args.email with
  | some v =>
    simp [Goroutine.step, UserUseCase.CreateUser, inMemory, InMemoryUserRepository.GetByEmail, hl]
  | none =>
    by_cases hn : args.name = ""
    · simp [Goroutine.step, UserUseCase.CreateUser, inMemory,
        InMemoryUserRepository.GetByEmail, hl, User.Validate, hn]
    · by_cases he : args.email = ""
      · have hl2 := hl
        rw [he] at hl2
        simp [Goroutine.step, UserUseCase.CreateUser, inMemory,
          InMemoryUserRepository.GetByEmail, hl, hl2, User.Validate, hn, he]
      · simp [Goroutine.step, UserUseCase.CreateUser, inMemory,
          InMemoryUserRepository.GetByEmail, hl, User.Validate, hn, he,
          InMemoryUserRepository.Create]

theorem set_same {α : Type} (l : List α) (i : Nat) (g : α) (h : l[i]? = some g) :
    l.set i g = l := by
  apply List.ext_getElem?
  intro n
  rw [List.getElem?_set]
  by_cases hin : i = n
  · subst hin
    have hi : i < l.length := (List.getElem?_eq_some.1 h).1
    simp [hi, h]
  · simp [hin]

theorem PoolInv.stored {calls : List CreateArgs} {p : Pool} (h : PoolInv calls p) {k : Nat}
    {v : User} (hk : p.goroutines[k]? = some (Goroutine.returned (Except.ok v))) :
    Stored p.store v.ID v := by
  have hlt : k < calls.length := by
    rw [← h.length]; exact (List.getElem?_eq_some.1 hk).1
  exact (h.agrees k _ _ (List.getElem?_eq_getElem hlt) hk).2.2

/-- The invariant after one goroutine moved from `g` to `g1` and the store
became `r1`. -/
theorem PoolInv.set {calls : List CreateArgs} {p : Pool} (h : PoolInv calls p) {i : Nat}
    {a : CreateArgs} {g : Goroutine} (ha : calls[i]? = some a)
    (hg : p.goroutines[i]? = some g) (hnot : ∀ u, g ≠ Goroutine.returned (Except.ok u))
    (r1 : InMemoryUserRepository) (g1 : Goroutine) (hc : Consistent r1)
    (hag : g1.Agrees r1 a)
    (hmono : ∀ b k, Goroutine.Agrees p.store b k → Goroutine.Agrees r1 b k)
    (hown : ∀ id u, Stored r1 id u →
      Stored p.store id u ∨ g1 = Goroutine.returned (Except.ok u))
    (hfresh : ∀ u v, g1 = Goroutine.returned (Except.ok u) → Stored p.store v.ID v →
      u.ID ≠ v.ID) :
    PoolInv calls { store := r1, goroutines := p.goroutines.set i g1 } := by
  have hi : i < p.goroutines.length := (List.getElem?_eq_some.1 hg).1
  refine ⟨hc, ?_, ?_, ?_, ?_⟩
  · show (p.goroutines.set i g1).length = calls.length
    rw [List.length_set]; exact h.length
  · intro j b k hb hk
    by_cases hij : i = j
    · subst hij
      have hk1 : (p.goroutines.set i g1)[i]? = some k := hk
      rw [List.getElem?_set_self hi] at hk1
      rw [ha] at hb
      rw [← Option.some.inj hk1, ← Option.some.inj hb]
      exact hag
    · have hk1 : (p.goroutines.set i g1)[j]? = some k := hk
      rw [List.getElem?_set_ne hij] at hk1
      exact hmono b k (h.agrees j b k hb hk1)
  · intro id u hs
    rcases hown id u hs with h1 | h1
    · obtain ⟨k, hk⟩ := h.owner id u h1
      have hki : i ≠ k := by
        intro hik
        subst hik
        rw [hg] at hk
        exact hnot u (Option.some.inj hk)
      exact ⟨k, by show (p.goroutines.set i g1)[k]? = _; rw [List.getElem?_set_ne hki]; exact hk⟩
    · exact ⟨i, by show (p.goroutines.set i g1)[i]? = _; rw [List.getElem?_set_self hi, h1]⟩
  · intro j k u v hj hk huv
    have hj1 : (p.goroutines.set i g1)[j]? = some (Goroutine.returned (Except.ok u)) := hj
    have hk1 : (p.goroutines.set i g1)[k]? = some (Goroutine.returned (Except.ok v)) := hk
    by_cases hij : i = j
    · by_cases hik : i = k
      · rw [← hij, ← hik]
      · subst hij
        rw [List.getElem?_set_self hi] at hj1
        rw [List.getElem?_set_ne hik] at hk1
        exact absurd huv (hfresh u v (Option.some.inj hj1) (h.stored hk1))
    · by_cases hik : i = k
      · subst hik
        rw [List.getElem?_set_self hi] at hk1
        rw [List.getElem?_set_ne hij] at hj1
        exact absurd huv.symm (hfresh v u (Option.some.inj hk1) (h.stored hj1))
      · rw [List.getElem?_set_ne hij] at hj1
        rw [List.getElem?_set_ne hik] at hk1
        exact h.inj j k u v hj1 hk1 huv

theorem PoolInv_start (calls : List CreateArgs) : PoolInv calls (Pool.start calls) := by
  refine ⟨Consistent_new, ?_, ?_, ?_, ?_⟩
  · simp [Pool.start]
  · intro i a g ha hg
    simp only [Pool.start, List.getElem?_map, ha, Option.map_some'] at hg
    rw [← Option.some.inj hg]
    rfl
  · intro id u hs
    simp [Pool.start, Stored, NewInMemoryUserRepository] at hs
  · intro i j u v hi
    simp only [Pool.start, List.getElem?_map] at hi
    cases hc : calls[i]? with
    | none => rw [hc] at hi; simp at hi
    | some a => rw [hc] at hi; simp at hi

theorem PoolInv.step {calls : List CreateArgs} {p : Pool}
    (hne : ∀ a ∈ calls, a.name ≠ "" ∧ a.email ≠ "") (h : PoolInv calls p) (i : Nat) :
    PoolInv calls (p.step i) := by
  unfold Pool.step
  cases hg : p.goroutines[i]? with
  | none => exact h
  | some g =>
    have hlt : i < calls.length := by
      rw [← h.length]; exact (List.getElem?_eq_some.1 hg).1
    have ha : calls[i]? = some calls[i] := List.getElem?_eq_getElem hlt
    have hag := h.agrees i _ g ha hg
    obtain ⟨hn, he⟩ := hne _ (List.getElem?_mem ha)
    generalize calls[i] = a at ha hag hn he
    have hc := h.consistent
    simp only
    cases g with
    | called b =>
      have hb : b = a := hag
      subst hb
      cases hl : p.store.emails.lookup b.email with
      | some v =>
        have hs : Goroutine.step p.store (Goroutine.called b) =
            (Goroutine.returned (Except.error Err.ErrUserAlreadyExists), p.store) := by
          simp [Goroutine.step, InMemoryUserRepository.GetByEmail, hl]
        rw [hs]
        exact h.set ha hg (fun u hu => by cases hu) _ _ hc ⟨rfl, v, hl⟩ (fun _ _ x => x)
          (fun _ _ x => Or.inl x) (fun u v hu => by cases hu)
      | none =>
        have hs : Goroutine.step p.store (Goroutine.called b) =
            (Goroutine.creating ⟨0, b.name, b.email, b.now1, b.now2⟩, p.store) := by
          simp [Goroutine.step, InMemoryUserRepository.GetByEmail, hl, User.Validate, hn, he]
        rw [hs]
        exact h.set ha hg (fun u hu => by cases hu) _ _ hc rfl (fun _ _ x => x)
          (fun _ _ x => Or.inl x) (fun u v hu => by cases hu)
    | creating user =>
      have hu : user = ⟨0, a.name, a.email, a.now1, a.now2⟩ := hag
      cases hl : p.store.emails.lookup user.Email with
      | some v =>
        have hs : Goroutine.step p.store (Goroutine.creating user) =
            (Goroutine.returned (Except.error Err.ErrUserAlreadyExists), p.store) := by
          simp [Goroutine.step, Create_held p.store user v hl]
        rw [hs]
        refine h.set ha hg (fun u hu => by cases hu) _ _ hc ⟨rfl, v, ?_⟩ (fun _ _ x => x)
          (fun _ _ x => Or.inl x) (fun u v hu => by cases hu)
        rw [← hl, hu]
      | none =>
        have hs : Goroutine.step p.store (Goroutine.creating user) =
            (Goroutine.returned (Except.ok { user with ID := p.store.nextID }),
              { users := p.store.users.insert p.store.nextID { user with ID := p.store.nextID },
                emails := p.store.emails.insert user.Email { user with ID := p.store.nextID },
                nextID := p.store.nextID + 1 }) := by
          simp [Goroutine.step, Create_free p.store user hl]
        have hc1 := Consistent_Create hc user
        rw [Create_free p.store user hl] at hc1
        rw [hs]
        refine h.set ha hg (fun u hu => by cases hu) _ _ hc1 ?_ ?_ ?_ ?_
        · refine ⟨?_, ?_, ?_⟩
          · rw [hu]
          · rw [hu]
          · show (p.store.users.insert p.store.nextID _).lookup p.store.nextID = _
            rw [Finmap.lookup_insert]
        · intro b k hk
          cases k with
          | called c => exact hk
          | creating w => exact hk
          | returned res =>
            cases res with
            | ok w =>
              obtain ⟨h1, h2, h3⟩ := hk
              refine ⟨h1, h2, ?_⟩
              show (p.store.users.insert p.store.nextID _).lookup w.ID = _
              rw [Finmap.lookup_insert_of_ne _ (ne_of_lt (hc.id_lt _ _ h3))]
              exact h3
            | error e =>
              obtain ⟨h1, v, hv⟩ := hk
              refine ⟨h1, ?_⟩
              by_cases hbe : b.email = user.Email
              · exact ⟨_, by
                  show (p.store.emails.insert user.Email _).lookup b.email = _
                  rw [hbe, Finmap.lookup_insert]⟩
              · exact ⟨v, by
                  show (p.store.emails.insert user.Email _).lookup b.email = _
                  rw [Finmap.lookup_insert_of_ne _ hbe]
                  exact hv⟩
        · intro id u hs1
          have hs2 : (p.store.users.insert p.store.nextID
              { user with ID := p.store.nextID }).lookup id = some u := hs1
          by_cases hid : id = p.store.nextID
          · rw [hid, Finmap.lookup_insert] at hs2
            exact Or.inr (by rw [← Option.some.inj hs2])
          · rw [Finmap.lookup_insert_of_ne _ hid] at hs2
            exact Or.inl hs2
        · intro u v huv hv heq
          have h1 : u = { user with ID := p.store.nextID } := by
            cases huv; rfl
          have h2 := hc.id_lt _ _ hv
          rw [h1] at heq
          simp only at heq
          omega
    | returned res =>
      have hs : Goroutine.step p.store (Goroutine.returned res) =
          (Goroutine.returned res, p.store) := rfl
      rw [hs]
      simp only
      rw [set_same _ _ _ hg]
      exact h

theorem PoolInv.run {calls : List CreateArgs} (hne : ∀ a ∈ calls, a.name ≠ "" ∧ a.email ≠ "")
    (schedule : List Nat) : ∀ p : Pool, PoolInv calls p → PoolInv calls (p.run schedule) := by
  induction schedule with
  | nil => intro p h; exact h
  | cons i rest ih =>
    intro p h
    exact ih (p.step i) (h.step hne i)

theorem Goroutine_stepsLeft_step (r : InMemoryUserRepository) (g : Goroutine) :
    (Goroutine.step r g).1.stepsLeft ≤ g.stepsLeft - 1 := by
  cases g with
  | called a =>
    cases hl : r.emails.lookup a.email with
    | some v => simp [Goroutine.step, InMemoryUserRepository.GetByEmail, hl, Goroutine.stepsLeft]
    | none =>
      cases hv : User.Validate ⟨0, a.name, a.email, a.now1, a.now2⟩ with
      | some e =>
        simp [Goroutine.step, InMemoryUserRepository.GetByEmail, hl, hv, Goroutine.stepsLeft]
      | none =>
        simp [Goroutine.step, InMemoryUserRepository.GetByEmail, hl, hv, Goroutine.stepsLeft]
  | creating user =>
    cases hl : r.emails.lookup user.Email with
    | some v => simp [Goroutine.step, Create_held r user v hl, Goroutine.stepsLeft]
    | none => simp [Goroutine.step, Create_free r user hl, Goroutine.stepsLeft]
  | returned res => simp [Goroutine.step, Goroutine.stepsLeft]

theorem Pool_step_stepsLeft (p : Pool) (j i : Nat) (g : Goroutine)
    (h : (p.step j).goroutines[i]? = some g) :
    ∃ g0, p.goroutines[i]? = some g0 ∧
      g.stepsLeft ≤ g0.stepsLeft - (if j = i then 1 else 0) := by
  unfold Pool.step at h
  cases hj : p.goroutines[j]? with
  | none =>
    rw [hj] at h
    refine ⟨g, h, ?_⟩
    have hji : j ≠ i := by
      intro hji
      rw [hji, h] at hj
      exact absurd hj (by simp)
    simp [hji]
  | some gj =>
    rw [hj] at h
    have h1 : (p.goroutines.set j (Goroutine.step p.store gj).1)[i]? = some g := h
    by_cases hji : j = i
    · subst hji
      rw [List.getElem?_set_self (List.getElem?_eq_some.1 hj).1] at h1
      refine ⟨gj, hj, ?_⟩
      rw [← Option.some.inj h1]
      simpa using Goroutine_stepsLeft_step p.store gj
    · rw [List.getElem?_set_ne hji] at h1
      exact ⟨g, h1, by simp [hji]⟩

theorem Pool_run_stepsLeft (schedule : List Nat) :
    ∀ (p : Pool) (i : Nat) (g : Goroutine), (p.run schedule).goroutines[i]? = some g →
      ∃ g0, p.goroutines[i]? = some g0 ∧ g.stepsLeft ≤ g0.stepsLeft - schedule.count i := by
  induction schedule with
  | nil =>
    intro p i g h
    exact ⟨g, h, by simp⟩
  | cons j rest ih =>
    intro p i g h
    obtain ⟨g1, h1, hle1⟩ := ih (p.step j) i g h
    obtain ⟨g0, h0, hle0⟩ := Pool_step_stepsLeft p j i g1 h1
    refine ⟨g0, h0, ?_⟩
    rw [List.count_cons]
    by_cases hji : j = i
    · simp only [hji, if_true, beq_self_eq_true] at hle0 ⊢
      omega
    · have hb : (j == i) = false := by simpa using hji
      simp only [hji, if_false, hb, Bool.false_eq_true] at hle0 ⊢
      omega

/-- Every goroutine that gets two turns has returned. -/
theorem Pool_run_finished (calls : List CreateArgs) (schedule : List Nat)
    (hfair : ∀ i, i < calls.length → 2 ≤ schedule.count i) :
    ((Pool.start calls).run schedule).finished = true := by
  unfold Pool.finished
  rw [List.all_eq_true]
  intro g hg
  obtain ⟨i, hi⟩ := List.mem_iff_getElem?.1 hg
  obtain ⟨g0, h0, hle⟩ := Pool_run_stepsLeft schedule (Pool.start calls) i g hi
  have hlt : i < calls.length := by
    have := (List.getElem?_eq_some.1 h0).1
    simpa [Pool.start] using this
  have h2 := hfair i hlt
  have hg0 : g0.stepsLeft ≤ 2 := by
    cases g0 <;> simp [Goroutine.stepsLeft]
  have hz : g.stepsLeft = 0 := by omega
  cases g with
  | called a => simp [Goroutine.stepsLeft] at hz
  | creating u => simp [Goroutine.stepsLeft] at hz
  | returned res => rfl

theorem map_of_forall {α β : Type} (f : α → β) (l : List β) (h : ∀ g ∈ l, ∃ u, g = f u) :
    ∃ us : List α, l = us.map f := by
  induction l with
  | nil => exact ⟨[], rfl⟩
  | cons g rest ih =>
    obtain ⟨u, hu⟩ := h g (List.mem_cons_self _ _)
    obtain ⟨us, hus⟩ := ih (fun k hk => h k (List.mem_cons_of_mem _ hk))
    exact ⟨u :: us, by rw [hu, hus]; rfl⟩

theorem index_of_nodup_map {α β : Type} (f : α → β) (l : List α) (hnd : (l.map f).Nodup)
    {i j : Nat} {a b : α} (hi : l[i]? = some a) (hj : l[j]? = some b) (hab : f a = f b) :
    i = j := by
  have hne := List.nodup_iff_getElem?_ne_getElem?.1 hnd
  have hil : i < (l.map f).length := by
    rw [List.length_map]; exact (List.getElem?_eq_some.1 hi).1
  have hjl : j < (l.map f).length := by
    rw [List.length_map]; exact (List.getElem?_eq_some.1 hj).1
  have heq : (l.map f)[i]? = (l.map f)[j]? := by
    rw [List.getElem?_map, List.getElem?_map, hi, hj]
    simp [hab]
  rcases Nat.lt_trichotomy i j with h | h | h
  · exact absurd heq (hne i j h hjl)
  · exact h
  · exact absurd heq.symm (hne j i h hil)

/-- With pairwise distinct emails no goroutine returns an error. -/
theorem PoolInv.succeeded {calls : List CreateArgs} {p : Pool} (h : PoolInv calls p)
    (hnd : (calls.map CreateArgs.email).Nodup) (hfin : p.finished = true) :
    ∀ g ∈ p.goroutines, ∃ u, g = Goroutine.returned (Except.ok u) := by
  intro g hg
  have hret : g.hasReturned = true := (List.all_eq_true.1 hfin) g hg
  obtain ⟨i, hi⟩ := List.mem_iff_getElem?.1 hg
  have hlt : i < calls.length := by
    rw [← h.length]; exact (List.getElem?_eq_some.1 hi).1
  have ha : calls[i]? = some calls[i] := List.getElem?_eq_getElem hlt
  have hag := h.agrees i _ g ha hi
  generalize calls[i] = a at ha hag
  cases g with
  | called b => exact absurd hret (by simp [Goroutine.hasReturned])
  | creating u => exact absurd hret (by simp [Goroutine.hasReturned])
  | returned res =>
    cases res with
    | ok u => exact ⟨u, rfl⟩
    | error e =>
      obtain ⟨_, v, hv⟩ := hag
      obtain ⟨hs, hve⟩ := (h.consistent.email_iff _ _).1 hv
      obtain ⟨k, hk⟩ := h.owner _ _ hs
      have hklt : k < calls.length := by
        rw [← h.length]; exact (List.getElem?_eq_some.1 hk).1
      have hb : calls[k]? = some calls[k] := List.getElem?_eq_getElem hklt
      have hagk := h.agrees k _ _ hb hk
      generalize calls[k] = b at hb hagk
      have hki : k = i := index_of_nodup_map CreateArgs.email calls hnd hb ha
        (by rw [← hagk.2.1, hve])
      rw [hki, hi] at hk
      cases hk

/-- With pairwise distinct emails the goroutines return one user each, with
pairwise distinct ids, and these users are what `ListUsers` returns. -/
theorem PoolInv.all_succeed {calls : List CreateArgs} {p : Pool} (h : PoolInv calls p)
    (hnd : (calls.map CreateArgs.email).Nodup) (hfin : p.finished = true) :
    ∃ users : List User,
      p.goroutines = users.map (fun u => Goroutine.returned (Except.ok u)) ∧
      users.length = calls.length ∧
      users.map User.Name = calls.map CreateArgs.name ∧
      users.map User.Email = calls.map CreateArgs.email ∧
      (users.map User.ID).Nodup ∧
      ∃ listed, UserUseCase.ListUsers inMemory p.store = (Except.ok listed, p.store) ∧
        Multiset.card listed = calls.length ∧ ∀ u, u ∈ listed ↔ u ∈ users := by
  obtain ⟨users, hus⟩ := map_of_forall (fun u => Goroutine.returned (Except.ok u))
    p.goroutines (h.succeeded hnd hfin)
  have hlen : users.length = calls.length := by
    rw [← h.length, hus, List.length_map]
  have hget : ∀ (i : Nat) (u : User), users[i]? = some u →
      p.goroutines[i]? = some (Goroutine.returned (Except.ok u)) := by
    intro i u hu
    rw [hus, List.getElem?_map, hu]
    rfl
  have hcall : ∀ (i : Nat) (u : User), users[i]? = some u →
      ∃ a, calls[i]? = some a ∧ u.Name = a.name ∧ u.Email = a.email := by
    intro i u hu
    have hlt : i < calls.length := by
      rw [← hlen]; exact (List.getElem?_eq_some.1 hu).1
    exact ⟨calls[i], List.getElem?_eq_getElem hlt,
      (h.agrees i _ _ (List.getElem?_eq_getElem hlt) (hget i u hu)).1,
      (h.agrees i _ _ (List.getElem?_eq_getElem hlt) (hget i u hu)).2.1⟩
  have hnodup : (users.map User.ID).Nodup := by
    rw [List.nodup_iff_getElem?_ne_getElem?]
    intro i j hij hj heq
    rw [List.length_map] at hj
    have hi : i < users.length := lt_trans hij hj
    rw [List.getElem?_map, List.getElem?_map, List.getElem?_eq_getElem hi,
      List.getElem?_eq_getElem hj] at heq
    have hid : users[i].ID = users[j].ID := by simpa using heq
    have := h.inj i j _ _ (hget i _ (List.getElem?_eq_getElem hi))
      (hget j _ (List.getElem?_eq_getElem hj)) hid
    omega
  have hmem : ∀ u, (∃ k, p.store.users.lookup k = some u) ↔ u ∈ users := by
    intro u
    constructor
    · rintro ⟨k, hk⟩
      obtain ⟨i, hi⟩ := h.owner k u hk
      rw [hus, List.getElem?_map] at hi
      cases hu : users[i]? with
      | none => rw [hu] at hi; simp at hi
      | some w =>
        rw [hu] at hi
        have hw : w = u := by simpa using hi
        rw [← hw]
        exact List.getElem?_mem hu
    · intro hu
      obtain ⟨i, hi⟩ := List.mem_iff_getElem?.1 hu
      exact ⟨u.ID, h.stored (hget i u hi)⟩
  refine ⟨users, hus, hlen, ?_, ?_, hnodup,
    p.store.users.entries.map (@Sigma.snd Int (fun _ => User)), rfl, ?_, ?_⟩
  · apply List.ext_getElem?
    intro i
    rw [List.getElem?_map, List.getElem?_map]
    cases hu : users[i]? with
    | some u =>
      obtain ⟨a, ha, hn, _⟩ := hcall i u hu
      rw [ha]
      simp [hn]
    | none =>
      have hge : calls.length ≤ i := by
        rw [← hlen]; exact List.getElem?_eq_none_iff.1 hu
      rw [List.getElem?_eq_none hge]
      rfl
  · apply List.ext_getElem?
    intro i
    rw [List.getElem?_map, List.getElem?_map]
    cases hu : users[i]? with
    | some u =>
      obtain ⟨a, ha, _, he⟩ := hcall i u hu
      rw [ha]
      simp [he]
    | none =>
      have hge : calls.length ≤ i := by
        rw [← hlen]; exact List.getElem?_eq_none_iff.1 hu
      rw [List.getElem?_eq_none hge]
      rfl
  · rw [card_entries, ← hlen, ← List.length_map users User.ID,
      ← List.toFinset_card_of_nodup hnodup]
    congr 1
    ext k
    simp only [Finmap.mem_keys, List.mem_toFinset, List.mem_map]
    constructor
    · intro hk
      obtain ⟨u, hu⟩ := Finmap.mem_iff.1 hk
      exact ⟨u, (hmem u).1 ⟨k, hu⟩, h.consistent.id_key _ _ hu⟩
    · rintro ⟨u, hu, rfl⟩
      obtain ⟨i, hi⟩ := List.mem_iff_getElem?.1 hu
      exact Finmap.mem_of_lookup_eq_some (h.stored (hget i u hi))
  · intro u
    rw [mem_entries_snd]
    exact hmem u

/-- Of two goroutines that were called with the same email one returns a
user and the other `ErrUserAlreadyExists`. -/
theorem PoolInv.same_email {a b : CreateArgs} {p : Pool} (h : PoolInv [a, b] p)
    (hab : a.email = b.email) (hfin : p.finished = true) :
    (∃ u, p.goroutines =
        [Goroutine.returned (Except.ok u),
          Goroutine.returned (Except.error Err.ErrUserAlreadyExists)]) ∨
      (∃ u, p.goroutines =
        [Goroutine.returned (Except.error Err.ErrUserAlreadyExists),
          Goroutine.returned (Except.ok u)]) := by
  have hlen : p.goroutines.length = 2 := h.length
  obtain ⟨g0, g1, hgs⟩ := List.length_eq_two.1 hlen
  have h0 : p.goroutines[0]? = some g0 := by rw [hgs]; rfl
  have h1 : p.goroutines[1]? = some g1 := by rw [hgs]; rfl
  have ha0 := h.agrees 0 a g0 rfl h0
  have ha1 := h.agrees 1 b g1 rfl h1
  have hall := List.all_eq_true.1 hfin
  have hr0 : g0.hasReturned = true := hall g0 (by rw [hgs]; simp)
  have hr1 : g1.hasReturned = true := hall g1 (by rw [hgs]; simp)
  cases g0 with
  | called c => exact absurd hr0 (by simp [Goroutine.hasReturned])
  | creating u => exact absurd hr0 (by simp [Goroutine.hasReturned])
  | returned res0 =>
    cases g1 with
    | called c => exact absurd hr1 (by simp [Goroutine.hasReturned])
    | creating u => exact absurd hr1 (by simp [Goroutine.hasReturned])
    | returned res1 =>
      cases res0 with
      | ok u =>
        cases res1 with
        | ok v =>
          obtain ⟨_, hue, hus⟩ := ha0
          obtain ⟨_, hve, hvs⟩ := ha1
          have e1 := h.consistent.email_of_stored hus
          have e2 := h.consistent.email_of_stored hvs
          rw [hue, hab, ← hve, e2] at e1
          have huv : v = u := Option.some.inj e1
          have := h.inj 0 1 u v h0 h1 (by rw [huv])
          exact absurd this (by decide)
        | error e =>
          obtain ⟨he, _⟩ := ha1
          exact Or.inl ⟨u, by rw [hgs, he]⟩
      | error e =>
        cases res1 with
        | ok v =>
          obtain ⟨he, _⟩ := ha0
          exact Or.inr ⟨v, by rw [hgs, he]⟩
        | error e1 =>
          obtain ⟨_, v, hv⟩ := ha0
          obtain ⟨hs, _⟩ := (h.consistent.email_iff _ _).1 hv
          obtain ⟨k, hk⟩ := h.owner _ _ hs
          rw [hgs] at hk
          match k, hk with
          | 0, hk => simp at hk
          | 1, hk => simp at hk
          | k + 2, hk => simp at hk

/-! # The claims -/

/-- Email uniqueness when records are handed over by value: in every state
that a sequence of create, update and delete calls (successful or failed) produces
from a new store, two stored users with different ids (different keys of the
id index, or different `ID` fields) have different emails. -/
theorem email_unique_of_reachable (r : InMemoryUserRepository) (h : Reachable r)
    (id₁ id₂ : Int) (u₁ u₂ : User) (h₁ : Stored r id₁ u₁) (h₂ : Stored r id₂ u₂)
    (hne : id₁ ≠ id₂ ∨ u₁.ID ≠ u₂.ID) : u₁.Email ≠ u₂.Email := by
  intro he
  have hc := h.consistent
  have e₁ := hc.email_of_stored h₁
  have e₂ := hc.email_of_stored h₂
  rw [he, e₂] at e₁
  have hu : u₂ = u₁ := Option.some.inj e₁
  have k₁ := hc.id_key _ _ h₁
  have k₂ := hc.id_key _ _ h₂
  rcases hne with hne | hne
  · exact hne (by rw [← k₁, ← k₂, hu])
  · exact hne (by rw [hu])

theorem email_unique_of_reachable_witness :
    Reachable twoUserStore ∧ Stored twoUserStore 1 john ∧ Stored twoUserStore 2 jane ∧
      john.Email ≠ jane.Email :=
  ⟨⟨twoUserOps, rfl⟩, by decide, by decide,
    email_unique_of_reachable twoUserStore ⟨twoUserOps, rfl⟩ 1 2 john jane
      (by decide) (by decide) (Or.inl (by decide))⟩

/-- C2. For every store state and every name, the empty one included,
`CreateUser` with an email that a stored user holds (the email index has it;
in a reachable state, equivalently, a record of the id index has it) fails
with `ErrUserAlreadyExists`, hence never with `ErrUserNameRequired`, leaves
the store as it was, and the only call it makes to the store is `GetByEmail`:
`Create` is not called. -/
theorem CreateUser_duplicate_before_validation (r : InMemoryUserRepository)
    (name email : String) (now1 now2 : Time)
    (h : (∃ v, r.emails.lookup email = some v) ∨ (Reachable r ∧ EmailHeld r email)) :
    UserUseCase.CreateUser inMemory r name email now1 now2 =
        (Except.error Err.ErrUserAlreadyExists, r) ∧
      UserUseCase.CreateUser (UserRepositoryMock inMemory) (r, []) name email now1 now2 =
        (Except.error Err.ErrUserAlreadyExists, (r, [Call.GetByEmail email])) := by
  have hv : ∃ v, r.emails.lookup email = some v := by
    rcases h with h | ⟨hr, hh⟩
    · exact h
    · exact (hr.consistent.emailHeld_iff email).1 hh
  obtain ⟨v, hv⟩ := hv
  refine ⟨CreateUser_held r name email now1 now2 v hv, ?_⟩
  simp [UserUseCase.CreateUser, UserRepositoryMock, inMemory,
    InMemoryUserRepository.GetByEmail, hv]

theorem CreateUser_duplicate_before_validation_witness :
    (Reachable twoUserStore ∧ EmailHeld twoUserStore "john@example.com") ∧
      UserUseCase.CreateUser inMemory twoUserStore "" "john@example.com" 5 6 =
        (Except.error Err.ErrUserAlreadyExists, twoUserStore) ∧
      UserUseCase.CreateUser (UserRepositoryMock inMemory) (twoUserStore, []) ""
          "john@example.com" 5 6 =
        (Except.error Err.ErrUserAlreadyExists,
          (twoUserStore, [Call.GetByEmail "john@example.com"])) :=
  ⟨⟨⟨twoUserOps, rfl⟩, 1, john, by decide, rfl⟩,
    CreateUser_duplicate_before_validation twoUserStore "" "john@example.com" 5 6
      (Or.inr ⟨⟨twoUserOps, rfl⟩, 1, john, by decide, rfl⟩)⟩

/-- C6, up to the largest value of `int`. On a new store, with the counter in
an `int` of `bits` bits, the successful `Create` calls of any run of create,
update and delete calls are given the successive values of the counter: the
k-th of them gets the id k reduced to the range of `int`, whatever `ID` the
caller put in the record and whatever calls, failed or not, lie in between.
So for every k up to the largest value of `int`, `2 ^ (bits - 1) - 1`, the k-th
gets the id k, and these ids strictly increase. -/
theorem createdIDs_sequential_below_wrap (bits : Nat) (hbits : 2 ≤ bits)
    (ops : List StoreOp) :
    Machine.createdIDs bits NewInMemoryUserRepository ops =
        (List.range (Machine.createdIDs bits NewInMemoryUserRepository ops).length).map
          (fun k : Nat => Machine.wrap bits ((k : Int) + 1)) ∧
      (∀ (k : Nat) (id : Int),
        (Machine.createdIDs bits NewInMemoryUserRepository ops)[k]? = some id →
        (k : Int) + 1 < 2 ^ (bits - 1) → id = (k : Int) + 1) ∧
      (∀ (j k : Nat) (a b : Int), j < k → (k : Int) + 1 < 2 ^ (bits - 1) →
        (Machine.createdIDs bits NewInMemoryUserRepository ops)[j]? = some a →
        (Machine.createdIDs bits NewInMemoryUserRepository ops)[k]? = some b → a < b) := by
  have hpos : 0 < bits := by omega
  have hM : (2 : Int) ≤ 2 ^ (bits - 1) := by
    have : (2 : Int) ^ 1 ≤ 2 ^ (bits - 1) :=
      pow_le_pow_right₀ (by norm_num) (by omega)
    simpa using this
  have h := createdIDs_wrapped_eq bits hpos ops NewInMemoryUserRepository
    (by simp only [NewInMemoryUserRepository]; omega)
    (by simp only [NewInMemoryUserRepository]; omega)
  have h1 : Machine.createdIDs bits NewInMemoryUserRepository ops =
      (List.range (Machine.createdIDs bits NewInMemoryUserRepository ops).length).map
        (fun k : Nat => Machine.wrap bits ((k : Int) + 1)) := by
    rw [h, List.length_map, List.length_range]
    apply List.map_congr_left
    intro k _
    simp only [NewInMemoryUserRepository]
    congr 1
    ring
  have h2 : ∀ (k : Nat) (id : Int),
      (Machine.createdIDs bits NewInMemoryUserRepository ops)[k]? = some id →
      (k : Int) + 1 < 2 ^ (bits - 1) → id = (k : Int) + 1 := by
    intro k id hk hlt
    rw [h1] at hk
    rw [(of_getElem?_map_range _ _ k id hk).2]
    exact wrap_eq_self bits hpos _ (by omega) hlt
  refine ⟨h1, h2, ?_⟩
  intro j k a b hjk hlt ha hb
  rw [h2 j a ha (by omega), h2 k b hb hlt]
  omega

theorem createdIDs_sequential_below_wrap_witness :
    2 ≤ 64 ∧
      Machine.createdIDs 64 NewInMemoryUserRepository
          [StoreOp.create ⟨7, "John Doe", "john@example.com", 1, 2⟩,
            StoreOp.create ⟨8, "Johnny", "john@example.com", 1, 2⟩,
            StoreOp.delete 1, StoreOp.delete 5,
            StoreOp.create ⟨9, "Jane Doe", "jane@example.com", 3, 4⟩] = [1, 2] ∧
      Machine.createdIDs 64 NewInMemoryUserRepository
          [StoreOp.create ⟨7, "John Doe", "john@example.com", 1, 2⟩,
            StoreOp.create ⟨8, "Johnny", "john@example.com", 1, 2⟩,
            StoreOp.delete 1, StoreOp.delete 5,
            StoreOp.create ⟨9, "Jane Doe", "jane@example.com", 3, 4⟩] =
        (List.range (Machine.createdIDs 64 NewInMemoryUserRepository
          [StoreOp.create ⟨7, "John Doe", "john@example.com", 1, 2⟩,
            StoreOp.create ⟨8, "Johnny", "john@example.com", 1, 2⟩,
            StoreOp.delete 1, StoreOp.delete 5,
            StoreOp.create ⟨9, "Jane Doe", "jane@example.com", 3, 4⟩]).length).map
          (fun k : Nat => Machine.wrap 64 ((k : Int) + 1)) :=
  ⟨by decide, by decide,
    (createdIDs_sequential_below_wrap 64 (by decide)
      [StoreOp.create ⟨7, "John Doe", "john@example.com", 1, 2⟩,
        StoreOp.create ⟨8, "Johnny", "john@example.com", 1, 2⟩,
        StoreOp.delete 1, StoreOp.delete 5,
        StoreOp.create ⟨9, "Jane Doe", "jane@example.com", 3, 4⟩]).1⟩

/-- C6, as stated, fails beyond the largest value of `int`. In the run of
`2 ^ 63` calls of `Create` with different emails on a new store, with an `int`
of 64 bits, every call succeeds; the call before the last is given the id
`2 ^ 63 - 1`, and the last, the `2 ^ 63`-th successful call, the id
`-2 ^ 63`, which is not `2 ^ 63` and not greater than the id before. -/
theorem createdIDs_wrap_at_MaxInt :
    (Machine.createdIDs 64 NewInMemoryUserRepository
        (Machine.distinctCreates 0 (2 ^ 63))).length = 2 ^ 63 ∧
      (Machine.createdIDs 64 NewInMemoryUserRepository
        (Machine.distinctCreates 0 (2 ^ 63)))[2 ^ 63 - 2]? = some (2 ^ 63 - 1) ∧
      (Machine.createdIDs 64 NewInMemoryUserRepository
        (Machine.distinctCreates 0 (2 ^ 63)))[2 ^ 63 - 1]? = some (-2 ^ 63) := by
  have hlen := distinctCreates_length 64 (2 ^ 63) 0 NewInMemoryUserRepository
    (fun j _ => by simp only [NewInMemoryUserRepository, Finmap.lookup_empty])
  have h := createdIDs_wrapped_eq 64 (by decide) (Machine.distinctCreates 0 (2 ^ 63))
    NewInMemoryUserRepository (by simp only [NewInMemoryUserRepository]; norm_num)
    (by simp only [NewInMemoryUserRepository]; norm_num)
  rw [hlen] at h
  refine ⟨hlen, ?_, ?_⟩
  · rw [h, getElem?_map_range _ _ _ (by norm_num)]
    norm_num [Machine.wrap, NewInMemoryUserRepository]
  · rw [h, getElem?_map_range _ _ _ (by norm_num)]
    norm_num [Machine.wrap, NewInMemoryUserRepository]

/-- C7. For every store state and every id for which `DeleteUser` succeeds, a
`GetUserByID` of that id that follows immediately fails with
`ErrUserNotFound`, and so does a second `DeleteUser` of that id. -/
theorem DeleteUser_then_not_found (r : InMemoryUserRepository) (id : Int)
    (h : (UserUseCase.DeleteUser inMemory r id).1 = none) :
    (UserUseCase.GetUserByID inMemory (UserUseCase.DeleteUser inMemory r id).2 id).1 =
        Except.error Err.ErrUserNotFound ∧
      (UserUseCase.DeleteUser inMemory (UserUseCase.DeleteUser inMemory r id).2 id).1 =
        some Err.ErrUserNotFound := by
  by_cases hid : id ≤ 0
  · rw [DeleteUser_invalid r id hid] at h
    exact absurd h (by simp)
  · have hpos := not_le.1 hid
    cases hl : r.users.lookup id with
    | none =>
      rw [DeleteUser_absent r id hpos hl] at h
      exact absurd h (by simp)
    | some user =>
      rw [DeleteUser_present r id user hpos hl]
      constructor
      · rw [GetUserByID_absent _ id hpos (by simp only [Finmap.lookup_erase])]
      · rw [DeleteUser_absent _ id hpos (by simp only [Finmap.lookup_erase])]

theorem DeleteUser_then_not_found_witness :
    (UserUseCase.DeleteUser inMemory twoUserStore 1).1 = none ∧
      (UserUseCase.GetUserByID inMemory (UserUseCase.DeleteUser inMemory twoUserStore 1).2 1).1 =
        Except.error Err.ErrUserNotFound ∧
      (UserUseCase.DeleteUser inMemory (UserUseCase.DeleteUser inMemory twoUserStore 1).2 1).1 =
        some Err.ErrUserNotFound :=
  ⟨rfl, DeleteUser_then_not_found twoUserStore 1 rfl⟩

/-- C8, up to the wrap of the counter. In every run of service calls on a new
store, with the counter in an `int` of `bits` bits, the ids returned by the
successful `CreateUser` calls are the successive values of the counter,
whatever deletions lie in between, so the first `2 ^ bits` of them are
pairwise distinct.  As long as the counter has not passed the largest value of
`int`, the ids strictly increase in the order of the calls, every one of them is
below the counter after the run, and the counter has not decreased in the
course of the run. -/
theorem serviceCreatedIDs_distinct_below_wrap (bits : Nat) (hbits : 2 ≤ bits)
    (ops : List ServiceOp) :
    Machine.serviceCreatedIDs bits NewInMemoryUserRepository ops =
        (List.range (Machine.serviceCreatedIDs bits NewInMemoryUserRepository ops).length).map
          (fun k : Nat => Machine.wrap bits ((k : Int) + 1)) ∧
      (∀ (j k : Nat) (a b : Int), j < k → (k : Int) < 2 ^ bits →
        (Machine.serviceCreatedIDs bits NewInMemoryUserRepository ops)[j]? = some a →
        (Machine.serviceCreatedIDs bits NewInMemoryUserRepository ops)[k]? = some b → a ≠ b) ∧
      (((Machine.serviceCreatedIDs bits NewInMemoryUserRepository ops).length : Int) + 1 <
          2 ^ (bits - 1) →
        (Machine.serviceCreatedIDs bits NewInMemoryUserRepository ops).Pairwise
            (fun a b => a < b) ∧
          (∀ id ∈ Machine.serviceCreatedIDs bits NewInMemoryUserRepository ops,
            id < (Machine.runService bits NewInMemoryUserRepository ops).nextID) ∧
          ∀ pre post : List ServiceOp, ops = pre ++ post →
            (Machine.runService bits NewInMemoryUserRepository pre).nextID ≤
              (Machine.runService bits NewInMemoryUserRepository ops).nextID) := by
  have hpos : 0 < bits := by omega
  have hM : (2 : Int) ≤ 2 ^ (bits - 1) := by
    have : (2 : Int) ^ 1 ≤ 2 ^ (bits - 1) :=
      pow_le_pow_right₀ (by norm_num) (by omega)
    simpa using this
  have hnew : ∀ l : List ServiceOp,
      Machine.serviceCreatedIDs bits NewInMemoryUserRepository l =
          (List.range (Machine.serviceCreatedIDs bits NewInMemoryUserRepository l).length).map
            (fun k : Nat => Machine.wrap bits ((k : Int) + 1)) ∧
        (Machine.runService bits NewInMemoryUserRepository l).nextID =
          Machine.wrap bits
            (((Machine.serviceCreatedIDs bits NewInMemoryUserRepository l).length : Int) +
              1) := by
    intro l
    have h := serviceCreatedIDs_wrapped_eq bits hpos l NewInMemoryUserRepository
      (by simp only [NewInMemoryUserRepository]; omega)
      (by simp only [NewInMemoryUserRepository]; omega)
    constructor
    · rw [h.1, List.length_map, List.length_range]
      apply List.map_congr_left
      intro k _
      simp only [NewInMemoryUserRepository]
      congr 1
      ring
    · rw [h.2]
      simp only [NewInMemoryUserRepository]
      congr 1
      ring
  have h1 := (hnew ops).1
  refine ⟨h1, ?_, ?_⟩
  · intro j k a b hjk hk ha hb
    rw [h1] at ha hb
    rw [(of_getElem?_map_range _ _ j a ha).2, (of_getElem?_map_range _ _ k b hb).2]
    exact wrap_ne bits j k hjk hk
  · intro hlen
    have hid : ∀ l : List ServiceOp,
        (Machine.serviceCreatedIDs bits NewInMemoryUserRepository l).length ≤
          (Machine.serviceCreatedIDs bits NewInMemoryUserRepository ops).length →
        (Machine.runService bits NewInMemoryUserRepository l).nextID =
          ((Machine.serviceCreatedIDs bits NewInMemoryUserRepository l).length : Int) + 1 := by
      intro l hl
      rw [(hnew l).2]
      exact wrap_eq_self bits hpos _ (by omega) (by omega)
    have hmem : ∀ id ∈ Machine.serviceCreatedIDs bits NewInMemoryUserRepository ops,
        ∃ k : Nat, k < (Machine.serviceCreatedIDs bits NewInMemoryUserRepository ops).length ∧
          id = (k : Int) + 1 := by
      intro id hmem
      obtain ⟨k, hk⟩ := List.mem_iff_getElem?.1 hmem
      rw [h1] at hk
      obtain ⟨hlt, he⟩ := of_getElem?_map_range _ _ k id hk
      refine ⟨k, hlt, ?_⟩
      rw [he]
      exact wrap_eq_self bits hpos _ (by omega) (by omega)
    refine ⟨?_, ?_, ?_⟩
    · rw [h1, List.pairwise_map]
      apply List.Pairwise.imp_of_mem _ (List.pairwise_lt_range _)
      intro a b ha hb hab
      have hb1 : b < (Machine.serviceCreatedIDs bits NewInMemoryUserRepository ops).length :=
        List.mem_range.1 hb
      rw [wrap_eq_self bits hpos _ (by omega) (by omega),
        wrap_eq_self bits hpos _ (by omega) (by omega)]
      omega
    · intro id hmem1
      obtain ⟨k, hk, he⟩ := hmem id hmem1
      rw [hid ops (le_refl _), he]
      omega
    · intro pre post hops
      have happ := serviceCreatedIDs_wrapped_append bits pre post NewInMemoryUserRepository
      rw [← hops] at happ
      have hle : (Machine.serviceCreatedIDs bits NewInMemoryUserRepository pre).length ≤
          (Machine.serviceCreatedIDs bits NewInMemoryUserRepository ops).length := by
        rw [happ, List.length_append]
        omega
      rw [hid pre hle, hid ops (le_refl _)]
      omega

theorem serviceCreatedIDs_distinct_below_wrap_witness :
    2 ≤ 64 ∧
      Machine.serviceCreatedIDs 64 NewInMemoryUserRepository
          [ServiceOp.createUser "John Doe" "john@example.com" 1 2,
            ServiceOp.createUser "Jane Doe" "jane@example.com" 3 4,
            ServiceOp.deleteUser 1,
            ServiceOp.createUser "Ann" "john@example.com" 5 6] = [1, 2, 3] ∧
      (Machine.serviceCreatedIDs 64 NewInMemoryUserRepository
          [ServiceOp.createUser "John Doe" "john@example.com" 1 2,
            ServiceOp.createUser "Jane Doe" "jane@example.com" 3 4,
            ServiceOp.deleteUser 1,
            ServiceOp.createUser "Ann" "john@example.com" 5 6]).Pairwise (fun a b => a < b) :=
  ⟨by decide, by decide,
    ((serviceCreatedIDs_distinct_below_wrap 64 (by decide)
      [ServiceOp.createUser "John Doe" "john@example.com" 1 2,
        ServiceOp.createUser "Jane Doe" "jane@example.com" 3 4,
        ServiceOp.deleteUser 1,
        ServiceOp.createUser "Ann" "john@example.com" 5 6]).2.2 (by decide)).1⟩

/-- C8, as stated, fails when the counter wraps. With an `int` of 64 bits, in
the run of `CreateUser` calls with different emails on a new store every call
succeeds; after `2 ^ 63 - 1` of them the counter is `-2 ^ 63`, below the id 1
that the first call returned; and the call number `2 ^ 64 + 1` returns the id
1 again. -/
theorem serviceCreatedIDs_reused_after_wrap :
    (Machine.runService 64 NewInMemoryUserRepository
        (Machine.distinctCreateUsers 0 (2 ^ 63 - 1))).nextID = -2 ^ 63 ∧
      (Machine.serviceCreatedIDs 64 NewInMemoryUserRepository
        (Machine.distinctCreateUsers 0 (2 ^ 63 - 1)))[0]? = some 1 ∧
      (Machine.serviceCreatedIDs 64 NewInMemoryUserRepository
        (Machine.distinctCreateUsers 0 (2 ^ 64 + 1))).length = 2 ^ 64 + 1 ∧
      (Machine.serviceCreatedIDs 64 NewInMemoryUserRepository
        (Machine.distinctCreateUsers 0 (2 ^ 64 + 1)))[0]? = some 1 ∧
      (Machine.serviceCreatedIDs 64 NewInMemoryUserRepository
        (Machine.distinctCreateUsers 0 (2 ^ 64 + 1)))[2 ^ 64]? = some 1 := by
  have hlen : ∀ n, (Machine.serviceCreatedIDs 64 NewInMemoryUserRepository
      (Machine.distinctCreateUsers 0 n)).length = n := fun n =>
    distinctCreateUsers_length 64 n 0 NewInMemoryUserRepository
      (fun j _ => by simp only [NewInMemoryUserRepository, Finmap.lookup_empty])
  have h : ∀ n, Machine.serviceCreatedIDs 64 NewInMemoryUserRepository
        (Machine.distinctCreateUsers 0 n) =
          (List.range n).map (fun k : Nat => Machine.wrap 64 (1 + (k : Int))) ∧
      (Machine.runService 64 NewInMemoryUserRepository
        (Machine.distinctCreateUsers 0 n)).nextID = Machine.wrap 64 (1 + (n : Int)) := by
    intro n
    have h0 := serviceCreatedIDs_wrapped_eq 64 (by decide) (Machine.distinctCreateUsers 0 n)
      NewInMemoryUserRepository (by simp only [NewInMemoryUserRepository]; norm_num)
      (by simp only [NewInMemoryUserRepository]; norm_num)
    rw [hlen n] at h0
    exact h0
  refine ⟨?_, ?_, hlen _, ?_, ?_⟩
  · rw [(h _).2]
    norm_num [Machine.wrap]
  · rw [(h _).1, getElem?_map_range _ _ _ (by norm_num)]
    norm_num [Machine.wrap]
  · rw [(h _).1, getElem?_map_range _ _ _ (by norm_num)]
    norm_num [Machine.wrap]
  · rw [(h _).1, getElem?_map_range _ _ _ (by norm_num)]
    norm_num [Machine.wrap]

/-- `Update` when records are handed over by value. In a reachable store
state it fails with `ErrUserNotFound` exactly when no record is stored under `user.ID`; it fails with
`ErrUserAlreadyExists` exactly when there is one and a stored record with
another id holds `user.Email`; it succeeds exactly when there is one and no
such record, in particular when `user.Email` is the email the record has
already.  After a success `GetByID` of `user.ID` and `GetByEmail` of
`user.Email` both return a record equal to `user`, and when the email changed
`GetByEmail` of the old email fails with `ErrUserNotFound`. -/
theorem Update_outcome (r : InMemoryUserRepository) (h : Reachable r) (user : User) :
    ((r.Update user).1.1 = some Err.ErrUserNotFound ↔ ¬ ∃ old, Stored r user.ID old) ∧
      ((r.Update user).1.1 = some Err.ErrUserAlreadyExists ↔
        (∃ old, Stored r user.ID old) ∧ EmailConflict r user) ∧
      ((r.Update user).1.1 = none ↔ (∃ old, Stored r user.ID old) ∧ ¬ EmailConflict r user) ∧
      (∀ old, Stored r user.ID old → old.Email = user.Email → (r.Update user).1.1 = none) ∧
      ((r.Update user).1.1 = none →
        (r.Update user).2.GetByID user.ID = (Except.ok user, (r.Update user).2) ∧
        (r.Update user).2.GetByEmail user.Email = (Except.ok user, (r.Update user).2) ∧
        ∀ old, Stored r user.ID old → old.Email ≠ user.Email →
          (r.Update user).2.GetByEmail old.Email =
            (Except.error Err.ErrUserNotFound, (r.Update user).2)) := by
  have hc := h.consistent
  cases hl : r.users.lookup user.ID with
  | none =>
    have hno : ¬ ∃ old, Stored r user.ID old := by
      rintro ⟨old, ho⟩
      rw [Stored, hl] at ho
      exact absurd ho (by simp)
    rw [Update_absent r user hl]
    refine ⟨by simp [hno], by simp [hno], by simp [hno], ?_, by simp⟩
    intro old ho
    exact absurd ⟨old, ho⟩ hno
  | some existing =>
    have hyes : ∃ old, Stored r user.ID old := ⟨existing, hl⟩
    cases hv : (r.emails.erase existing.Email).lookup user.Email with
    | some v =>
      have hcf : EmailConflict r user := (hc.conflict_iff hl).1 ⟨v, hv⟩
      rw [Update_conflict hc hl hv]
      refine ⟨by simp [hyes], by simp [hyes, hcf], by simp [hcf], ?_, by simp⟩
      intro old ho heq
      rw [Stored, hl] at ho
      rw [← Option.some.inj ho] at heq
      rw [heq, Finmap.lookup_erase] at hv
      exact absurd hv (by simp)
    | none =>
      have hcf : ¬ EmailConflict r user := by
        intro hcf
        obtain ⟨v, hv2⟩ := (hc.conflict_iff hl).2 hcf
        rw [hv] at hv2
        exact absurd hv2 (by simp)
      rw [Update_ok r hl hv]
      refine ⟨by simp [hyes], by simp [hcf], by simp [hyes, hcf], by simp, ?_⟩
      intro _
      refine ⟨?_, ?_, ?_⟩
      · simp only [InMemoryUserRepository.GetByID, Finmap.lookup_insert]
      · simp only [InMemoryUserRepository.GetByEmail, Finmap.lookup_insert]
      · intro old ho hne
        rw [Stored, hl] at ho
        rw [← Option.some.inj ho] at hne ⊢
        simp only [InMemoryUserRepository.GetByEmail, Finmap.lookup_insert_of_ne _ hne,
          Finmap.lookup_erase]

theorem Update_outcome_witness :
    Reachable twoUserStore ∧
      ((twoUserStore.Update { john with Email := "jane@example.com" }).1.1 =
          some Err.ErrUserAlreadyExists ↔
        (∃ old, Stored twoUserStore john.ID old) ∧
          EmailConflict twoUserStore { john with Email := "jane@example.com" }) :=
  ⟨⟨twoUserOps, rfl⟩,
    (Update_outcome twoUserStore ⟨twoUserOps, rfl⟩ { john with Email := "jane@example.com" }).2.1⟩

/-- A failed `Update` is atomic when records are handed over by value: in
every reachable store state, when `Update` fails, with `ErrUserNotFound` or with `ErrUserAlreadyExists`, the
store after the call is the store before it: the same id index, the same
email index (the entry of the old email is back, with the same record) and
the same counter. -/
theorem Update_failed_unchanged (r : InMemoryUserRepository) (h : Reachable r) (user : User)
    (err : Err) (hf : (r.Update user).1.1 = some err) :
    (r.Update user).2 = r := by
  have hc := h.consistent
  cases hl : r.users.lookup user.ID with
  | none => rw [Update_absent r user hl]
  | some existing =>
    cases hv : (r.emails.erase existing.Email).lookup user.Email with
    | some v => rw [Update_conflict hc hl hv]
    | none =>
      rw [Update_ok r hl hv] at hf
      exact absurd hf (by simp)

theorem Update_failed_unchanged_witness :
    Reachable twoUserStore ∧
      (twoUserStore.Update { john with Email := "jane@example.com" }).1.1 =
        some Err.ErrUserAlreadyExists ∧
      (twoUserStore.Update { john with Email := "jane@example.com" }).2 = twoUserStore :=
  ⟨⟨twoUserOps, rfl⟩, rfl,
    Update_failed_unchanged twoUserStore ⟨twoUserOps, rfl⟩
      { john with Email := "jane@example.com" } Err.ErrUserAlreadyExists rfl⟩

/-- C11. A failed `Create` is atomic: in every store state `Create` fails with
`ErrUserAlreadyExists` exactly when the email of the record is a key of the
email index, it fails with no other error, and when it fails the store (both
indices and the counter) and the record, its `ID` included, are what they
were before the call. -/
theorem Create_fails_iff_email_key (r : InMemoryUserRepository) (user : User) :
    ((r.Create user).1.1 = some Err.ErrUserAlreadyExists ↔ user.Email ∈ r.emails) ∧
      (user.Email ∈ r.emails → r.Create user = ((some Err.ErrUserAlreadyExists, user), r)) ∧
      (∀ err, (r.Create user).1.1 = some err →
        err = Err.ErrUserAlreadyExists ∧ (r.Create user).2 = r ∧
          (r.Create user).1.2.ID = user.ID) := by
  cases hl : r.emails.lookup user.Email with
  | none =>
    have hmem : user.Email ∉ r.emails := Finmap.lookup_eq_none.1 hl
    rw [Create_free r user hl]
    refine ⟨by simp [hmem], fun h => absurd h hmem, ?_⟩
    intro err herr
    simp at herr
  | some v =>
    have hmem : user.Email ∈ r.emails := Finmap.mem_of_lookup_eq_some hl
    rw [Create_held r user v hl]
    refine ⟨by simp [hmem], fun _ => rfl, ?_⟩
    intro err herr
    simp only [Option.some.injEq] at herr
    exact ⟨herr.symm, rfl, rfl⟩

theorem Create_fails_iff_email_key_witness :
    "john@example.com" ∈ twoUserStore.emails ∧
      twoUserStore.Create { jane with ID := 7, Email := "john@example.com" } =
        ((some Err.ErrUserAlreadyExists, { jane with ID := 7, Email := "john@example.com" }),
          twoUserStore) :=
  ⟨by decide,
    (Create_fails_iff_email_key twoUserStore
      { jane with ID := 7, Email := "john@example.com" }).2.1 (by decide)⟩

/-- `Delete` when records are handed over by value. In a reachable store
state it fails with `ErrUserNotFound`, leaving the store as it was, exactly when no record is stored under the id.
Otherwise it succeeds: the record is gone from the id index and its email,
which the email index mapped to this record, is gone from the email index;
every other key of the id index and every other key of the email index maps
to what it mapped to before, every other stored record still has its email
entry, and the counter is unchanged. -/
theorem Delete_outcome (r : InMemoryUserRepository) (h : Reachable r) (id : Int) :
    ((r.Delete id).1 = some Err.ErrUserNotFound ↔ ¬ ∃ user, Stored r id user) ∧
      ((¬ ∃ user, Stored r id user) → (r.Delete id).2 = r) ∧
      (∀ user, Stored r id user →
        (r.Delete id).1 = none ∧
        r.emails.lookup user.Email = some user ∧
        (r.Delete id).2.users.lookup id = none ∧
        (r.Delete id).2.emails.lookup user.Email = none ∧
        (∀ k, k ≠ id → (r.Delete id).2.users.lookup k = r.users.lookup k) ∧
        (∀ e, e ≠ user.Email → (r.Delete id).2.emails.lookup e = r.emails.lookup e) ∧
        (∀ k other, k ≠ id → Stored r k other →
          (r.Delete id).2.emails.lookup other.Email = some other) ∧
        (r.Delete id).2.nextID = r.nextID) := by
  have hc := h.consistent
  cases hl : r.users.lookup id with
  | none =>
    have hno : ¬ ∃ user, Stored r id user := by
      rintro ⟨user, hu⟩
      rw [Stored, hl] at hu
      exact absurd hu (by simp)
    rw [Delete_absent r id hl]
    refine ⟨by simp [hno], fun _ => rfl, ?_⟩
    intro user hu
    exact absurd ⟨user, hu⟩ hno
  | some stored =>
    have hyes : ∃ user, Stored r id user := ⟨stored, hl⟩
    rw [Delete_present r id stored hl]
    refine ⟨by simp [hyes], fun hno => absurd hyes hno, ?_⟩
    intro user hu
    rw [Stored, hl] at hu
    have hsu : stored = user := Option.some.inj hu
    subst hsu
    refine ⟨rfl, hc.email_of_stored hl, ?_, ?_, ?_, ?_, ?_, rfl⟩
    · simp only [Finmap.lookup_erase]
    · simp only [Finmap.lookup_erase]
    · intro k hk
      simp only [Finmap.lookup_erase_ne hk]
    · intro e he
      simp only [Finmap.lookup_erase_ne he]
    · intro k other hk ho
      have hne : other.Email ≠ stored.Email := by
        intro heq
        have h1 := hc.email_of_stored ho
        rw [heq, hc.email_of_stored hl] at h1
        have k1 := hc.id_key _ _ ho
        have k2 := hc.id_key _ _ hl
        rw [← Option.some.inj h1, k2] at k1
        exact hk k1.symm
      simp only [Finmap.lookup_erase_ne hne]
      exact hc.email_of_stored ho

theorem Delete_outcome_witness :
    Reachable twoUserStore ∧ Stored twoUserStore 1 john ∧
      (twoUserStore.Delete 1).1 = none ∧
      (twoUserStore.Delete 1).2.users.lookup 1 = none ∧
      (twoUserStore.Delete 1).2.emails.lookup "jane@example.com" = some jane :=
  ⟨⟨twoUserOps, rfl⟩, by decide,
    ((Delete_outcome twoUserStore ⟨twoUserOps, rfl⟩ 1).2.2 john (by decide)).1,
    ((Delete_outcome twoUserStore ⟨twoUserOps, rfl⟩ 1).2.2 john (by decide)).2.2.1,
    ((Delete_outcome twoUserStore ⟨twoUserOps, rfl⟩ 1).2.2 john (by decide)).2.2.2.2.2.2.1
      2 jane (by decide) (by decide)⟩

/-- C13. Reads are pure: `GetByID`, `GetByEmail` and `List`, and with them
`GetUserByID` and `ListUsers`, leave every store state as it is, so the same
read made a second time returns the same result (for `List` the same
records). -/
theorem reads_leave_store_unchanged (r : InMemoryUserRepository) (id : Int) (email : String) :
    ((r.GetByID id).2 = r ∧ (r.GetByEmail email).2 = r ∧ r.List.2 = r ∧
        (UserUseCase.GetUserByID inMemory r id).2 = r ∧
        (UserUseCase.ListUsers inMemory r).2 = r) ∧
      ((r.GetByID id).2.GetByID id = r.GetByID id ∧
        (r.GetByEmail email).2.GetByEmail email = r.GetByEmail email ∧
        r.List.2.List = r.List ∧
        UserUseCase.GetUserByID inMemory (UserUseCase.GetUserByID inMemory r id).2 id =
          UserUseCase.GetUserByID inMemory r id ∧
        UserUseCase.ListUsers inMemory (UserUseCase.ListUsers inMemory r).2 =
          UserUseCase.ListUsers inMemory r) := by
  have h1 : (r.GetByID id).2 = r := by
    unfold InMemoryUserRepository.GetByID
    split <;> rfl
  have h2 : (r.GetByEmail email).2 = r := by
    unfold InMemoryUserRepository.GetByEmail
    split <;> rfl
  have h3 : r.List.2 = r := rfl
  have h4 := GetUserByID_state r id
  have h5 : (UserUseCase.ListUsers inMemory r).2 = r := rfl
  refine ⟨⟨h1, h2, h3, h4, h5⟩, ?_, ?_, ?_, ?_, ?_⟩
  · rw [h1]
  · rw [h2]
  · rw [h3]
  · rw [h4]
  · rw [h5]

/-- C15. For every user record `Validate` returns `ErrUserNameRequired` when
the name is empty, whatever the email; otherwise `ErrUserEmailRequired` when
the email is empty; otherwise no error.  The result is the same for two
records with the same name and email.  (`Validate` assigns to no field, so
its embedding returns the error alone and the record stays what it is.) -/
theorem Validate_outcome (u : User) :
    (u.Name = "" → u.Validate = some Err.ErrUserNameRequired) ∧
      (u.Name ≠ "" → u.Email = "" → u.Validate = some Err.ErrUserEmailRequired) ∧
      (u.Name ≠ "" → u.Email ≠ "" → u.Validate = none) ∧
      (∀ v : User, v.Name = u.Name → v.Email = u.Email → v.Validate = u.Validate) := by
  refine ⟨?_, ?_, ?_, ?_⟩
  · intro hn
    simp [User.Validate, hn]
  · intro hn he
    simp [User.Validate, hn, he]
  · intro hn he
    simp [User.Validate, hn, he]
  · intro v hn he
    simp [User.Validate, hn, he]

theorem Validate_outcome_witness :
    ({ ID := 0, Name := "", Email := "", Created := 0, Updated := 0 } : User).Validate =
        some Err.ErrUserNameRequired ∧
      ({ ID := 0, Name := "John Doe", Email := "", Created := 0, Updated := 0 } : User).Validate =
        some Err.ErrUserEmailRequired ∧
      john.Validate = none :=
  ⟨(Validate_outcome { ID := 0, Name := "", Email := "", Created := 0, Updated := 0 }).1 rfl,
    (Validate_outcome { ID := 0, Name := "John Doe", Email := "", Created := 0, Updated := 0 }).2.1
      (by decide) rfl,
    (Validate_outcome john).2.2.1 (by decide) (by decide)⟩

/-- C16. For every user record `IsValid` returns true exactly when `Validate`
returns no error, which is exactly when the name and the email are both
non-empty. -/
theorem IsValid_iff (u : User) :
    (u.IsValid = true ↔ u.Validate = none) ∧
      (u.Validate = none ↔ u.Name ≠ "" ∧ u.Email ≠ "") ∧
      (u.IsValid = true ↔ u.Name ≠ "" ∧ u.Email ≠ "") := by
  have h1 : u.IsValid = true ↔ u.Validate = none := by
    unfold User.IsValid
    cases u.Validate with
    | none => simp
    | some e => simp
  have h2 : u.Validate = none ↔ u.Name ≠ "" ∧ u.Email ≠ "" := by
    by_cases hn : u.Name = "" <;> by_cases he : u.Email = "" <;>
      simp [User.Validate, hn, he]
  exact ⟨h1, h2, h1.trans h2⟩

/-- C17. `UpdateName` with the empty string fails with `ErrUserNameRequired`
and `UpdateEmail` with the empty string fails with `ErrUserEmailRequired`;
in both cases the record is returned with every field as it was; and the
empty string is the only argument on which either of them fails. -/
theorem Update_field_empty (u : User) (now : Time) :
    u.UpdateName "" now = (some Err.ErrUserNameRequired, u) ∧
      u.UpdateEmail "" now = (some Err.ErrUserEmailRequired, u) ∧
      (∀ name : String, (u.UpdateName name now).1 ≠ none ↔ name = "") ∧
      (∀ email : String, (u.UpdateEmail email now).1 ≠ none ↔ email = "") := by
  refine ⟨by simp [User.UpdateName], by simp [User.UpdateEmail], ?_, ?_⟩
  · intro name
    by_cases hn : name = "" <;> simp [User.UpdateName, hn]
  · intro email
    by_cases he : email = "" <;> simp [User.UpdateEmail, he]

/-- C18. For every record and every non-empty string `s`, `UpdateName s`
succeeds, sets `Name` to `s` and `Updated` to the clock reading, and leaves
`ID`, `Email` and `Created` as they were; `UpdateEmail s` succeeds, sets
`Email` to `s` and `Updated` to the clock reading, and leaves `ID`, `Name`
and `Created` as they were. -/
theorem Update_field_nonEmpty (u : User) (s : String) (now : Time) (hs : s ≠ "") :
    ((u.UpdateName s now).1 = none ∧
        (u.UpdateName s now).2.Name = s ∧ (u.UpdateName s now).2.Updated = now ∧
        (u.UpdateName s now).2.ID = u.ID ∧ (u.UpdateName s now).2.Email = u.Email ∧
        (u.UpdateName s now).2.Created = u.Created) ∧
      ((u.UpdateEmail s now).1 = none ∧
        (u.UpdateEmail s now).2.Email = s ∧ (u.UpdateEmail s now).2.Updated = now ∧
        (u.UpdateEmail s now).2.ID = u.ID ∧ (u.UpdateEmail s now).2.Name = u.Name ∧
        (u.UpdateEmail s now).2.Created = u.Created) := by
  simp [User.UpdateName, User.UpdateEmail, hs]

theorem Update_field_nonEmpty_witness :
    "Jane Doe" ≠ "" ∧
      (john.UpdateName "Jane Doe" 9).1 = none ∧
      (john.UpdateName "Jane Doe" 9).2.Name = "Jane Doe" ∧
      (john.UpdateName "Jane Doe" 9).2.Updated = 9 :=
  ⟨by decide,
    (Update_field_nonEmpty john "Jane Doe" 9 (by decide)).1.1,
    (Update_field_nonEmpty john "Jane Doe" 9 (by decide)).1.2.1,
    (Update_field_nonEmpty john "Jane Doe" 9 (by decide)).1.2.2.1⟩

/-- C19. For every id that is zero or negative and every repository, whatever
its methods do, `GetUserByID`, `UpdateUser` (for every name and email) and
`DeleteUser` fail with `ErrInvalidID` and return the state of the repository
they were given; run over the mock, they leave the list of recorded calls as
it was: no method of the repository is called. -/
theorem invalid_id_no_repository_call {σ : Type} (repo : UserRepository σ) (s : σ)
    (calls : List Call) (id : Int) (name email : String) (now1 now2 : Time) (hid : id ≤ 0) :
    (UserUseCase.GetUserByID repo s id = (Except.error Err.ErrInvalidID, s) ∧
        UserUseCase.UpdateUser repo s id name email now1 now2 =
          (Except.error Err.ErrInvalidID, s) ∧
        UserUseCase.DeleteUser repo s id = (some Err.ErrInvalidID, s)) ∧
      (UserUseCase.GetUserByID (UserRepositoryMock repo) (s, calls) id =
          (Except.error Err.ErrInvalidID, (s, calls)) ∧
        UserUseCase.UpdateUser (UserRepositoryMock repo) (s, calls) id name email now1 now2 =
          (Except.error Err.ErrInvalidID, (s, calls)) ∧
        UserUseCase.DeleteUser (UserRepositoryMock repo) (s, calls) id =
          (some Err.ErrInvalidID, (s, calls))) := by
  simp [UserUseCase.GetUserByID, UserUseCase.UpdateUser, UserUseCase.DeleteUser, hid]

theorem invalid_id_no_repository_call_witness :
    (-5 : Int) ≤ 0 ∧
      UserUseCase.GetUserByID failingRepository false (-5) =
        (Except.error Err.ErrInvalidID, false) ∧
      UserUseCase.UpdateUser failingRepository false (-5) "n" "e@x.com" 1 2 =
        (Except.error Err.ErrInvalidID, false) ∧
      UserUseCase.DeleteUser failingRepository false (-5) = (some Err.ErrInvalidID, false) :=
  ⟨by decide,
    (invalid_id_no_repository_call failingRepository false [] (-5) "n" "e@x.com" 1 2
      (by decide)).1⟩

/-- C20. For every positive id under which the store holds no record,
`GetUserByID`, `UpdateUser` (for every name and email) and `DeleteUser` fail
with `ErrUserNotFound` and leave the store as it was; the only call each of
them makes to the store is `GetByID`, so `Update` and `Delete` are not
called. -/
theorem absent_id_not_found (r : InMemoryUserRepository) (calls : List Call) (id : Int)
    (name email : String) (now1 now2 : Time) (hid : 0 < id)
    (habs : ¬ ∃ user, Stored r id user) :
    (UserUseCase.GetUserByID inMemory r id = (Except.error Err.ErrUserNotFound, r) ∧
        UserUseCase.UpdateUser inMemory r id name email now1 now2 =
          (Except.error Err.ErrUserNotFound, r) ∧
        UserUseCase.DeleteUser inMemory r id = (some Err.ErrUserNotFound, r)) ∧
      (UserUseCase.GetUserByID (UserRepositoryMock inMemory) (r, calls) id =
          (Except.error Err.ErrUserNotFound, (r, calls ++ [Call.GetByID id])) ∧
        UserUseCase.UpdateUser (UserRepositoryMock inMemory) (r, calls) id name email now1 now2 =
          (Except.error Err.ErrUserNotFound, (r, calls ++ [Call.GetByID id])) ∧
        UserUseCase.DeleteUser (UserRepositoryMock inMemory) (r, calls) id =
          (some Err.ErrUserNotFound, (r, calls ++ [Call.GetByID id]))) := by
  have hl : r.users.lookup id = none := by
    cases h : r.users.lookup id with
    | none => rfl
    | some user => exact absurd ⟨user, h⟩ habs
  refine ⟨⟨GetUserByID_absent r id hid hl, UpdateUser_absent r id name email now1 now2 hid hl,
    DeleteUser_absent r id hid hl⟩, ?_, ?_, ?_⟩
  · simp [UserUseCase.GetUserByID, not_le.2 hid, UserRepositoryMock, inMemory,
      InMemoryUserRepository.GetByID, hl]
  · simp [UserUseCase.UpdateUser, not_le.2 hid, UserRepositoryMock, inMemory,
      InMemoryUserRepository.GetByID, hl]
  · simp [UserUseCase.DeleteUser, not_le.2 hid, UserRepositoryMock, inMemory,
      InMemoryUserRepository.GetByID, hl]

theorem absent_id_not_found_witness :
    (0 : Int) < 9 ∧ (¬ ∃ user, Stored twoUserStore 9 user) ∧
      UserUseCase.UpdateUser (UserRepositoryMock inMemory) (twoUserStore, []) 9 "n" "e@x.com"
          5 6 =
        (Except.error Err.ErrUserNotFound, (twoUserStore, [] ++ [Call.GetByID 9])) ∧
      UserUseCase.DeleteUser (UserRepositoryMock inMemory) (twoUserStore, []) 9 =
        (some Err.ErrUserNotFound, (twoUserStore, [] ++ [Call.GetByID 9])) :=
  have habs : ¬ ∃ user, Stored twoUserStore 9 user := by
    rintro ⟨user, hu⟩
    have hnone : twoUserStore.users.lookup 9 = none := by decide
    rw [Stored, hnone] at hu
    exact absurd hu (by simp)
  ⟨by decide, habs,
    (absent_id_not_found twoUserStore [] 9 "n" "e@x.com" 5 6 (by decide) habs).2.2⟩

/-- C24. In every store state that a sequence of service calls (`CreateUser`,
`UpdateUser`, `DeleteUser`, `GetUserByID`, `ListUsers`) produces from a new
store, every stored user has a non-empty name and a non-empty email. -/
theorem stored_fields_nonEmpty (r : InMemoryUserRepository) (h : ServiceReachable r)
    (id : Int) (user : User) (hs : Stored r id user) :
    user.Name ≠ "" ∧ user.Email ≠ "" :=
  h.nonEmpty id user hs

theorem stored_fields_nonEmpty_witness :
    ServiceReachable twoUserStore ∧ Stored twoUserStore 2 jane ∧
      jane.Name ≠ "" ∧ jane.Email ≠ "" :=
  ⟨⟨_, rfl⟩, by decide,
    stored_fields_nonEmpty twoUserStore ⟨_, rfl⟩ 2 jane (by decide)⟩

/-- C25. With a clock whose successive readings never decrease, every user
stored in a store state reached through the service has
`Created ≤ Updated`: for every run of service calls on a new store in which
each clock reading is at least the one before, and every record stored after
the run. -/
theorem updated_ge_created (ops : List ServiceOp)
    (hclock : (clockReadings NewInMemoryUserRepository ops).Chain' (fun a b => a ≤ b))
    (id : Int) (user : User)
    (hs : Stored (runService NewInMemoryUserRepository ops) id user) :
    user.Created ≤ user.Updated := by
  have hpw : (clockReadings NewInMemoryUserRepository ops ++ []).Pairwise (fun a b => a ≤ b) := by
    rw [List.append_nil]
    exact List.chain'_iff_pairwise.1 hclock
  refine (stamps_le ops NewInMemoryUserRepository [] hpw ?_ id user hs).1
  intro k w hw
  simp [NewInMemoryUserRepository] at hw

theorem updated_ge_created_witness :
    (clockReadings NewInMemoryUserRepository
        [ServiceOp.createUser "John Doe" "john@example.com" 1 2,
         ServiceOp.updateUser 1 "John Updated" "" 2 9]).Chain' (fun a b => a ≤ b) ∧
      Stored (runService NewInMemoryUserRepository
        [ServiceOp.createUser "John Doe" "john@example.com" 1 2,
         ServiceOp.updateUser 1 "John Updated" "" 2 9]) 1
        { john with Name := "John Updated" } ∧
      ({ john with Name := "John Updated" } : User).Created ≤
        ({ john with Name := "John Updated" } : User).Updated :=
  have hread : clockReadings NewInMemoryUserRepository
      [ServiceOp.createUser "John Doe" "john@example.com" 1 2,
       ServiceOp.updateUser 1 "John Updated" "" 2 9] = [1, 2, 2] := by decide
  have hclock : (clockReadings NewInMemoryUserRepository
      [ServiceOp.createUser "John Doe" "john@example.com" 1 2,
       ServiceOp.updateUser 1 "John Updated" "" 2 9]).Chain' (fun a b => a ≤ b) := by
    rw [hread]; simp
  ⟨hclock, by decide,
    updated_ge_created
      [ServiceOp.createUser "John Doe" "john@example.com" 1 2,
       ServiceOp.updateUser 1 "John Updated" "" 2 9] hclock 1
      { john with Name := "John Updated" } (by decide)⟩

/-- C26, as the code has it. With a clock whose successive readings strictly
increase, every successful `UpdateUser` with a non-empty name or a non-empty
email, on a user stored in a state reached through the service, stores the
record it returns under the id, and the `Updated` of that record is strictly
greater than the `Updated` stored before the call. -/
theorem UpdateUser_advances_updated (ops : List ServiceOp) (id : Int) (name email : String)
    (now1 now2 : Time) (old new : User)
    (hclock : (clockReadings NewInMemoryUserRepository
      (ops ++ [ServiceOp.updateUser id name email now1 now2])).Chain' (fun a b => a < b))
    (hfield : name ≠ "" ∨ email ≠ "")
    (hs : Stored (runService NewInMemoryUserRepository ops) id old)
    (hok : (UserUseCase.UpdateUser inMemory (runService NewInMemoryUserRepository ops) id
      name email now1 now2).1 = Except.ok new) :
    Stored (UserUseCase.UpdateUser inMemory (runService NewInMemoryUserRepository ops) id
        name email now1 now2).2 id new ∧
      old.Updated < new.Updated := by
  have hr : Reachable (runService NewInMemoryUserRepository ops) :=
    ServiceReachable.reachable ⟨ops, rfl⟩
  have hc := hr.consistent
  have hpos : 0 < id := hr.id_pos hs
  have hkey : old.ID = id := hc.id_key _ _ hs
  have hl : (runService NewInMemoryUserRepository ops).users.lookup
      (updatedUser old name email now1 now2).ID = some old := by
    rw [updatedUser_ID, hkey]; exact hs
  have hread : ServiceOp.readings (runService NewInMemoryUserRepository ops)
      (ServiceOp.updateUser id name email now1 now2) =
      (if name ≠ "" then [now1] else []) ++ (if email ≠ "" then [now2] else []) := by
    have hs2 : (runService NewInMemoryUserRepository ops).users.lookup id = some old := hs
    simp [ServiceOp.readings, not_le.2 hpos, InMemoryUserRepository.GetByID, hs2]
  have hpw : (clockReadings NewInMemoryUserRepository ops ++
      ServiceOp.readings (runService NewInMemoryUserRepository ops)
        (ServiceOp.updateUser id name email now1 now2)).Pairwise (fun a b => a < b) := by
    have h := List.chain'_iff_pairwise.1 hclock
    rw [clockReadings_append] at h
    simpa [clockReadings] using h
  have hlater := stamps_lt ops NewInMemoryUserRepository _ hpw
    (by intro k w hw; simp [NewInMemoryUserRepository] at hw) id old hs
  rw [UpdateUser_present _ id name email now1 now2 old hpos hs] at hok ⊢
  cases hv : ((runService NewInMemoryUserRepository ops).emails.erase old.Email).lookup
      (updatedUser old name email now1 now2).Email with
  | some v =>
    rw [Update_conflict hc hl hv] at hok
    exact absurd hok (by simp)
  | none =>
    rw [Update_ok _ hl hv] at hok ⊢
    have hnew : updatedUser old name email now1 now2 = new := Except.ok.inj hok
    subst hnew
    constructor
    · simp only [Stored, updatedUser_ID, hkey, Finmap.lookup_insert]
    · rcases updatedUser_Updated old name email now1 now2 with ⟨h1, h2, _⟩ | ⟨_, hu⟩
      · rcases hfield with hf | hf
        · exact absurd h1 hf
        · exact absurd h2 hf
      · exact hlater _ (by rw [hread]; exact hu)

theorem UpdateUser_advances_updated_witness :
    (clockReadings NewInMemoryUserRepository
        ([ServiceOp.createUser "John Doe" "john@example.com" 1 2] ++
          [ServiceOp.updateUser 1 "John Updated" "john.updated@example.com" 3 4])).Chain'
        (fun a b => a < b) ∧
      ("John Updated" ≠ "" ∨ "john.updated@example.com" ≠ "") ∧
      Stored (runService NewInMemoryUserRepository
        [ServiceOp.createUser "John Doe" "john@example.com" 1 2]) 1 john ∧
      john.Updated <
        ({ john with Name := "John Updated", Email := "john.updated@example.com",
                     Updated := 4 } : User).Updated :=
  have hread : clockReadings NewInMemoryUserRepository
      ([ServiceOp.createUser "John Doe" "john@example.com" 1 2] ++
        [ServiceOp.updateUser 1 "John Updated" "john.updated@example.com" 3 4]) =
      [1, 2, 3, 4] := by decide
  have hclock : (clockReadings NewInMemoryUserRepository
      ([ServiceOp.createUser "John Doe" "john@example.com" 1 2] ++
        [ServiceOp.updateUser 1 "John Updated" "john.updated@example.com" 3 4])).Chain'
      (fun a b => a < b) := by
    rw [hread]; simp
  ⟨hclock, Or.inl (by decide), by decide,
    (UpdateUser_advances_updated [ServiceOp.createUser "John Doe" "john@example.com" 1 2] 1
      "John Updated" "john.updated@example.com" 3 4 john
      { john with Name := "John Updated", Email := "john.updated@example.com", Updated := 4 }
      hclock (Or.inl (by decide)) (by decide) rfl).2⟩

/-- C26, as stated, fails for an update with two empty strings: it succeeds
and the stored `Updated` is what it was, the clock, strictly increasing over
the run, not being read at all. -/
theorem UpdateUser_empty_keeps_updated :
    (clockReadings NewInMemoryUserRepository
        [ServiceOp.createUser "John Doe" "john@example.com" 1 2,
         ServiceOp.updateUser 1 "" "" 3 4]).Chain' (fun a b => a < b) ∧
      Stored johnStore 1 john ∧
      (UserUseCase.UpdateUser inMemory johnStore 1 "" "" 3 4).1 = Except.ok john ∧
      Stored (UserUseCase.UpdateUser inMemory johnStore 1 "" "" 3 4).2 1 john ∧
      ¬ john.Updated < john.Updated := by
  have hread : clockReadings NewInMemoryUserRepository
      [ServiceOp.createUser "John Doe" "john@example.com" 1 2,
       ServiceOp.updateUser 1 "" "" 3 4] = [1, 2] := by decide
  refine ⟨by rw [hread]; simp, by decide, rfl, by decide, by decide⟩

/-- C28. Reads hand out copies: in every heap in which the two maps hold
allocated addresses, an assignment of any record to the address that
`GetByID`, `GetByEmail` or `List` returned leaves the store what it is: the
same maps and counter, the same record at every stored address, and the same
records returned by every later `GetByID`, `GetByEmail` and `List`. -/
theorem Heap.returned_record_independent (w : Heap.World) (hw : w.WellFormed) (id : Int)
    (email : String) (changed : User) :
    (∀ p w1, w.GetByID id = (Except.ok p, w1) → Heap.SameStore (w1.store p changed) w1) ∧
      (∀ p w1, w.GetByEmail email = (Except.ok p, w1) →
        Heap.SameStore (w1.store p changed) w1) ∧
      (∀ ps w1, w.List = (Except.ok ps, w1) →
        ∀ p ∈ ps, Heap.SameStore (w1.store p changed) w1) := by
  refine ⟨?_, ?_, ?_⟩
  · intro p w1 hg
    unfold Heap.World.GetByID at hg
    cases hl : w.users.lookup id with
    | none => simp [hl] at hg
    | some q =>
      simp only [hl, Prod.mk.injEq, Except.ok.injEq] at hg
      obtain ⟨hp, hw1⟩ := hg
      subst hp hw1
      obtain ⟨h1, h2, h3⟩ := Heap.wellFormed_alloc hw (w.mem q)
      exact Heap.sameStore_of_store h1 _ changed h2 h3
  · intro p w1 hg
    unfold Heap.World.GetByEmail at hg
    cases hl : w.emails.lookup email with
    | none => simp [hl] at hg
    | some q =>
      simp only [hl, Prod.mk.injEq, Except.ok.injEq] at hg
      obtain ⟨hp, hw1⟩ := hg
      subst hp hw1
      obtain ⟨h1, h2, h3⟩ := Heap.wellFormed_alloc hw (w.mem q)
      exact Heap.sameStore_of_store h1 _ changed h2 h3
  · intro ps w1 hg p hp
    simp only [Heap.World.List, Prod.mk.injEq, Except.ok.injEq] at hg
    obtain ⟨hps, hw1⟩ := hg
    obtain ⟨h1, h2, _, h4, _, h6, _⟩ := Heap.copyAll_spec w.stored w (Heap.stored_lt hw)
    rw [hps] at h6
    rw [hw1] at h1 h2 h4
    have hwf : w1.WellFormed := by
      constructor
      · intro k q hq
        rw [h1] at hq
        exact Nat.lt_of_lt_of_le (hw.1 k q hq) h4
      · intro e q hq
        rw [h2] at hq
        exact Nat.lt_of_lt_of_le (hw.2 e q hq) h4
    apply Heap.sameStore_of_store hwf p changed
    · intro k q hq
      rw [h1] at hq
      exact Nat.ne_of_lt (Nat.lt_of_lt_of_le (hw.1 k q hq) (h6 p hp))
    · intro e q hq
      rw [h2] at hq
      exact Nat.ne_of_lt (Nat.lt_of_lt_of_le (hw.2 e q hq) (h6 p hp))

theorem Heap.returned_record_independent_witness :
    Heap.janeCreated.2.WellFormed ∧
      Heap.janeCreated.2.GetByID 1 =
        (Except.ok 2, (Heap.janeCreated.2.alloc john).2) ∧
      Heap.SameStore
        ((Heap.janeCreated.2.alloc john).2.store 2 { john with Name := "Changed" })
        (Heap.janeCreated.2.alloc john).2 :=
  have hw : Heap.janeCreated.2.WellFormed :=
    Heap.wellFormed_CreateUser (Heap.wellFormed_CreateUser Heap.wellFormed_new _ _ _ _) _ _ _ _
  ⟨hw, rfl,
    (Heap.returned_record_independent Heap.janeCreated.2 hw 1 "john@example.com"
      { john with Name := "Changed" }).1 2 _ rfl⟩

/-- C29, at the failing input. `CreateUser` returns for John the address 0
and for Jane the address 1, and these are the addresses that the two maps
hold.  When the caller then assigns Jane's email to the record at address 0,
the record returned for John, `GetByID 1` returns the changed record, two
stored users have the same email, and `GetByEmail` of John's old email
returns a record with another email.  In the same way a record that the caller
handed to `Update` (address 2) is changed in the store by a later
assignment of the caller. -/
theorem Heap.caller_write_changes_store :
    (Heap.johnCreated.1 = Except.ok 0 ∧ Heap.janeCreated.1 = Except.ok 1 ∧
        Heap.readByID Heap.janeCreated.2 1 = Except.ok john ∧
        Heap.readByID (Heap.janeCreated.2.store 0 { john with Email := "jane@example.com" }) 1 =
          Except.ok { john with Email := "jane@example.com" } ∧
        Heap.readByID (Heap.janeCreated.2.store 0 { john with Email := "jane@example.com" }) 2 =
          Except.ok jane ∧
        Heap.readByEmail (Heap.janeCreated.2.store 0 { john with Email := "jane@example.com" })
            "john@example.com" =
          Except.ok { john with Email := "jane@example.com" }) ∧
      (Heap.johnUpdated.1 = none ∧
        Heap.readByID Heap.johnUpdated.2 1 = Except.ok { john with Name := "John Updated" } ∧
        Heap.readByID (Heap.johnUpdated.2.store 2 { john with Name := "Changed" }) 1 =
          Except.ok { john with Name := "Changed" }) :=
  ⟨⟨rfl, rfl, rfl, rfl, rfl, rfl⟩, rfl, rfl, rfl⟩

/-- C30, at the failing input. The email lookup of the repository fails with
a storage error; `CreateUser` drops that error, goes on to `Validate` and
`Create`, and returns the created user with no error. -/
theorem CreateUser_drops_lookup_error :
    (faultyLookupRepository.GetByEmail () "john@example.com").1 =
        Except.error (Err.other "database error") ∧
      UserUseCase.CreateUser faultyLookupRepository () "John Doe" "john@example.com" 1 2 =
        (Except.ok john, ()) :=
  ⟨rfl, rfl⟩

/-- C32. The handler of `POST /users`, over every repository: a body that
does not decode is answered with 400 and the message "invalid request body",
the repository being left as it was and no call of it recorded; a success of
`CreateUser` with 201 and the user; `ErrUserAlreadyExists` with 409,
`ErrUserNameRequired` and `ErrUserEmailRequired` with 400, each with the
message of the error; every other error with 500. -/
theorem POST_users_responses {σ : Type} (repo : UserRepository σ) (s : σ) (calls : List Call)
    (req : CreateUserRequest) (now1 now2 : Time) :
    UserHandler.CreateUser (UserRepositoryMock repo) (s, calls) none now1 now2 =
        (⟨400, some "application/json", Body.error "invalid request body"⟩, (s, calls)) ∧
      (∀ user s1,
        UserUseCase.CreateUser repo s req.Name req.Email now1 now2 = (Except.ok user, s1) →
        UserHandler.CreateUser repo s (some req) now1 now2 =
          (⟨201, some "application/json", Body.user user⟩, s1)) ∧
      (∀ err s1,
        UserUseCase.CreateUser repo s req.Name req.Email now1 now2 = (Except.error err, s1) →
        (err = Err.ErrUserAlreadyExists →
          UserHandler.CreateUser repo s (some req) now1 now2 =
            (⟨409, some "application/json", Body.error "user already exists"⟩, s1)) ∧
        (err = Err.ErrUserNameRequired →
          UserHandler.CreateUser repo s (some req) now1 now2 =
            (⟨400, some "application/json", Body.error "user name is required"⟩, s1)) ∧
        (err = Err.ErrUserEmailRequired →
          UserHandler.CreateUser repo s (some req) now1 now2 =
            (⟨400, some "application/json", Body.error "user email is required"⟩, s1)) ∧
        (err ≠ Err.ErrUserAlreadyExists → err ≠ Err.ErrUserNameRequired →
          err ≠ Err.ErrUserEmailRequired →
          (UserHandler.CreateUser repo s (some req) now1 now2).1.status = 500 ∧
          UserHandler.CreateUser repo s (some req) now1 now2 =
            (⟨500, some "application/json", Body.error "failed to create user"⟩, s1))) := by
  refine ⟨rfl, ?_, ?_⟩
  · intro user s1 h
    simp only [UserHandler.writeError, UserHandler.writeJSON, UserHandler.CreateUser, h, StatusCreated]
  · intro err s1 h
    refine ⟨?_, ?_, ?_, ?_⟩
    · intro he; subst he
      simp only [UserHandler.writeError, UserHandler.writeJSON, UserHandler.CreateUser, h, StatusConflict, Err.Error]
    · intro he; subst he
      simp only [UserHandler.writeError, UserHandler.writeJSON, UserHandler.CreateUser, h, StatusBadRequest, Err.Error]
    · intro he; subst he
      simp only [UserHandler.writeError, UserHandler.writeJSON, UserHandler.CreateUser, h, StatusBadRequest, Err.Error]
    · intro h1 h2 h3
      cases err <;> simp_all [UserHandler.writeError, UserHandler.writeJSON, UserHandler.CreateUser, StatusInternalServerError]

theorem POST_users_responses_witness :
    UserHandler.CreateUser inMemory johnStore
        (some { Name := "Jane Doe", Email := "jane@example.com" }) 3 4 =
        (⟨201, some "application/json", Body.user jane⟩, twoUserStore) ∧
      UserHandler.CreateUser inMemory johnStore
        (some { Name := "", Email := "john@example.com" }) 3 4 =
        (⟨409, some "application/json", Body.error "user already exists"⟩, johnStore) :=
  ⟨(POST_users_responses inMemory johnStore []
      { Name := "Jane Doe", Email := "jane@example.com" } 3 4).2.1 jane twoUserStore rfl,
    ((POST_users_responses inMemory johnStore []
      { Name := "", Email := "john@example.com" } 3 4).2.2
        Err.ErrUserAlreadyExists johnStore rfl).1 rfl⟩

/-- C33, as the code has it. The handlers of `GET`, `PUT` and `DELETE
/users/{id}`, over every repository.  An id segment that `strconv.Atoi`
rejects is answered with 400 and "invalid user ID", and for `PUT` a body that
does not decode with 400 and "invalid request body"; in both cases the
repository is left as it was and no call of it is recorded.  Otherwise
`ErrInvalidID` is answered with 400 and `ErrUserNotFound` with 404; for `PUT`
also `ErrUserNameRequired` and `ErrUserEmailRequired` with 400; each with the
message of the error; a success with 200 and the user for `GET` and `PUT` and
with 204 and no body for `DELETE`; every other error with 500. -/
theorem id_handlers_responses {σ : Type} (repo : UserRepository σ) (s : σ) (calls : List Call)
    (id : Int) (req : UpdateUserRequest) (now1 now2 : Time) :
    (UserHandler.GetUser (UserRepositoryMock repo) (s, calls) none =
          (⟨400, some "application/json", Body.error "invalid user ID"⟩, (s, calls)) ∧
        (∀ decoded, UserHandler.UpdateUser (UserRepositoryMock repo) (s, calls) none decoded
            now1 now2 =
          (⟨400, some "application/json", Body.error "invalid user ID"⟩, (s, calls))) ∧
        UserHandler.DeleteUser (UserRepositoryMock repo) (s, calls) none =
          (⟨400, some "application/json", Body.error "invalid user ID"⟩, (s, calls)) ∧
        UserHandler.UpdateUser (UserRepositoryMock repo) (s, calls) (some id) none now1 now2 =
          (⟨400, some "application/json", Body.error "invalid request body"⟩, (s, calls))) ∧
      (∀ res s1, UserUseCase.GetUserByID repo s id = (res, s1) →
        UserHandler.GetUser repo s (some id) =
          (match res with
            | Except.ok user => ⟨200, some "application/json", Body.user user⟩
            | Except.error Err.ErrUserNotFound => ⟨404, some "application/json", Body.error "user not found"⟩
            | Except.error Err.ErrInvalidID => ⟨400, some "application/json", Body.error "invalid ID"⟩
            | Except.error _ => ⟨500, some "application/json", Body.error "failed to get user"⟩, s1)) ∧
      (∀ res s1, UserUseCase.UpdateUser repo s id req.Name req.Email now1 now2 = (res, s1) →
        UserHandler.UpdateUser repo s (some id) (some req) now1 now2 =
          (match res with
            | Except.ok user => ⟨200, some "application/json", Body.user user⟩
            | Except.error Err.ErrUserNotFound => ⟨404, some "application/json", Body.error "user not found"⟩
            | Except.error Err.ErrInvalidID => ⟨400, some "application/json", Body.error "invalid ID"⟩
            | Except.error Err.ErrUserNameRequired =>
              ⟨400, some "application/json", Body.error "user name is required"⟩
            | Except.error Err.ErrUserEmailRequired =>
              ⟨400, some "application/json", Body.error "user email is required"⟩
            | Except.error _ => ⟨500, some "application/json", Body.error "failed to update user"⟩, s1)) ∧
      (∀ res s1, UserUseCase.DeleteUser repo s id = (res, s1) →
        UserHandler.DeleteUser repo s (some id) =
          (match res with
            | none => { status := 204, contentType := none, body := Body.empty }
            | some Err.ErrUserNotFound => ⟨404, some "application/json", Body.error "user not found"⟩
            | some Err.ErrInvalidID => ⟨400, some "application/json", Body.error "invalid ID"⟩
            | some _ => ⟨500, some "application/json", Body.error "failed to delete user"⟩, s1)) := by
  refine ⟨⟨rfl, fun _ => rfl, rfl, rfl⟩, ?_, ?_, ?_⟩
  · intro res s1 h
    cases res with
    | ok user => simp only [UserHandler.writeError, UserHandler.writeJSON, UserHandler.GetUser, h, StatusOK]
    | error err =>
      cases err <;>
        simp only [UserHandler.writeError, UserHandler.writeJSON, UserHandler.GetUser, h, Err.Error, StatusNotFound, StatusBadRequest,
          StatusInternalServerError]
  · intro res s1 h
    cases res with
    | ok user => simp only [UserHandler.writeError, UserHandler.writeJSON, UserHandler.UpdateUser, h, StatusOK]
    | error err =>
      cases err <;>
        simp only [UserHandler.writeError, UserHandler.writeJSON, UserHandler.UpdateUser, h, Err.Error, StatusNotFound, StatusBadRequest,
          StatusInternalServerError]
  · intro res s1 h
    cases res with
    | none => simp only [UserHandler.writeError, UserHandler.writeJSON, UserHandler.DeleteUser, h, StatusNoContent]
    | some err =>
      cases err <;>
        simp only [UserHandler.writeError, UserHandler.writeJSON, UserHandler.DeleteUser, h, Err.Error, StatusNotFound, StatusBadRequest,
          StatusInternalServerError]

theorem id_handlers_responses_witness :
    UserHandler.GetUser inMemory twoUserStore (some 1) =
        (⟨200, some "application/json", Body.user john⟩, twoUserStore) ∧
      UserHandler.DeleteUser inMemory twoUserStore (some 9) =
        (⟨404, some "application/json", Body.error "user not found"⟩, twoUserStore) :=
  ⟨(id_handlers_responses inMemory twoUserStore [] 1 { Name := "", Email := "" } 3 4).2.1
      (Except.ok john) twoUserStore rfl,
    (id_handlers_responses inMemory twoUserStore [] 9 { Name := "", Email := "" } 3 4).2.2.2
      (some Err.ErrUserNotFound) twoUserStore rfl⟩

/-- C33, as stated, fails for `PUT`: an error of the service other than
`ErrInvalidID` and `ErrUserNotFound`, here `ErrUserNameRequired` coming from a
repository that validates what it is given, is answered with 400 and the
message of the error, not with 500; and a body that does not decode is
answered with 400 as well. -/
theorem PUT_name_required_is_400 :
    (UserUseCase.UpdateUser validatingRepository () 1 "John Updated" "" 3 4).1 =
        Except.error Err.ErrUserNameRequired ∧
      UserHandler.UpdateUser validatingRepository () (some 1)
          (some { Name := "John Updated", Email := "" }) 3 4 =
        (⟨400, some "application/json", Body.error "user name is required"⟩, ()) ∧
      (UserHandler.UpdateUser validatingRepository () (some 1)
          (some { Name := "John Updated", Email := "" }) 3 4).1.status ≠ 500 ∧
      UserHandler.UpdateUser inMemory johnStore (some 1) none 3 4 =
        (⟨400, some "application/json", Body.error "invalid request body"⟩, johnStore) :=
  ⟨rfl, rfl, by decide, rfl⟩

/-- C34. No detail of an unrecognised error reaches the response: for each
handler and every repository, when the service returns an error outside the
set that the handler recognises, the response is 500 with the fixed message
of the endpoint; so two runs whose service errors are outside that set, for
instance two errors that differ in their text only, get the same response. -/
theorem unrecognised_error_fixed_response {σ : Type} (repo : UserRepository σ) (s s1 : σ)
    (err : Err) (id : Int) (creq : CreateUserRequest) (ureq : UpdateUserRequest)
    (now1 now2 : Time) :
    (UserUseCase.CreateUser repo s creq.Name creq.Email now1 now2 = (Except.error err, s1) →
        err ≠ Err.ErrUserAlreadyExists → err ≠ Err.ErrUserNameRequired →
        err ≠ Err.ErrUserEmailRequired →
        UserHandler.CreateUser repo s (some creq) now1 now2 =
          (⟨500, some "application/json", Body.error "failed to create user"⟩, s1)) ∧
      (UserUseCase.GetUserByID repo s id = (Except.error err, s1) →
        err ≠ Err.ErrUserNotFound → err ≠ Err.ErrInvalidID →
        UserHandler.GetUser repo s (some id) =
          (⟨500, some "application/json", Body.error "failed to get user"⟩, s1)) ∧
      (UserUseCase.UpdateUser repo s id ureq.Name ureq.Email now1 now2 =
          (Except.error err, s1) →
        err ≠ Err.ErrUserNotFound → err ≠ Err.ErrInvalidID →
        err ≠ Err.ErrUserNameRequired → err ≠ Err.ErrUserEmailRequired →
        UserHandler.UpdateUser repo s (some id) (some ureq) now1 now2 =
          (⟨500, some "application/json", Body.error "failed to update user"⟩, s1)) ∧
      (UserUseCase.DeleteUser repo s id = (some err, s1) →
        err ≠ Err.ErrUserNotFound → err ≠ Err.ErrInvalidID →
        UserHandler.DeleteUser repo s (some id) =
          (⟨500, some "application/json", Body.error "failed to delete user"⟩, s1)) ∧
      (UserUseCase.ListUsers repo s = (Except.error err, s1) →
        UserHandler.ListUsers repo s =
          (⟨500, some "application/json", Body.error "failed to list users"⟩, s1)) := by
  refine ⟨?_, ?_, ?_, ?_, ?_⟩
  · intro h h1 h2 h3
    cases err <;> simp_all [UserHandler.writeError, UserHandler.writeJSON, UserHandler.CreateUser, StatusInternalServerError]
  · intro h h1 h2
    cases err <;> simp_all [UserHandler.writeError, UserHandler.writeJSON, UserHandler.GetUser, StatusInternalServerError]
  · intro h h1 h2 h3 h4
    cases err <;> simp_all [UserHandler.writeError, UserHandler.writeJSON, UserHandler.UpdateUser, StatusInternalServerError]
  · intro h h1 h2
    cases err <;> simp_all [UserHandler.writeError, UserHandler.writeJSON, UserHandler.DeleteUser, StatusInternalServerError]
  · intro h
    simp only [UserHandler.writeError, UserHandler.writeJSON, UserHandler.ListUsers, h, StatusInternalServerError]

theorem unrecognised_error_fixed_response_witness :
    UserUseCase.GetUserByID failingRepository false 3 =
        (Except.error Err.ErrInternalServer, true) ∧
      UserHandler.GetUser failingRepository false (some 3) =
        (⟨500, some "application/json", Body.error "failed to get user"⟩, true) ∧
      UserHandler.ListUsers failingRepository false =
        (⟨500, some "application/json", Body.error "failed to list users"⟩, true) :=
  ⟨rfl,
    (unrecognised_error_fixed_response failingRepository false true Err.ErrInternalServer 3
      { Name := "", Email := "" } { Name := "", Email := "" } 1 2).2.1 rfl
      (by decide) (by decide),
    (unrecognised_error_fixed_response failingRepository false true Err.ErrInternalServer 3
      { Name := "", Email := "" } { Name := "", Email := "" } 1 2).2.2.2.2 rfl⟩

/-- C37. Over the in-memory store `UpdateUser` never fails with
`ErrUserNameRequired` or `ErrUserEmailRequired`, in any store state and for
any id, name and email: when it fails, the error is `ErrInvalidID`,
`ErrUserNotFound` or `ErrUserAlreadyExists`. -/
theorem UpdateUser_failures (r : InMemoryUserRepository) (id : Int) (name email : String)
    (now1 now2 : Time) (err : Err)
    (h : (UserUseCase.UpdateUser inMemory r id name email now1 now2).1 = Except.error err) :
    (err = Err.ErrInvalidID ∨ err = Err.ErrUserNotFound ∨ err = Err.ErrUserAlreadyExists) ∧
      err ≠ Err.ErrUserNameRequired ∧ err ≠ Err.ErrUserEmailRequired := by
  have hmain : err = Err.ErrInvalidID ∨ err = Err.ErrUserNotFound ∨
      err = Err.ErrUserAlreadyExists := by
    by_cases hid : id ≤ 0
    · rw [UpdateUser_invalid r id name email now1 now2 hid] at h
      exact Or.inl (Except.error.inj h).symm
    · cases hl : r.users.lookup id with
      | none =>
        rw [UpdateUser_absent r id name email now1 now2 (not_le.1 hid) hl] at h
        exact Or.inr (Or.inl (Except.error.inj h).symm)
      | some existing =>
        rw [UpdateUser_present r id name email now1 now2 existing (not_le.1 hid) hl] at h
        cases hu : (r.Update (updatedUser existing name email now1 now2)).1.1 with
        | none =>
          rw [hu] at h
          exact absurd h (by simp)
        | some e =>
          rw [hu] at h
          have he : e = err := Except.error.inj h
          rw [← he]
          exact Or.inr (Update_errors r _ e hu)
  refine ⟨hmain, ?_, ?_⟩
  · rintro rfl
    rcases hmain with h1 | h1 | h1 <;> exact absurd h1 (by decide)
  · rintro rfl
    rcases hmain with h1 | h1 | h1 <;> exact absurd h1 (by decide)

theorem UpdateUser_failures_witness :
    (UserUseCase.UpdateUser inMemory twoUserStore 1 "" jane.Email 7 8).1 =
        Except.error Err.ErrUserAlreadyExists ∧
      Err.ErrUserAlreadyExists ≠ Err.ErrUserNameRequired :=
  ⟨rfl,
    (UpdateUser_failures twoUserStore 1 "" jane.Email 7 8 Err.ErrUserAlreadyExists rfl).2.1⟩

/-- C31. Goroutines that call `CreateUser` with non-empty names and non-empty
emails on a new store, their calls of `GetByEmail` and of `Create` interleaved
in any order `schedule`.  Once every goroutine had two turns, all have
returned.  When all have returned and the emails are pairwise distinct, every
goroutine returned a user with the name and the email of its call, the ids of
these users are pairwise distinct, and `ListUsers` then returns these users, as
many as there were calls.  When all have returned and there were two calls,
with the same email, one goroutine returned a user and the other
`ErrUserAlreadyExists`. -/
theorem concurrent_CreateUser (calls : List CreateArgs) (schedule : List Nat)
    (hne : ∀ a ∈ calls, a.name ≠ "" ∧ a.email ≠ "") :
    ((∀ i, i < calls.length → 2 ≤ schedule.count i) →
        ((Pool.start calls).run schedule).finished = true) ∧
      (((Pool.start calls).run schedule).finished = true →
        (calls.map CreateArgs.email).Nodup →
        ∃ users : List User,
          ((Pool.start calls).run schedule).goroutines =
            users.map (fun u => Goroutine.returned (Except.ok u)) ∧
          users.length = calls.length ∧
          users.map User.Name = calls.map CreateArgs.name ∧
          users.map User.Email = calls.map CreateArgs.email ∧
          (users.map User.ID).Nodup ∧
          ∃ listed,
            UserUseCase.ListUsers inMemory ((Pool.start calls).run schedule).store =
              (Except.ok listed, ((Pool.start calls).run schedule).store) ∧
            Multiset.card listed = calls.length ∧ ∀ u, u ∈ listed ↔ u ∈ users) ∧
      (∀ a b, calls = [a, b] → a.email = b.email →
        ((Pool.start calls).run schedule).finished = true →
        (∃ u, ((Pool.start calls).run schedule).goroutines =
            [Goroutine.returned (Except.ok u),
              Goroutine.returned (Except.error Err.ErrUserAlreadyExists)]) ∨
          (∃ u, ((Pool.start calls).run schedule).goroutines =
            [Goroutine.returned (Except.error Err.ErrUserAlreadyExists),
              Goroutine.returned (Except.ok u)])) := by
  have hinv : PoolInv calls ((Pool.start calls).run schedule) :=
    PoolInv.run hne schedule _ (PoolInv_start calls)
  refine ⟨Pool_run_finished calls schedule, ?_, ?_⟩
  · intro hfin hnd
    exact hinv.all_succeed hnd hfin
  · intro a b hab he hfin
    subst hab
    exact hinv.same_email he hfin

theorem concurrent_CreateUser_witness :
    (∀ a ∈ distinctCalls, a.name ≠ "" ∧ a.email ≠ "") ∧
      (∀ a ∈ sameEmailCalls, a.name ≠ "" ∧ a.email ≠ "") ∧
      ((Pool.start distinctCalls).run [0, 1, 1, 0]).finished = true ∧
      (∃ users : List User,
        ((Pool.start distinctCalls).run [0, 1, 1, 0]).goroutines =
          users.map (fun u => Goroutine.returned (Except.ok u)) ∧
        users.length = distinctCalls.length ∧
        users.map User.Name = distinctCalls.map CreateArgs.name ∧
        users.map User.Email = distinctCalls.map CreateArgs.email ∧
        (users.map User.ID).Nodup ∧
        ∃ listed,
          UserUseCase.ListUsers inMemory ((Pool.start distinctCalls).run [0, 1, 1, 0]).store =
            (Except.ok listed, ((Pool.start distinctCalls).run [0, 1, 1, 0]).store) ∧
          Multiset.card listed = distinctCalls.length ∧ ∀ u, u ∈ listed ↔ u ∈ users) ∧
      ((∃ u, ((Pool.start sameEmailCalls).run [0, 1, 1, 0]).goroutines =
          [Goroutine.returned (Except.ok u),
            Goroutine.returned (Except.error Err.ErrUserAlreadyExists)]) ∨
        (∃ u, ((Pool.start sameEmailCalls).run [0, 1, 1, 0]).goroutines =
          [Goroutine.returned (Except.error Err.ErrUserAlreadyExists),
            Goroutine.returned (Except.ok u)])) :=
  ⟨by decide, by decide,
    (concurrent_CreateUser distinctCalls [0, 1, 1, 0] (by decide)).1 (by decide),
    (concurrent_CreateUser distinctCalls [0, 1, 1, 0] (by decide)).2.1 rfl (by decide),
    (concurrent_CreateUser sameEmailCalls [0, 1, 1, 0] (by decide)).2.2 _ _ rfl rfl rfl⟩

/-- C31, the calls that the claim does not exclude: calls without a name.
Of two goroutines called with different non-empty emails, the one called
without a name returns `ErrUserNameRequired`, and `ListUsers` then returns one
user, not two.  Two goroutines called with the same non-empty email and without
a name both return `ErrUserNameRequired`. -/
theorem concurrent_CreateUser_nameless :
    (namelessCalls.map CreateArgs.email).Nodup ∧
      (∀ a ∈ namelessCalls, a.email ≠ "") ∧
      ((Pool.start namelessCalls).run [0, 1, 1]).finished = true ∧
      ((Pool.start namelessCalls).run [0, 1, 1]).goroutines =
        [Goroutine.returned (Except.error Err.ErrUserNameRequired),
          Goroutine.returned (Except.ok ⟨1, "User 1", "user1@example.com", 3, 4⟩)] ∧
      (UserUseCase.ListUsers inMemory ((Pool.start namelessCalls).run [0, 1, 1]).store).1 =
        Except.ok {(⟨1, "User 1", "user1@example.com", 3, 4⟩ : User)} ∧
      ((Pool.start namelessSameEmailCalls).run [0, 1]).finished = true ∧
      ((Pool.start namelessSameEmailCalls).run [0, 1]).goroutines =
        [Goroutine.returned (Except.error Err.ErrUserNameRequired),
          Goroutine.returned (Except.error Err.ErrUserNameRequired)] :=
  ⟨by decide, by decide, rfl, rfl, rfl, rfl, rfl⟩

/-- C1, at the failing input. On a new repository `CreateUser` stores John
under id 1 and Jane under id 2.  The caller assigns Jane's email to the record
that `CreateUser` returned for John, which is the record that the store holds,
and passes it to `Update`.  `Update` succeeds, and afterwards the users stored
under the ids 1 and 2 have the same email. -/
theorem Heap.aliased_update_duplicates_email :
    Heap.johnCreated.1 = Except.ok 0 ∧ Heap.janeCreated.1 = Except.ok 1 ∧
      Heap.johnAliased.1 = none ∧
      Heap.readByID Heap.johnAliased.2 1 =
        Except.ok ⟨1, "John Doe", "jane@example.com", 1, 2⟩ ∧
      Heap.readByID Heap.johnAliased.2 2 =
        Except.ok ⟨2, "Jane Doe", "jane@example.com", 3, 4⟩ :=
  ⟨rfl, rfl, rfl, rfl, rfl⟩

/-- C9, at the failing input. The caller changes the email of the record that
the store holds for John and passes it to `Update`.  With Jane's email, held
by the user stored under id 2, `Update` succeeds instead of failing with
`ErrUserAlreadyExists`.  With an email that nobody holds, `Update` succeeds and
`GetByEmail` of John's old email still returns the record instead of failing
with `ErrUserNotFound`. -/
theorem Heap.aliased_update_misses_conflict :
    (Heap.readByID Heap.johnRewritten 2 =
          Except.ok ⟨2, "Jane Doe", "jane@example.com", 3, 4⟩ ∧
        (Heap.johnRewritten.mem 0).ID = 1 ∧
        (Heap.johnRewritten.mem 0).Email = "jane@example.com" ∧
        (Heap.johnRewritten.Update 0).1 = none) ∧
      (Heap.readByEmail Heap.janeCreated.2 "john@example.com" = Except.ok john ∧
        Heap.johnMoved.1 = none ∧
        Heap.readByID Heap.johnMoved.2 1 =
          Except.ok ⟨1, "John Doe", "johnny@example.com", 1, 2⟩ ∧
        Heap.readByEmail Heap.johnMoved.2 "john@example.com" =
          Except.ok ⟨1, "John Doe", "johnny@example.com", 1, 2⟩) :=
  ⟨⟨rfl, rfl, rfl, rfl⟩, rfl, rfl, rfl, rfl⟩

/-- C10, at the failing input. In the store that `Update` with the rewritten
record of John left, an `Update` of user 2 to John's first email fails with
`ErrUserAlreadyExists`, and the store after it is not the store before it:
the email index mapped Jane's email to the record of user 1 and now maps it
to the record of user 2. -/
theorem Heap.failed_update_changes_store :
    Heap.janeRejected.1 = some Err.ErrUserAlreadyExists ∧
      Heap.johnAliased.2.emails.lookup "jane@example.com" = some 0 ∧
      Heap.janeRejected.2.emails.lookup "jane@example.com" = some 1 ∧
      Heap.readByEmail Heap.johnAliased.2 "jane@example.com" =
        Except.ok ⟨1, "John Doe", "jane@example.com", 1, 2⟩ ∧
      Heap.readByEmail Heap.janeRejected.2 "jane@example.com" =
        Except.ok ⟨2, "Jane Doe", "jane@example.com", 3, 4⟩ :=
  ⟨rfl, by decide, by decide, rfl, rfl⟩

/-- C12, at the failing input. After the caller assigned Jane's email to the
record that the store holds for John, `Delete 1` removes the entry of Jane's
email, the entry of the other record, and leaves the entry of John's first
email, which leads to the deleted record: user 2 is still stored and is no
longer found by email.  And in the store that `Update` with the rewritten
record left, `Delete 2` removes the email entry of user 1, who is still
stored. -/
theorem Heap.delete_removes_other_entry :
    ((Heap.johnRewritten.Delete 1).1 = none ∧
        Heap.readByID (Heap.johnRewritten.Delete 1).2 1 =
          Except.error Err.ErrUserNotFound ∧
        Heap.readByID (Heap.johnRewritten.Delete 1).2 2 =
          Except.ok ⟨2, "Jane Doe", "jane@example.com", 3, 4⟩ ∧
        Heap.readByEmail Heap.johnRewritten "jane@example.com" =
          Except.ok ⟨2, "Jane Doe", "jane@example.com", 3, 4⟩ ∧
        Heap.readByEmail (Heap.johnRewritten.Delete 1).2 "jane@example.com" =
          Except.error Err.ErrUserNotFound ∧
        Heap.readByEmail (Heap.johnRewritten.Delete 1).2 "john@example.com" =
          Except.ok ⟨1, "John Doe", "jane@example.com", 1, 2⟩) ∧
      ((Heap.johnAliased.2.Delete 2).1 = none ∧
        Heap.readByID (Heap.johnAliased.2.Delete 2).2 1 =
          Except.ok ⟨1, "John Doe", "jane@example.com", 1, 2⟩ ∧
        Heap.readByEmail Heap.johnAliased.2 "jane@example.com" =
          Except.ok ⟨1, "John Doe", "jane@example.com", 1, 2⟩ ∧
        Heap.readByEmail (Heap.johnAliased.2.Delete 2).2 "jane@example.com" =
          Except.error Err.ErrUserNotFound) :=
  ⟨⟨rfl, rfl, rfl, rfl, rfl, rfl⟩, rfl, rfl, rfl, rfl⟩

end AgentOrchestration
